import Mathlib

/-!
# Block-indirected deque (`src/deque.h`): embedding and verified properties

The C++ class `Deque<T>` keeps a vector of block pointers (`blocks_`), a size
counter (`size_`) and four boundary iterators.  An iterator is a pair
(position in the block-pointer array, offset inside the block) plus a cached
slot address that every iterator operation recomputes from that pair.

Modelling choices.
* A block pointer is modelled by the block it owns: a block is a list of 32
  slots, `blocks_` is a list of blocks.  Blocks are never shared between two
  arrays that are both alive, so value semantics loses nothing.
* A slot is `Option T`: `none` is raw storage that holds no constructed
  element, `some v` a constructed element `v`.  Placement-new writes `some v`,
  a destructor call writes `none`, copy-assignment copies the slot content.
* A `const T&` parameter that is read after the storage has been modified
  (`insert`) is a `ValueRef`: an outside object or a slot of the deque itself.
  `push_back` and `push_front` read their argument before they modify any
  slot and growth moves no element, so they take the value read.
* `block` (a `T**`) is the position in the block array, an `Int`; `index`
  (`int`) and `ptrdiff_t` values are `Int` (signed overflow is undefined in
  C++ and excluded).  `size_t` values are `Nat`; the conversions
  `ptrdiff_t -> size_t` and the wrap of `--size_` at zero are explicit;
  `++size_` is taken without its wrap at `2^64`, a count no deque can reach.
* Element construction is taken to return normally, except in
  `push_front_ex` and `reallocate_from_till` / `op_assign`, where the copy
  constructor of `T` is a parameter `copy : T → Option T` (`none` when it
  throws) and the `catch` paths of the source are modelled.
-/

/-! ## Positioned iterator -/

/-- Iterator state of `CommonIterator`: `block` is the position in the
block-pointer array, `index` the offset inside that block. -/
structure CommonIterator where
  block : Int
  index : Int
deriving DecidableEq, Repr

namespace CommonIterator

/-- Block capacity `kBlockSize`. -/
def kBlockSize : Int := 32

/-- Pre-increment `operator++()`. -/
def op_inc (it : CommonIterator) : CommonIterator :=
  let index := it.index + 1
  if index = kBlockSize then { block := it.block + 1, index := 0 }
  else { block := it.block, index := index }

/-- Pre-decrement `operator--()`. -/
def op_dec (it : CommonIterator) : CommonIterator :=
  let index := it.index - 1
  if index = -1 then { block := it.block - 1, index := kBlockSize - 1 }
  else { block := it.block, index := index }

/-- Compound addition `operator+=(ptrdiff_t shift)`; `/` and `%` of C++
truncate toward zero (`Int.tdiv`, `Int.tmod`). -/
def op_plus_eq (it : CommonIterator) (shift : Int) : CommonIterator :=
  let res_index := it.index + shift
  let block_shift :=
    if res_index < 0 then (res_index - kBlockSize + 1).tdiv kBlockSize
    else res_index.tdiv kBlockSize
  { block := it.block + block_shift,
    index := ((res_index.tmod kBlockSize) + kBlockSize).tmod kBlockSize }

/-- Compound subtraction `operator-=(ptrdiff_t shift)`. -/
def op_minus_eq (it : CommonIterator) (shift : Int) : CommonIterator :=
  it.op_plus_eq (-shift)

/-- Comparison `operator<`. -/
def op_lt (a b : CommonIterator) : Bool :=
  if a.block ≠ b.block then decide (a.block < b.block)
  else decide (a.index < b.index)

/-- Comparison `operator>`. -/
def op_gt (a b : CommonIterator) : Bool := b.op_lt a

/-- Comparison `operator<=`. -/
def op_le (a b : CommonIterator) : Bool := !(b.op_lt a)

/-- Comparison `operator>=`. -/
def op_ge (a b : CommonIterator) : Bool := !(b.op_gt a)

/-- Comparison `operator==`. -/
def op_eq (a b : CommonIterator) : Bool :=
  decide (a.block = b.block) && decide (a.index = b.index)

/-- Comparison `operator!=`. -/
def op_ne (a b : CommonIterator) : Bool := !(a.op_eq b)

/-- Shifted copy `operator+(ptrdiff_t)`. -/
def op_plus (it : CommonIterator) (b : Int) : CommonIterator :=
  it.op_plus_eq b

/-- Shifted copy `operator-(ptrdiff_t)`. -/
def op_minus (it : CommonIterator) (b : Int) : CommonIterator :=
  it.op_minus_eq b

/-- Iterator difference `operator-(const CommonIterator&)`. -/
def op_diff (a b : CommonIterator) : Int :=
  (a.block - b.block) * kBlockSize + a.index - b.index

/-- Offset lies in `[0, 32)`. -/
def Norm (it : CommonIterator) : Prop := 0 ≤ it.index ∧ it.index < 32

instance (it : CommonIterator) : Decidable it.Norm := by
  unfold Norm; infer_instance

/-- Linear slot number of an iterator: `32 * block + index`. -/
def lin (it : CommonIterator) : Int := 32 * it.block + it.index

end CommonIterator

/-! ## Integer conversions -/

/-- Conversion of a signed value (`int`, `ptrdiff_t`) to `size_t`: a negative
value wraps to `x + 2^64`. -/
def toSizeT (x : Int) : Nat := if x < 0 then (x + 2 ^ 64).toNat else x.toNat

/-- Unsigned decrement `--n` on a `size_t`: wraps at zero. -/
def decSizeT (n : Nat) : Nat := if n = 0 then 2 ^ 64 - 1 else n - 1

/-- Loop `for (size_t i = from; i < to; ++i) body(i)` over a state. -/
def forRange {σ : Type} (start stop : Nat) (body : Nat → σ → σ) (s : σ) : σ :=
  (List.range' start (stop - start)).foldl (fun acc i => body i acc) s

/-! ## Block storage -/

/-- A block: the slots of one raw buffer.  The null pointer of a freshly sized
`std::vector<T*>` is the block without slots. -/
abbrev Block (T : Type) := List (Option T)

/-- Raw buffer `new char[kBlockSize * sizeof(T)]`: 32 slots, none constructed. -/
def newBlock (T : Type) : Block T := List.replicate 32 none

/-- Content of the slot an iterator addresses (`*it` read).  Outside the
allocation (undefined in C++) the model reads `none`. -/
def readSlot {T : Type} (blocks : List (Block T)) (it : CommonIterator) : Option T :=
  if it.block < 0 ∨ it.index < 0 then none
  else (blocks.getD it.block.toNat []).getD it.index.toNat none

/-- Store into the slot an iterator addresses.  Outside the allocation
(undefined in C++) the model stores nothing. -/
def writeSlot {T : Type} (blocks : List (Block T)) (it : CommonIterator) (s : Option T) :
    List (Block T) :=
  if it.block < 0 ∨ it.index < 0 then blocks
  else blocks.set it.block.toNat ((blocks.getD it.block.toNat []).set it.index.toNat s)

/-- The object a `const T&` parameter is bound to: an object outside the
blocks of the deque, or the slot of the deque's own storage at a position of
its block array (as in `d.insert(it, d[2])`). -/
inductive ValueRef (T : Type) where
  | outside (v : T)
  | slot (pos : CommonIterator)

/-- Content of the object read through the reference. -/
def ValueRef.read {T : Type} (blocks : List (Block T)) : ValueRef T → Option T
  | ValueRef.outside v => some v
  | ValueRef.slot pos => readSlot blocks pos

/-- The same object after growth of an array of `n` blocks: `reallocate` keeps
every block and moves its pointer from entry `k` to entry `k + n`, so a slot of
the deque is found `n` entries further; an outside object is not affected. -/
def ValueRef.after_growth {T : Type} (n : Nat) : ValueRef T → ValueRef T
  | ValueRef.outside v => ValueRef.outside v
  | ValueRef.slot pos => ValueRef.slot { block := pos.block + n, index := pos.index }

/-- Loop of `allocate_from_to(blocks, from, to)`. -/
def allocate_from_to {T : Type} (blocks : List (Block T)) (start stop : Nat) : List (Block T) :=
  forRange start stop (fun i bs => bs.set i (newBlock T)) blocks

/-- Whole-array `allocate(blocks)`. -/
def allocate {T : Type} (blocks : List (Block T)) : List (Block T) :=
  allocate_from_to blocks 0 blocks.length

/-! ## Sequence engine -/

/-- State of `Deque<T>`. -/
structure Deque (T : Type) where
  blocks_ : List (Block T)
  size_ : Nat
  true_begin_ : CommonIterator
  begin_ : CommonIterator
  true_end_ : CommonIterator
  end_ : CommonIterator

namespace Deque

variable {T : Type}

/-- Block capacity `kBlockSize` of the container. -/
def kBlockSize : Nat := 32

/-- Growth factor `kSizeCoefficient`. -/
def kSizeCoefficient : Nat := 3

/-- Tail room `end_diff()`. -/
def end_diff (d : Deque T) : Int := d.true_end_.op_diff d.end_

/-- Head room `begin_diff()`. -/
def begin_diff (d : Deque T) : Int := d.begin_.op_diff d.true_begin_

/-- Block count `need_blocks(int a)`, computed in `size_t`. -/
def need_blocks (a : Int) : Nat := ((toSizeT a + kBlockSize - 1) % 2 ^ 64) / kBlockSize

/-- Boundary recomputation `initiate_iterators(blocks_, begin_diff, end_diff)`.
The two `size_t` arguments are converted back to `ptrdiff_t` by the iterator
operators; that round trip is the identity on the `ptrdiff_t` range, so they
are passed as `Int`.  `blocks.size() - 1` is a `size_t`. -/
def initiate_iterators (d : Deque T) (begin_diff end_diff : Int) : Deque T :=
  let true_begin : CommonIterator := { block := 0, index := 0 }
  let true_end : CommonIterator :=
    { block := (decSizeT d.blocks_.length : Nat), index := (kBlockSize : Int) - 1 }
  { d with
    true_begin_ := true_begin
    begin_ := true_begin.op_plus begin_diff
    true_end_ := true_end
    end_ := true_end.op_minus end_diff }

/-- Growth step `reallocate_to_increase(sz)`. -/
def reallocate_to_increase (d : Deque T) (sz : Nat) : Deque T :=
  let new_blocks : List (Block T) := List.replicate (kSizeCoefficient * sz) []
  let shift := (kSizeCoefficient - 1) / 2
  let new_blocks := allocate_from_to new_blocks 0 (shift * sz)
  let new_blocks :=
    forRange (shift * sz) ((shift + 1) * sz)
      (fun i nb => nb.set i (d.blocks_.getD (i - sz) [])) new_blocks
  let new_blocks := allocate_from_to new_blocks ((shift + 1) * sz) (kSizeCoefficient * sz)
  { d with blocks_ := new_blocks }

/-- Growth `reallocate()`. -/
def reallocate (d : Deque T) : Deque T :=
  let sz := d.blocks_.length * kBlockSize
  let d1 := d.reallocate_to_increase d.blocks_.length
  d1.initiate_iterators (d1.begin_diff + sz) (d1.end_diff + sz)

/-- Accessor `begin()`. -/
def begin (d : Deque T) : CommonIterator := d.begin_

/-- Accessor `end()`. -/
def «end» (d : Deque T) : CommonIterator := d.end_

/-- Default constructor `Deque()`. -/
def ctor : Deque T :=
  { blocks_ := allocate (List.replicate 3 [])
    size_ := 0
    true_begin_ := { block := 0, index := 0 }
    begin_ := { block := 1, index := 0 }
    true_end_ := { block := 2, index := (kBlockSize : Int) - 1 }
    end_ := { block := 1, index := 0 } }

/-- Construction loop `for (; cur < end_; ++cur) new (&(*cur)) T(value)`;
`fuel` bounds the number of iterations. -/
def construct_loop (fuel : Nat) (blocks : List (Block T)) (cur end_ : CommonIterator)
    (value : T) : List (Block T) :=
  match fuel with
  | 0 => blocks
  | n + 1 =>
    if cur.op_lt end_ then construct_loop n (writeSlot blocks cur (some value)) cur.op_inc end_ value
    else blocks

/-- Fill constructor `Deque(int sz, const T& value)`. -/
def ctor_sz_value (sz : Int) (value : T) : Deque T :=
  let nb := need_blocks sz
  let blocks : List (Block T) := allocate (List.replicate nb [])
  let last : Nat := decSizeT nb
  let true_begin : CommonIterator := { block := 0, index := 0 }
  let true_end : CommonIterator := { block := last, index := (kBlockSize : Int) - 1 }
  let end_ : CommonIterator := { block := last, index := ((toSizeT sz % kBlockSize : Nat) : Int) }
  let begin_ := true_begin
  { blocks_ := construct_loop (end_.op_diff begin_).toNat blocks begin_ end_ value
    size_ := toSizeT sz
    true_begin_ := true_begin
    begin_ := begin_
    true_end_ := true_end
    end_ := end_ }

/-- Sized constructor `Deque(int sz)`: as the fill constructor, with the
value-initialised element `T()`. -/
def ctor_sz [Inhabited T] (sz : Int) : Deque T :=
  let nb := need_blocks sz
  let blocks : List (Block T) := allocate (List.replicate nb [])
  let last : Nat := decSizeT nb
  let true_begin : CommonIterator := { block := 0, index := 0 }
  let true_end : CommonIterator := { block := last, index := (kBlockSize : Int) - 1 }
  let end_ : CommonIterator := { block := last, index := ((toSizeT sz % kBlockSize : Nat) : Int) }
  let begin_ := true_begin
  { blocks_ := construct_loop (end_.op_diff begin_).toNat blocks begin_ end_ default
    size_ := toSizeT sz
    true_begin_ := true_begin
    begin_ := begin_
    true_end_ := true_end
    end_ := end_ }

/-- Accessor `size()`. -/
def size (d : Deque T) : Nat := d.size_

/-- Unchecked access `operator[](index)`: the slot `begin() + index`. -/
def op_index (d : Deque T) (index : Nat) : CommonIterator := d.begin.op_plus index

/-- Dereference of a slot of this deque. -/
def deref (d : Deque T) (it : CommonIterator) : Option T := readSlot d.blocks_ it

/-- Checked access `at(index)`: the error of `std::out_of_range` or the slot,
together with the state after the call. -/
def «at» (d : Deque T) (index : Nat) : Except String CommonIterator × Deque T :=
  if toSizeT (d.end.op_diff d.begin) ≤ index then (.error "\"-_-\"", d)
  else (.ok (d.begin.op_plus index), d)

/-- Tail insertion `push_back(value)`. -/
def push_back (d : Deque T) (value : T) : Deque T :=
  let d := if d.end_.op_eq d.true_end_ then d.reallocate else d
  { d with
    blocks_ := writeSlot d.blocks_ d.end_ (some value)
    end_ := d.end_.op_inc
    size_ := d.size_ + 1 }

/-- Head insertion `push_front(value)`. -/
def push_front (d : Deque T) (value : T) : Deque T :=
  let d := if d.begin_.op_eq d.true_begin_ then d.reallocate else d
  let begin_ := d.begin_.op_dec
  { d with
    begin_ := begin_
    size_ := d.size_ + 1
    blocks_ := writeSlot d.blocks_ begin_ (some value) }

/-- Tail removal `pop_back()`: `end_->~T(); --end_; --size_;`. -/
def pop_back (d : Deque T) : Deque T :=
  { d with
    blocks_ := writeSlot d.blocks_ d.end_ none
    end_ := d.end_.op_dec
    size_ := decSizeT d.size_ }

/-- Head removal `pop_front()`: `begin_->~T(); ++begin_; --size_;`. -/
def pop_front (d : Deque T) : Deque T :=
  { d with
    blocks_ := writeSlot d.blocks_ d.begin_ none
    begin_ := d.begin_.op_inc
    size_ := decSizeT d.size_ }

/-- Shift loop of `insert`: `for (auto cur = end_; cur > it; --cur)`. -/
def insert_loop (fuel : Nat) (blocks : List (Block T)) (begin_ : CommonIterator) (size_ : Nat)
    (it cur : CommonIterator) : List (Block T) :=
  match fuel with
  | 0 => blocks
  | n + 1 =>
    if cur.op_gt it then
      let blocks :=
        if toSizeT (cur.op_diff begin_) < size_ then writeSlot blocks cur none else blocks
      let blocks := writeSlot blocks cur (readSlot blocks (cur.op_minus 1))
      insert_loop n blocks begin_ size_ it cur.op_dec
    else blocks

/-- Positional insertion `insert(it, value)`.  `value` is a `const T&`: it is
read by `new (&(*it)) T(value)` after the shift loop and the destructor call,
from the block array as it is then. -/
def insert (d : Deque T) (it : CommonIterator) (value : ValueRef T) : Deque T :=
  let shift := it.op_diff d.begin_
  let value := if d.end_.op_eq d.true_end_ then value.after_growth d.blocks_.length else value
  let d := if d.end_.op_eq d.true_end_ then d.reallocate else d
  let it := d.begin_.op_plus shift
  let blocks := insert_loop (d.end_.op_diff it).toNat d.blocks_ d.begin_ d.size_ it d.end_
  let blocks := if toSizeT (it.op_diff d.begin_) < d.size_ then writeSlot blocks it none else blocks
  let blocks := writeSlot blocks it (value.read blocks)
  { d with
    blocks_ := blocks
    end_ := d.end_.op_inc
    size_ := d.size_ + 1 }

/-- Shift loop of `erase`: `for (auto cur = it; cur < end_; ++cur) *cur = *(cur + 1)`. -/
def erase_loop (fuel : Nat) (blocks : List (Block T)) (end_ cur : CommonIterator) :
    List (Block T) :=
  match fuel with
  | 0 => blocks
  | n + 1 =>
    if cur.op_lt end_ then
      erase_loop n (writeSlot blocks cur (readSlot blocks (cur.op_plus 1))) end_ cur.op_inc
    else blocks

/-- Positional removal `erase(it)`. -/
def erase (d : Deque T) (it : CommonIterator) : Deque T :=
  let blocks := writeSlot d.blocks_ it none
  let blocks := erase_loop (d.end_.op_diff it).toNat blocks d.end_ it
  { d with
    blocks_ := blocks
    end_ := d.end_.op_dec
    size_ := decSizeT d.size_ }

/-- Logical sequence: the slots `begin() + i` for `i < size()`. -/
def toList (d : Deque T) : List (Option T) :=
  (List.range d.size).map (fun i => d.deref (d.op_index i))

/-- Representation invariant: at least one block, every block has 32 slots,
`true_begin` is slot 0 of the first block and `true_end` slot 31 of the last,
the live boundaries have offsets in `[0, 32)`,
`true_begin <= begin <= end <= true_end` under the iterator ordering, and
`size == end - begin`. -/
def WF (d : Deque T) : Prop :=
  1 ≤ d.blocks_.length ∧
  (∀ b ∈ d.blocks_, b.length = 32) ∧
  d.true_begin_ = { block := 0, index := 0 } ∧
  d.true_end_ = { block := (d.blocks_.length : Int) - 1, index := 31 } ∧
  d.begin_.Norm ∧ d.end_.Norm ∧
  d.true_begin_.op_le d.begin_ = true ∧
  d.begin_.op_le d.end_ = true ∧
  d.end_.op_le d.true_end_ = true ∧
  (d.size_ : Int) = d.end_.op_diff d.begin_

instance (d : Deque T) : Decidable d.WF := by
  unfold WF; infer_instance

/-- The deque holds exactly the sequence `xs`: every live slot is constructed
and slot `begin + i` holds `xs[i]`. -/
def Holds (d : Deque T) (xs : List T) : Prop := d.toList = xs.map some

end Deque

/-! ## Reference double-ended list -/

/-- The four end operations. -/
inductive Op (T : Type) where
  | push_back (v : T)
  | push_front (v : T)
  | pop_back
  | pop_front

/-- One call on the deque. -/
def Deque.apply {T : Type} (d : Deque T) : Op T → Deque T
  | .push_back v => d.push_back v
  | .push_front v => d.push_front v
  | .pop_back => d.pop_back
  | .pop_front => d.pop_front

/-- A sequence of calls on the deque, left to right. -/
def Deque.run {T : Type} (d : Deque T) (ops : List (Op T)) : Deque T :=
  ops.foldl Deque.apply d

/-- One call on the reference double-ended list. -/
def refApply {T : Type} (xs : List T) : Op T → List T
  | .push_back v => xs ++ [v]
  | .push_front v => v :: xs
  | .pop_back => xs.dropLast
  | .pop_front => xs.tail

/-- A sequence of calls on the reference double-ended list. -/
def refRun {T : Type} (xs : List T) (ops : List (Op T)) : List T :=
  ops.foldl refApply xs

/-- No pop of the sequence is applied to an empty reference list. -/
def NoEmptyPop {T : Type} : List T → List (Op T) → Prop
  | _, [] => True
  | xs, .pop_back :: ops => xs ≠ [] ∧ NoEmptyPop xs.dropLast ops
  | xs, .pop_front :: ops => xs ≠ [] ∧ NoEmptyPop xs.tail ops
  | xs, op :: ops => NoEmptyPop (refApply xs op) ops

/-! ## Post-increment, copying and the failure paths -/

/-- Post-increment `operator++(int)`: the returned copy and the receiver after
the call. -/
def CommonIterator.op_post_inc (it : CommonIterator) : CommonIterator × CommonIterator :=
  let copy := it
  (copy, it.op_inc)

/-- Post-decrement `operator--(int)`: the returned copy and the receiver after
the call. -/
def CommonIterator.op_post_dec (it : CommonIterator) : CommonIterator × CommonIterator :=
  let copy := it
  (copy, it.op_dec)

/-- Result of a call that may throw: the state after a normal return, or the
state left behind when the exception leaves the call. -/
inductive Outcome (σ : Type) where
  | returned (state : σ)
  | thrown (state : σ)

/-- Copy construction `T(*it)` from a slot, with `copy` the copy constructor of
`T`: `none` when it throws, otherwise the content of the new slot.  A slot
without a constructed element is copied as such. -/
def copySlot {T : Type} (copy : T → Option T) : Option T → Option (Option T)
  | none => some none
  | some v => (copy v).map some

/-- Block release `clear(blocks)`: the blocks handed to `delete[]`, in order. -/
def clear {T : Type} (blocks : List (Block T)) : List (Block T) :=
  forRange 0 blocks.length (fun i released => released ++ [blocks.getD i []]) []

namespace Deque

variable {T : Type}

/-- Loop of `delete_from_till`: `for (iterator it = begin; it < end; ++it) it->~T()`. -/
def delete_loop (fuel : Nat) (blocks : List (Block T)) (it end_ : CommonIterator) :
    List (Block T) :=
  match fuel with
  | 0 => blocks
  | n + 1 =>
    if it.op_lt end_ then delete_loop n (writeSlot blocks it none) it.op_inc end_
    else blocks

/-- Element teardown `delete_from_till(begin, end)` on a block array. -/
def delete_from_till (blocks : List (Block T)) (begin_ end_ : CommonIterator) : List (Block T) :=
  delete_loop (end_.op_diff begin_).toNat blocks begin_ end_

/-- Element teardown `delete_till(end)`: from `begin_`. -/
def delete_till (d : Deque T) (end_ : CommonIterator) : List (Block T) :=
  delete_from_till d.blocks_ d.begin_ end_

/-- Copy loop of the copy constructor:
`for (auto that = other.begin(); that != other.end(); ++that, ++cur) new (&(*cur)) T(*that)`;
`src` is the block array the source iterators point into. -/
def copy_loop (fuel : Nat) (src blocks : List (Block T)) (that end_ cur : CommonIterator) :
    List (Block T) :=
  match fuel with
  | 0 => blocks
  | n + 1 =>
    if that.op_ne end_ then
      copy_loop n src (writeSlot blocks cur (readSlot src that)) that.op_inc end_ cur.op_inc
    else blocks

/-- Copy constructor `Deque(const Deque<T>& other)`: the new deque and the
source after the call.  The four iterators are default-constructed
(`block(nullptr), index(0)`) before `initiate_iterators` sets them. -/
def ctor_copy (other : Deque T) : Deque T × Deque T :=
  let nil : CommonIterator := { block := 0, index := 0 }
  let d : Deque T :=
    { blocks_ := allocate (List.replicate other.blocks_.length [])
      size_ := other.size_
      true_begin_ := nil, begin_ := nil, true_end_ := nil, end_ := nil }
  let d := d.initiate_iterators other.begin_diff other.end_diff
  let cur := d.begin_
  let blocks :=
    copy_loop (other.end.op_diff other.begin).toNat other.blocks_ d.blocks_
      other.begin other.end cur
  ({ d with blocks_ := blocks }, other)

/-- Copy loop of `reallocate_from_till`:
`for (auto it = begin; it < end; ++it)` with body
`new (&(*cur)) T(*it); ++cur;`, inside `try`.  The flag is `false` when a copy threw; the block array and
`cur` are those at that moment. -/
def realloc_copy_loop (copy : T → Option T) (fuel : Nat) (src blocks : List (Block T))
    (it end_ cur : CommonIterator) : Bool × List (Block T) × CommonIterator :=
  match fuel with
  | 0 => (true, blocks, cur)
  | n + 1 =>
    if it.op_lt end_ then
      match copySlot copy (readSlot src it) with
      | none => (false, blocks, cur)
      | some s => realloc_copy_loop copy n src (writeSlot blocks cur s) it.op_inc end_ cur.op_inc
    else (true, blocks, cur)

/-- Storage replacement `reallocate_from_till(sz, begin, end, begin_diff)`;
`src` is the block array `begin` and `end` point into.  The state is the
deque together with the blocks released by `clear` during the call. -/
def reallocate_from_till (copy : T → Option T) (d : Deque T) (sz : Nat) (src : List (Block T))
    (begin_ end_ : CommonIterator) (begin_diff : Int) : Outcome (Deque T × List (Block T)) :=
  let new_blocks : List (Block T) := allocate (List.replicate sz [])
  let new_begin := (CommonIterator.mk 0 0).op_plus begin_diff
  match realloc_copy_loop copy (end_.op_diff begin_).toNat src new_blocks begin_ end_ new_begin with
  | (false, new_blocks, cur) =>
    let new_blocks := delete_from_till new_blocks new_begin cur
    Outcome.thrown (d, clear new_blocks)
  | (true, new_blocks, _) =>
    let old := d.delete_till d.end_
    Outcome.returned ({ d with blocks_ := new_blocks }, clear old)

/-- Copy assignment `operator=(const Deque& other)`: the state is the receiver,
the source, and the blocks released during the call. -/
def op_assign (copy : T → Option T) (d other : Deque T) :
    Outcome (Deque T × Deque T × List (Block T)) :=
  match d.reallocate_from_till copy other.blocks_.length other.blocks_ other.begin other.end
      other.begin_diff with
  | Outcome.thrown (d, released) => Outcome.thrown (d, other, released)
  | Outcome.returned (d, released) =>
    let d := d.initiate_iterators other.begin_diff other.end_diff
    Outcome.returned ({ d with size_ := other.size_ }, other, released)

/-- Head insertion `push_front(value)` with the `try`/`catch` around the
construction of the element. -/
def push_front_ex (copy : T → Option T) (d : Deque T) (value : T) : Outcome (Deque T) :=
  let d := if d.begin_.op_eq d.true_begin_ then d.reallocate else d
  let d := { d with begin_ := d.begin_.op_dec, size_ := d.size_ + 1 }
  match copy value with
  | some v => Outcome.returned { d with blocks_ := writeSlot d.blocks_ d.begin_ (some v) }
  | none => Outcome.thrown { d with begin_ := d.begin_.op_inc, size_ := decSizeT d.size_ }

/-- Source slots of the copy-assignments of `erase`: the iterators `cur + 1`
dereferenced by `for (auto cur = it; cur < end_; ++cur) *cur = *(cur + 1)`,
in order. -/
def erase_loop_sources (fuel : Nat) (end_ cur : CommonIterator) : List CommonIterator :=
  match fuel with
  | 0 => []
  | n + 1 =>
    if cur.op_lt end_ then cur.op_plus 1 :: erase_loop_sources n end_ cur.op_inc
    else []

/-- Source slots read by `erase(it)`. -/
def erase_sources (d : Deque T) (it : CommonIterator) : List CommonIterator :=
  erase_loop_sources (d.end_.op_diff it).toNat d.end_ it

end Deque

/-! ## Proof vocabulary -/

/-- Every block of the array has its 32 slots. -/
def AllFull {T : Type} (blocks : List (Block T)) : Prop := ∀ b ∈ blocks, b.length = 32

/-- The iterator addresses a slot of an allocated block. -/
def InAlloc {T : Type} (blocks : List (Block T)) (it : CommonIterator) : Prop :=
  it.Norm ∧ 0 ≤ it.block ∧ it.block < blocks.length

/-- Content of the slot with linear number `n`. -/
def rd {T : Type} (blocks : List (Block T)) (n : Int) : Option T :=
  readSlot blocks { block := n / 32, index := n % 32 }

/-- Body of `insert` after the optional growth: `shift` is the distance
`it - begin_` computed before growth. -/
def Deque.insert_core {T : Type} (d : Deque T) (shift : Int) (value : ValueRef T) : Deque T :=
  let it := d.begin_.op_plus shift
  let blocks := Deque.insert_loop (d.end_.op_diff it).toNat d.blocks_ d.begin_ d.size_ it d.end_
  let blocks := if toSizeT (it.op_diff d.begin_) < d.size_ then writeSlot blocks it none else blocks
  let blocks := writeSlot blocks it (value.read blocks)
  { d with
    blocks_ := blocks
    end_ := d.end_.op_inc
    size_ := d.size_ + 1 }

instance {T : Type} [DecidableEq T] (d : Deque T) (xs : List T) : Decidable (d.Holds xs) := by
  unfold Deque.Holds; infer_instance

/-- The deque `[1, 2, 3]` built by three `push_back` calls on an empty deque. -/
def sample123 : Deque Nat := ((Deque.ctor.push_back 1).push_back 2).push_back 3

/-- The deque `Deque(31, 7)`: one block, `end == true_end`, so that the next
tail insertion grows the block array first. -/
def sampleFull : Deque Nat := Deque.ctor_sz_value 31 7

/-- The constructed slots are exactly those of the live range `[begin, end)`. -/
def Deque.ExactlyLive {T : Type} (d : Deque T) : Prop :=
  ∀ m : Int, (rd d.blocks_ m).isSome = true ↔ d.begin_.lin ≤ m ∧ m < d.end_.lin

/-! ## Iterator arithmetic lemmas -/

theorem tdiv32 (x : Int) : x.tdiv 32 = if 0 ≤ x then x / 32 else -((-x) / 32) := by
  split
  · exact Int.tdiv_eq_ediv (by assumption) (by norm_num)
  · have h : x = -(-x) := by omega
    rw [h, Int.neg_tdiv, Int.tdiv_eq_ediv (by omega) (by norm_num)]
    simp

theorem tmod32 (x : Int) : x.tmod 32 = if 0 ≤ x then x % 32 else -((-x) % 32) := by
  have h1 := Int.tmod_add_tdiv x 32
  have h2 := tdiv32 x
  split at h2 <;> rename_i h <;> simp only [h, if_true, if_false] <;> omega

namespace CommonIterator

theorem op_plus_eq_floor (it : CommonIterator) (k : Int) :
    it.op_plus_eq k =
      { block := it.block + (it.index + k) / 32, index := (it.index + k) % 32 } := by
  simp only [op_plus_eq, kBlockSize, tdiv32, tmod32]
  congr 1
  · split_ifs <;> omega
  · split_ifs <;> omega

theorem lin_op_plus_eq (it : CommonIterator) (k : Int) :
    (it.op_plus_eq k).lin = it.lin + k := by
  rw [op_plus_eq_floor]; simp only [lin]; omega

theorem norm_op_plus_eq (it : CommonIterator) (k : Int) : (it.op_plus_eq k).Norm := by
  rw [op_plus_eq_floor]; simp only [Norm]; omega

theorem lin_op_plus (it : CommonIterator) (k : Int) : (it.op_plus k).lin = it.lin + k :=
  lin_op_plus_eq it k

theorem norm_op_plus (it : CommonIterator) (k : Int) : (it.op_plus k).Norm :=
  norm_op_plus_eq it k

theorem lin_op_minus (it : CommonIterator) (k : Int) : (it.op_minus k).lin = it.lin - k := by
  have h := lin_op_plus_eq it (-k)
  have e : it.op_minus k = it.op_plus_eq (-k) := rfl
  rw [e]; omega

theorem norm_op_minus (it : CommonIterator) (k : Int) : (it.op_minus k).Norm :=
  norm_op_plus_eq it (-k)

theorem op_diff_lin (a b : CommonIterator) : a.op_diff b = a.lin - b.lin := by
  simp only [op_diff, lin, kBlockSize]; omega

theorem eq_of_lin {a b : CommonIterator} (ha : a.Norm) (hb : b.Norm)
    (h : a.lin = b.lin) : a = b := by
  cases a; cases b
  simp only [Norm, lin] at *
  simp only [mk.injEq]
  omega

theorem op_lt_lin {a b : CommonIterator} (ha : a.Norm) (hb : b.Norm) :
    a.op_lt b = true ↔ a.lin < b.lin := by
  simp only [op_lt, Norm, lin] at *
  split_ifs <;> simp only [decide_eq_true_eq] <;> omega

theorem op_eq_iff (a b : CommonIterator) : a.op_eq b = true ↔ a = b := by
  cases a; cases b
  simp [op_eq]

theorem op_inc_eq {it : CommonIterator} (h : it.Norm) : it.op_inc = it.op_plus_eq 1 := by
  rw [op_plus_eq_floor]
  simp only [op_inc, kBlockSize, Norm] at *
  split_ifs <;> simp only [mk.injEq] <;> omega

theorem op_dec_eq {it : CommonIterator} (h : it.Norm) : it.op_dec = it.op_plus_eq (-1) := by
  rw [op_plus_eq_floor]
  simp only [op_dec, kBlockSize, Norm] at *
  split_ifs <;> simp only [mk.injEq] <;> omega

end CommonIterator

/-! ## Slot store lemmas -/

theorem length_writeSlot {T : Type} (blocks : List (Block T)) (it : CommonIterator) (s : Option T) :
    (writeSlot blocks it s).length = blocks.length := by
  unfold writeSlot; split <;> simp

theorem allFull_writeSlot {T : Type} {blocks : List (Block T)} (h : AllFull blocks)
    (it : CommonIterator) (s : Option T) : AllFull (writeSlot blocks it s) := by
  unfold writeSlot
  split
  · exact h
  · by_cases hlt : it.block.toNat < blocks.length
    · intro b hb
      rcases List.mem_or_eq_of_mem_set hb with hb | hb
      · exact h b hb
      · subst hb
        rw [List.length_set, List.getD_eq_getElem?_getD, List.getElem?_eq_getElem hlt]
        exact h _ (List.getElem_mem _)
    · rw [List.set_eq_of_length_le (by omega)]
      exact h

theorem readSlot_writeSlot_same {T : Type} {blocks : List (Block T)} (h : AllFull blocks)
    {it : CommonIterator} (hv : InAlloc blocks it) (s : Option T) :
    readSlot (writeSlot blocks it s) it = s := by
  obtain ⟨⟨h0, h1⟩, hb0, hb1⟩ := hv
  have hlt : it.block.toNat < blocks.length := by omega
  have hlen := h _ (List.getElem_mem hlt)
  have hi : it.index.toNat < 32 := by omega
  unfold readSlot writeSlot
  rw [if_neg (by omega), if_neg (by omega)]
  simp [List.getD_eq_getElem?_getD, List.getElem?_set, hlt, hlen, hi]

theorem readSlot_writeSlot_ne {T : Type} (blocks : List (Block T))
    {it it' : CommonIterator} (hne : it' ≠ it) (s : Option T) :
    readSlot (writeSlot blocks it s) it' = readSlot blocks it' := by
  unfold readSlot writeSlot
  by_cases c : it.block < 0 ∨ it.index < 0
  · rw [if_pos c]
  rw [if_neg c]
  by_cases c' : it'.block < 0 ∨ it'.index < 0
  · rw [if_pos c', if_pos c']
  rw [if_neg c', if_neg c']
  simp only [List.getD_eq_getElem?_getD, List.getElem?_set]
  by_cases hb : it.block.toNat = it'.block.toNat
  · have hi : it.index.toNat ≠ it'.index.toNat := by
      intro hi
      apply hne
      cases it; cases it'
      simp only [CommonIterator.mk.injEq] at *
      omega
    rw [if_pos hb]
    split
    · simp [List.getElem?_set, hi, hb]
    · rename_i hlt
      have hn : blocks[it.block.toNat]? = none := List.getElem?_eq_none (by omega)
      rw [← hb, hn]
  · rw [if_neg hb]

theorem readSlot_eq_rd {T : Type} (blocks : List (Block T)) {it : CommonIterator}
    (h : it.Norm) : readSlot blocks it = rd blocks it.lin := by
  unfold rd
  congr 1
  apply CommonIterator.eq_of_lin h
  · simp only [CommonIterator.Norm]; omega
  · simp only [CommonIterator.lin]; omega

theorem rd_writeSlot {T : Type} {blocks : List (Block T)} (h : AllFull blocks)
    {it : CommonIterator} (hv : InAlloc blocks it) (s : Option T) (m : Int) :
    rd (writeSlot blocks it s) m = if m = it.lin then s else rd blocks m := by
  have hn : (CommonIterator.mk (m / 32) (m % 32)).Norm := by
    simp only [CommonIterator.Norm]; omega
  split
  · rename_i e
    have : CommonIterator.mk (m / 32) (m % 32) = it :=
      CommonIterator.eq_of_lin hn hv.1 (by simp only [CommonIterator.lin] at e ⊢; omega)
    unfold rd
    rw [this]
    exact readSlot_writeSlot_same h hv s
  · rename_i e
    unfold rd
    apply readSlot_writeSlot_ne
    intro c
    apply e
    rw [← c]
    simp only [CommonIterator.lin]; omega

theorem inAlloc_iff {T : Type} (blocks : List (Block T)) {it : CommonIterator} (h : it.Norm) :
    InAlloc blocks it ↔ 0 ≤ it.lin ∧ it.lin < 32 * blocks.length := by
  simp only [InAlloc, CommonIterator.Norm, CommonIterator.lin] at *
  constructor
  · intro h'; omega
  · intro h'; omega

/-! ## Iterator contract (claims C8, C9, C10) -/

/-- C8: `it += k` moves the block position by the mathematical floor of
`(offset + k) / 32` and leaves the non-negative remainder of `(offset + k)`
modulo 32 as offset, also when `offset + k` is negative; `it -= k` is
`it += (-k)`. -/
theorem C8_op_plus_eq_floor_semantics (it : CommonIterator) (k : Int) :
    it.op_plus_eq k =
        { block := it.block + (it.index + k).fdiv 32, index := (it.index + k).fmod 32 } ∧
      0 ≤ (it.op_plus_eq k).index ∧ (it.op_plus_eq k).index < 32 ∧
      32 * (it.index + k).fdiv 32 ≤ it.index + k ∧
      it.index + k < 32 * (it.index + k).fdiv 32 + 32 ∧
      it.op_minus_eq k = it.op_plus_eq (-k) := by
  have hd : (it.index + k).fdiv 32 = (it.index + k) / 32 :=
    Int.fdiv_eq_ediv _ (by norm_num)
  have hm : (it.index + k).fmod 32 = (it.index + k) % 32 :=
    Int.fmod_eq_emod _ (by norm_num)
  have hn := CommonIterator.norm_op_plus_eq it k
  refine ⟨?_, hn.1, hn.2, ?_, ?_, rfl⟩
  · rw [hd, hm]; exact CommonIterator.op_plus_eq_floor it k
  · rw [hd]; omega
  · rw [hd]; omega

/-- C9: the difference of two iterators is
`(block difference) * 32 + (offset difference)`; shifting by `k` changes the
difference to the start by exactly `k` (and by `-k` for a backward shift); and
`b + (a - b) == a` for iterators with offsets in `[0, 32)`. -/
theorem C9_difference_counts_slots (a b it : CommonIterator) (k : Int)
    (ha : a.Norm) (_hb : b.Norm) (_hit : it.Norm) :
    a.op_diff b = (a.block - b.block) * 32 + (a.index - b.index) ∧
      (it.op_plus k).op_diff it = k ∧
      (it.op_minus k).op_diff it = -k ∧
      b.op_plus (a.op_diff b) = a := by
  refine ⟨?_, ?_, ?_, ?_⟩
  · simp only [CommonIterator.op_diff, CommonIterator.kBlockSize]; omega
  · rw [CommonIterator.op_diff_lin, CommonIterator.lin_op_plus]
    omega
  · rw [CommonIterator.op_diff_lin, CommonIterator.lin_op_minus]
    omega
  · apply CommonIterator.eq_of_lin (CommonIterator.norm_op_plus _ _) ha
    rw [CommonIterator.lin_op_plus, CommonIterator.op_diff_lin]
    omega

/-- C9 at concrete iterators: `a = (2, 5)`, `b = (0, 30)`, `it = (1, 0)`, `k = -3`. -/
theorem C9_difference_counts_slots_witness :
    (CommonIterator.mk 2 5).op_diff (CommonIterator.mk 0 30) = (2 - 0) * 32 + (5 - 30) ∧
      ((CommonIterator.mk 1 0).op_plus (-3)).op_diff (CommonIterator.mk 1 0) = -3 ∧
      ((CommonIterator.mk 1 0).op_minus (-3)).op_diff (CommonIterator.mk 1 0) = - -3 ∧
      (CommonIterator.mk 0 30).op_plus ((CommonIterator.mk 2 5).op_diff (CommonIterator.mk 0 30))
        = CommonIterator.mk 2 5 :=
  C9_difference_counts_slots (CommonIterator.mk 2 5) (CommonIterator.mk 0 30)
    (CommonIterator.mk 1 0) (-3) (by decide) (by decide) (by decide)

/-- C10: for iterators with offsets in `[0, 32)`, `a < b` compares the block
position first and the offset second, `a == b` compares both fields, the other
four operators are derived from these two, and the order agrees with the sign
of the difference `a - b`. -/
theorem C10_relational_operators (a b : CommonIterator) (ha : a.Norm) (hb : b.Norm) :
    (a.op_lt b = true ↔ a.block < b.block ∨ (a.block = b.block ∧ a.index < b.index)) ∧
      (a.op_eq b = true ↔ a.block = b.block ∧ a.index = b.index) ∧
      (a.op_gt b = true ↔ b.op_lt a = true) ∧
      (a.op_le b = true ↔ ¬ b.op_lt a = true) ∧
      (a.op_ge b = true ↔ ¬ a.op_lt b = true) ∧
      (a.op_ne b = true ↔ ¬ a.op_eq b = true) ∧
      (a.op_lt b = true ↔ a.op_diff b < 0) ∧
      (a.op_eq b = true ↔ a.op_diff b = 0) := by
  have hlt := CommonIterator.op_lt_lin ha hb
  refine ⟨?_, ?_, ?_, ?_, ?_, ?_, ?_, ?_⟩
  · rw [hlt]; simp only [CommonIterator.Norm, CommonIterator.lin] at *; omega
  · simp [CommonIterator.op_eq]
  · simp [CommonIterator.op_gt]
  · simp [CommonIterator.op_le]
  · simp [CommonIterator.op_ge, CommonIterator.op_gt]
  · simp [CommonIterator.op_ne]
  · rw [hlt, CommonIterator.op_diff_lin]; omega
  · rw [CommonIterator.op_eq_iff, CommonIterator.op_diff_lin]
    constructor
    · intro h; rw [h]; omega
    · intro h; exact CommonIterator.eq_of_lin ha hb (by omega)

/-- C10 at concrete iterators: `a = (0, 31)`, `b = (1, 0)`. -/
theorem C10_relational_operators_witness :
    ((CommonIterator.mk 0 31).op_lt (CommonIterator.mk 1 0) = true ↔
        (0 : Int) < 1 ∨ ((0 : Int) = 1 ∧ (31 : Int) < 0)) ∧
      ((CommonIterator.mk 0 31).op_lt (CommonIterator.mk 1 0) = true ↔
        (CommonIterator.mk 0 31).op_diff (CommonIterator.mk 1 0) < 0) :=
  have h := C10_relational_operators (CommonIterator.mk 0 31) (CommonIterator.mk 1 0)
    (by decide) (by decide)
  ⟨h.1, h.2.2.2.2.2.2.1⟩

/-! ## Growth of the block array -/

theorem length_foldl_set {α : Type} (f : Nat → α) (n : Nat) :
    ∀ (s : Nat) (l : List α),
      ((List.range' s n).foldl (fun acc i => acc.set i (f i)) l).length = l.length := by
  induction n with
  | zero => intro s l; rfl
  | succ n ih =>
    intro s l
    rw [List.range'_succ, List.foldl_cons, ih, List.length_set]

theorem getElem?_foldl_set {α : Type} (f : Nat → α) (n : Nat) :
    ∀ (s : Nat) (l : List α) (j : Nat),
      ((List.range' s n).foldl (fun acc i => acc.set i (f i)) l)[j]? =
        if s ≤ j ∧ j < s + n ∧ j < l.length then some (f j) else l[j]? := by
  induction n with
  | zero =>
    intro s l j
    rw [if_neg (by omega)]
    rfl
  | succ n ih =>
    intro s l j
    rw [List.range'_succ, List.foldl_cons, ih, List.length_set, List.getElem?_set]
    by_cases h1 : s = j
    · subst h1
      by_cases h2 : s < l.length
      · rw [if_neg (by omega), if_pos rfl, if_pos h2, if_pos (by omega)]
      · have hn : l[s]? = none := List.getElem?_eq_none (by omega)
        rw [if_neg (by omega), if_pos rfl, if_neg h2, if_neg (by omega), hn]
    · by_cases h3 : s + 1 ≤ j ∧ j < s + 1 + n ∧ j < l.length
      · rw [if_pos h3, if_pos (by omega)]
      · rw [if_neg h3, if_neg h1, if_neg (by omega)]

theorem length_forRange_set {α : Type} (f : Nat → α) (start stop : Nat) (l : List α) :
    (forRange start stop (fun i bs => bs.set i (f i)) l).length = l.length :=
  length_foldl_set f _ _ _

theorem getElem?_forRange_set {α : Type} (f : Nat → α) (start stop : Nat) (l : List α) (j : Nat) :
    (forRange start stop (fun i bs => bs.set i (f i)) l)[j]? =
      if start ≤ j ∧ j < stop ∧ j < l.length then some (f j) else l[j]? := by
  unfold forRange
  rw [getElem?_foldl_set]
  by_cases h : start ≤ j ∧ j < stop ∧ j < l.length
  · rw [if_pos h, if_pos (by omega)]
  · rw [if_neg h, if_neg (by omega)]

theorem length_allocate_from_to {T : Type} (blocks : List (Block T)) (a b : Nat) :
    (allocate_from_to blocks a b).length = blocks.length :=
  length_forRange_set _ _ _ _

theorem getElem?_allocate_from_to {T : Type} (blocks : List (Block T)) (a b j : Nat) :
    (allocate_from_to blocks a b)[j]? =
      if a ≤ j ∧ j < b ∧ j < blocks.length then some (newBlock T) else blocks[j]? :=
  getElem?_forRange_set _ _ _ _ _

theorem getD_newBlock (T : Type) (k : Nat) :
    ((some (newBlock T)).getD [])[k]?.getD none = none := by
  show (List.replicate 32 (none : Option T))[k]?.getD none = none
  rw [List.getElem?_replicate]
  split <;> rfl

namespace Deque
variable {T : Type}

theorem length_reallocate_to_increase (d : Deque T) (n : Nat) :
    (d.reallocate_to_increase n).blocks_.length = 3 * n := by
  simp [reallocate_to_increase, length_allocate_from_to, length_forRange_set, kSizeCoefficient]

theorem getElem?_reallocate_to_increase (d : Deque T) (j : Nat) :
    (d.reallocate_to_increase d.blocks_.length).blocks_[j]? =
      if j < d.blocks_.length then some (newBlock T)
      else if j < 2 * d.blocks_.length then d.blocks_[j - d.blocks_.length]?
      else if j < 3 * d.blocks_.length then some (newBlock T)
      else none := by
  simp only [reallocate_to_increase, kSizeCoefficient, getElem?_allocate_from_to,
    getElem?_forRange_set, length_allocate_from_to, length_forRange_set, List.length_replicate]
  have e : (3 - 1) / 2 = 1 := rfl
  simp only [e, Nat.one_mul, Nat.zero_le, true_and]
  by_cases h1 : j < d.blocks_.length
  · rw [if_neg (by omega), if_neg (by omega), if_pos (by omega), if_pos h1]
  · by_cases h2 : j < 2 * d.blocks_.length
    · have h3 : j - d.blocks_.length < d.blocks_.length := by omega
      rw [if_neg (by omega), if_pos (by omega), if_neg h1, if_pos h2,
        List.getD_eq_getElem?_getD, List.getElem?_eq_getElem h3]
      rfl
    · by_cases h4 : j < 3 * d.blocks_.length
      · rw [if_pos (by omega), if_neg h1, if_neg h2, if_pos h4]
      · rw [if_neg (by omega), if_neg (by omega), if_neg (by omega), if_neg h1, if_neg h2,
          if_neg h4]
        exact List.getElem?_eq_none (by simp; omega)

theorem allFull_reallocate_to_increase {d : Deque T} (h : AllFull d.blocks_) :
    AllFull (d.reallocate_to_increase d.blocks_.length).blocks_ := by
  intro b hb
  obtain ⟨j, hj⟩ := List.mem_iff_getElem?.mp hb
  rw [getElem?_reallocate_to_increase] at hj
  split_ifs at hj
  · cases hj; simp [newBlock]
  · exact h b (List.mem_iff_getElem?.mpr ⟨_, hj⟩)
  · cases hj; simp [newBlock]

theorem rd_reallocate_to_increase (d : Deque T) (m : Int) :
    rd (d.reallocate_to_increase d.blocks_.length).blocks_ (m + 32 * d.blocks_.length) =
      rd d.blocks_ m := by
  unfold rd readSlot
  have e1 : (m + 32 * (d.blocks_.length : Int)) / 32 = m / 32 + d.blocks_.length := by omega
  have e2 : (m + 32 * (d.blocks_.length : Int)) % 32 = m % 32 := by omega
  simp only [e1, e2, List.getD_eq_getElem?_getD, getElem?_reallocate_to_increase]
  have hm : ¬ (m % 32 < 0) := by omega
  by_cases c : m / 32 < 0
  · rw [if_pos (Or.inl c)]
    split
    · rfl
    · rw [if_pos (by omega)]
      exact getD_newBlock T _
  · have a1 : ¬ (m / 32 + (d.blocks_.length : Int) < 0 ∨ m % 32 < 0) := by omega
    have a2 : ¬ ((m / 32 + (d.blocks_.length : Int)).toNat < d.blocks_.length) := by omega
    have a3 : ¬ (m / 32 < 0 ∨ m % 32 < 0) := by omega
    have e3 : (m / 32 + (d.blocks_.length : Int)).toNat - d.blocks_.length = (m / 32).toNat := by
      omega
    simp only [a1, a2, a3, if_false, e3]
    by_cases c2 : (m / 32).toNat < d.blocks_.length
    · rw [if_pos (by omega)]
    · have hn : d.blocks_[(m / 32).toNat]? = none := List.getElem?_eq_none (by omega)
      rw [hn, if_neg (by omega)]
      split
      · exact getD_newBlock T _
      · rfl

theorem wf_iff (d : Deque T) :
    d.WF ↔ 1 ≤ d.blocks_.length ∧ AllFull d.blocks_ ∧
      d.true_begin_ = { block := 0, index := 0 } ∧
      d.true_end_ = { block := (d.blocks_.length : Int) - 1, index := 31 } ∧
      d.begin_.Norm ∧ d.end_.Norm ∧ 0 ≤ d.begin_.lin ∧ d.begin_.lin ≤ d.end_.lin ∧
      d.end_.lin ≤ 32 * (d.blocks_.length : Int) - 1 ∧
      (d.size_ : Int) = d.end_.lin - d.begin_.lin := by
  unfold WF
  constructor
  · rintro ⟨h1, h2, h3, h4, h5, h6, h7, h8, h9, h10⟩
    have n0 : (CommonIterator.mk 0 0).Norm := by decide
    have n1 : (CommonIterator.mk ((d.blocks_.length : Int) - 1) 31).Norm := by
      simp only [CommonIterator.Norm]; omega
    rw [h3] at h7; rw [h4] at h9
    simp only [CommonIterator.op_le, Bool.not_eq_true', ← Bool.not_eq_true,
      CommonIterator.op_lt_lin h5 n0, CommonIterator.op_lt_lin h6 h5,
      CommonIterator.op_lt_lin n1 h6] at h7 h8 h9
    rw [CommonIterator.op_diff_lin] at h10
    simp only [CommonIterator.lin] at h7 h9
    refine ⟨h1, h2, h3, h4, h5, h6, ?_, ?_, ?_, h10⟩
    · simp only [CommonIterator.lin]; omega
    · omega
    · simp only [CommonIterator.lin]; omega
  · rintro ⟨h1, h2, h3, h4, h5, h6, h7, h8, h9, h10⟩
    have n0 : (CommonIterator.mk 0 0).Norm := by decide
    have n1 : (CommonIterator.mk ((d.blocks_.length : Int) - 1) 31).Norm := by
      simp only [CommonIterator.Norm]; omega
    refine ⟨h1, h2, h3, h4, h5, h6, ?_, ?_, ?_, ?_⟩
    · rw [h3]
      simp only [CommonIterator.op_le, Bool.not_eq_true', ← Bool.not_eq_true,
        CommonIterator.op_lt_lin h5 n0]
      simp only [CommonIterator.lin] at *; omega
    · simp only [CommonIterator.op_le, Bool.not_eq_true', ← Bool.not_eq_true,
        CommonIterator.op_lt_lin h6 h5]
      omega
    · rw [h4]
      simp only [CommonIterator.op_le, Bool.not_eq_true', ← Bool.not_eq_true,
        CommonIterator.op_lt_lin n1 h6]
      simp only [CommonIterator.lin] at *; omega
    · rw [CommonIterator.op_diff_lin]; exact h10
end Deque


namespace Deque
variable {T : Type}

/-- Facts about a well-formed deque after growth. -/
theorem reallocate_spec {d : Deque T} (h : d.WF) :
    d.reallocate.WF ∧ d.reallocate.size_ = d.size_ ∧
      d.reallocate.blocks_.length = 3 * d.blocks_.length ∧
      d.reallocate.begin_.lin = d.begin_.lin + 32 * d.blocks_.length ∧
      d.reallocate.end_.lin = d.end_.lin + 32 * d.blocks_.length ∧
      ∀ m, rd d.reallocate.blocks_ (m + 32 * d.blocks_.length) = rd d.blocks_ m := by
  obtain ⟨h1, h2, h3, h4, h5, h6, h7, h8, h9, h10⟩ := (wf_iff d).mp h
  have hlen : d.reallocate.blocks_.length = 3 * d.blocks_.length :=
    length_reallocate_to_increase d _
  have hb : d.reallocate.begin_.lin = d.begin_.lin + 32 * d.blocks_.length := by
    show (CommonIterator.op_plus _ _).lin = _
    rw [CommonIterator.lin_op_plus]
    show (CommonIterator.mk 0 0).lin + (d.begin_.op_diff d.true_begin_ +
      ((d.blocks_.length * kBlockSize : Nat) : Int)) = _
    rw [CommonIterator.op_diff_lin, h3]
    simp only [CommonIterator.lin, kBlockSize]
    push_cast; omega
  have he : d.reallocate.end_.lin = d.end_.lin + 32 * d.blocks_.length := by
    show (CommonIterator.op_minus _ _).lin = _
    rw [CommonIterator.lin_op_minus]
    show (CommonIterator.mk ((decSizeT (d.reallocate_to_increase d.blocks_.length).blocks_.length
      : Nat) : Int) ((kBlockSize : Nat) - 1 : Int)).lin - (d.true_end_.op_diff d.end_ +
      ((d.blocks_.length * kBlockSize : Nat) : Int)) = _
    rw [CommonIterator.op_diff_lin, h4, length_reallocate_to_increase]
    simp only [CommonIterator.lin, kBlockSize, decSizeT]
    rw [if_neg (by omega)]
    push_cast; omega
  have hte : d.reallocate.true_end_ =
      { block := (d.reallocate.blocks_.length : Int) - 1, index := 31 } := by
    rw [hlen]
    show CommonIterator.mk ((decSizeT (d.reallocate_to_increase d.blocks_.length).blocks_.length
      : Nat) : Int) ((kBlockSize : Nat) - 1 : Int) = _
    rw [length_reallocate_to_increase]
    simp only [kBlockSize, decSizeT]
    rw [if_neg (by omega)]
    congr 1
    · omega
  refine ⟨(wf_iff _).mpr ⟨by omega, allFull_reallocate_to_increase h2, rfl, hte,
    CommonIterator.norm_op_plus _ _, CommonIterator.norm_op_minus _ _, by omega, by omega,
    by omega, ?_⟩, rfl, hlen, hb, he, rd_reallocate_to_increase d⟩
  rw [hb, he]
  show (d.size_ : Int) = _
  omega

end Deque

/-! ## Logical sequence and the optional growth step -/

namespace Deque
variable {T : Type}

theorem toList_eq_rd (d : Deque T) :
    d.toList = (List.range d.size_).map (fun (i : Nat) => rd d.blocks_ (d.begin_.lin + (i : Int))) := by
  unfold toList size
  apply List.map_congr_left
  intro i _
  show readSlot d.blocks_ (d.begin_.op_plus i) = _
  rw [readSlot_eq_rd _ (CommonIterator.norm_op_plus _ _), CommonIterator.lin_op_plus]

theorem holds_iff (d : Deque T) (xs : List T) :
    d.Holds xs ↔ d.size_ = xs.length ∧
      ∀ i : Nat, i < d.size_ → rd d.blocks_ (d.begin_.lin + (i : Int)) = xs[i]? := by
  unfold Holds
  rw [toList_eq_rd]
  constructor
  · intro h
    have hl : d.size_ = xs.length := by
      have := congrArg List.length h
      simpa using this
    refine ⟨hl, fun i hi => ?_⟩
    have := congrArg (fun l => l[i]?) h
    simp only [List.getElem?_map, List.getElem?_range hi, Option.map_some'] at this
    cases hx : xs[i]? with
    | none =>
      rw [hl] at hi
      rw [List.getElem?_eq_getElem hi] at hx
      cases hx
    | some x =>
      rw [hx] at this
      simpa using this
  · rintro ⟨hl, hp⟩
    apply List.ext_getElem?
    intro i
    by_cases hi : i < d.size_
    · simp only [List.getElem?_map, List.getElem?_range hi, Option.map_some']
      rw [hp i hi]
      rw [hl] at hi
      rw [List.getElem?_eq_getElem hi]
      rfl
    · rw [List.getElem?_eq_none (by simpa using hi), List.getElem?_eq_none (by simp; omega)]

/-- Outcome of the optional growth step shared by the mutators. -/
theorem grow_spec {d : Deque T} (h : d.WF) (c : Bool) :
    (if c then d.reallocate else d).WF ∧ (if c then d.reallocate else d).size_ = d.size_ ∧
      ∃ k : Int, 32 * (d.blocks_.length : Int) + k ≤
          32 * ((if c then d.reallocate else d).blocks_.length : Int) - k ∧ 0 ≤ k ∧
        (c = true → 0 < k) ∧
        (if c then d.reallocate else d).begin_.lin = d.begin_.lin + k ∧
        (if c then d.reallocate else d).end_.lin = d.end_.lin + k ∧
        ∀ m, rd (if c then d.reallocate else d).blocks_ (m + k) = rd d.blocks_ m := by
  obtain ⟨r1, r2, r3, r4, r5, r6⟩ := reallocate_spec h
  have hn := ((wf_iff d).mp h).1
  cases c
  · refine ⟨h, rfl, 0, ?_, le_refl _, ?_, ?_, ?_, ?_⟩
    · show 32 * (d.blocks_.length : Int) + 0 ≤ 32 * (d.blocks_.length : Int) - 0
      omega
    · intro hc; cases hc
    · show d.begin_.lin = d.begin_.lin + 0
      omega
    · show d.end_.lin = d.end_.lin + 0
      omega
    · intro m
      show rd d.blocks_ (m + 0) = rd d.blocks_ m
      rw [Int.add_zero]
  · refine ⟨r1, r2, 32 * d.blocks_.length, ?_, by omega, fun _ => by omega, r4, r5, r6⟩
    show 32 * (d.blocks_.length : Int) + 32 * (d.blocks_.length : Int) ≤
      32 * (d.reallocate.blocks_.length : Int) - 32 * (d.blocks_.length : Int)
    rw [r3]; push_cast; omega

end Deque

/-! ## End operations -/

theorem CommonIterator.lin_op_inc {it : CommonIterator} (h : it.Norm) :
    it.op_inc.lin = it.lin + 1 := by
  rw [CommonIterator.op_inc_eq h, CommonIterator.lin_op_plus_eq]

theorem CommonIterator.norm_op_inc {it : CommonIterator} (h : it.Norm) : it.op_inc.Norm := by
  rw [CommonIterator.op_inc_eq h]; exact CommonIterator.norm_op_plus_eq _ _

theorem CommonIterator.lin_op_dec {it : CommonIterator} (h : it.Norm) :
    it.op_dec.lin = it.lin - 1 := by
  rw [CommonIterator.op_dec_eq h, CommonIterator.lin_op_plus_eq]; omega

theorem CommonIterator.norm_op_dec {it : CommonIterator} (h : it.Norm) : it.op_dec.Norm := by
  rw [CommonIterator.op_dec_eq h]; exact CommonIterator.norm_op_plus_eq _ _

namespace Deque
variable {T : Type}

theorem op_eq_true_end {d : Deque T} (h : d.WF) :
    d.end_.op_eq d.true_end_ = true ↔ d.end_.lin = 32 * (d.blocks_.length : Int) - 1 := by
  obtain ⟨h1, h2, h3, h4, h5, h6, h7, h8, h9, h10⟩ := (wf_iff d).mp h
  rw [CommonIterator.op_eq_iff, h4]
  constructor
  · intro e; rw [e]; simp only [CommonIterator.lin]; omega
  · intro e
    apply CommonIterator.eq_of_lin h6
    · simp only [CommonIterator.Norm]; omega
    · rw [e]; simp only [CommonIterator.lin]; omega

theorem op_eq_true_begin {d : Deque T} (h : d.WF) :
    d.begin_.op_eq d.true_begin_ = true ↔ d.begin_.lin = 0 := by
  obtain ⟨h1, h2, h3, h4, h5, h6, h7, h8, h9, h10⟩ := (wf_iff d).mp h
  rw [CommonIterator.op_eq_iff, h3]
  constructor
  · intro e; rw [e]; rfl
  · intro e
    exact CommonIterator.eq_of_lin h5 (by decide) (by rw [e]; rfl)

theorem push_back_spec {d : Deque T} (h : d.WF) (v : T) :
    (d.push_back v).WF ∧ ∀ xs, d.Holds xs → (d.push_back v).Holds (xs ++ [v]) := by
  obtain ⟨g1, g2, k, g3, g4, g5, g6, g7, g8⟩ := grow_spec h (d.end_.op_eq d.true_end_)
  have hc := op_eq_true_end h
  have h9 := ((wf_iff d).mp h).2.2.2.2.2.2.2.2.1
  have hpb : d.push_back v =
      { (if d.end_.op_eq d.true_end_ then d.reallocate else d) with
        blocks_ := writeSlot (if d.end_.op_eq d.true_end_ then d.reallocate else d).blocks_
          (if d.end_.op_eq d.true_end_ then d.reallocate else d).end_ (some v)
        end_ := (if d.end_.op_eq d.true_end_ then d.reallocate else d).end_.op_inc
        size_ := (if d.end_.op_eq d.true_end_ then d.reallocate else d).size_ + 1 } := rfl
  rw [hpb]
  generalize (if d.end_.op_eq d.true_end_ then d.reallocate else d) = d1 at *
  obtain ⟨w1, w2, w3, w4, w5, w6, w7, w8, w9, w10⟩ := (wf_iff d1).mp g1
  have hlt : d1.end_.lin < 32 * (d1.blocks_.length : Int) - 1 := by
    by_cases c : d.end_.op_eq d.true_end_ = true
    · have := g5 c; omega
    · have : d.end_.lin ≠ 32 * (d.blocks_.length : Int) - 1 := fun e => c (hc.mpr e)
      omega
  have hin : InAlloc d1.blocks_ d1.end_ := (inAlloc_iff _ w6).mpr ⟨by omega, by omega⟩
  constructor
  · apply (wf_iff _).mpr
    refine ⟨?_, allFull_writeSlot w2 _ _, w3, ?_, w5, CommonIterator.norm_op_inc w6, w7, ?_, ?_, ?_⟩
    · show 1 ≤ (writeSlot _ _ _).length
      rw [length_writeSlot]; exact w1
    · show d1.true_end_ = ⟨((writeSlot _ _ _).length : Int) - 1, 31⟩
      rw [length_writeSlot]; exact w4
    · show d1.begin_.lin ≤ d1.end_.op_inc.lin
      rw [CommonIterator.lin_op_inc w6]; omega
    · show d1.end_.op_inc.lin ≤ 32 * ((writeSlot _ _ _).length : Int) - 1
      rw [CommonIterator.lin_op_inc w6, length_writeSlot]; omega
    · show ((d1.size_ + 1 : Nat) : Int) = d1.end_.op_inc.lin - d1.begin_.lin
      rw [CommonIterator.lin_op_inc w6]; push_cast; omega
  · intro xs hx
    obtain ⟨x1, x2⟩ := (holds_iff d xs).mp hx
    apply (holds_iff _ _).mpr
    refine ⟨?_, ?_⟩
    · show d1.size_ + 1 = (xs ++ [v]).length
      rw [List.length_append, g2, x1]; rfl
    · intro i hi
      show rd (writeSlot d1.blocks_ d1.end_ (some v)) (d1.begin_.lin + (i : Int)) = _
      have hi' : i < d1.size_ + 1 := hi
      rw [rd_writeSlot w2 hin]
      by_cases c : i < d.size_
      · rw [if_neg (by omega), List.getElem?_append_left (by omega), ← x2 i c, ← g8, g6]
        congr 1; omega
      · have e : i = xs.length := by omega
        rw [if_pos (by omega), e]
        simp

end Deque


namespace Deque
variable {T : Type}

theorem push_front_spec {d : Deque T} (h : d.WF) (v : T) :
    (d.push_front v).WF ∧ ∀ xs, d.Holds xs → (d.push_front v).Holds (v :: xs) := by
  obtain ⟨g1, g2, k, g3, g4, g5, g6, g7, g8⟩ := grow_spec h (d.begin_.op_eq d.true_begin_)
  have hc := op_eq_true_begin h
  have h7 := ((wf_iff d).mp h).2.2.2.2.2.2.1
  have hpf : d.push_front v =
      { (if d.begin_.op_eq d.true_begin_ then d.reallocate else d) with
        begin_ := (if d.begin_.op_eq d.true_begin_ then d.reallocate else d).begin_.op_dec
        size_ := (if d.begin_.op_eq d.true_begin_ then d.reallocate else d).size_ + 1
        blocks_ := writeSlot (if d.begin_.op_eq d.true_begin_ then d.reallocate else d).blocks_
          (if d.begin_.op_eq d.true_begin_ then d.reallocate else d).begin_.op_dec (some v) } := rfl
  rw [hpf]
  generalize (if d.begin_.op_eq d.true_begin_ then d.reallocate else d) = d1 at *
  obtain ⟨w1, w2, w3, w4, w5, w6, w7, w8, w9, w10⟩ := (wf_iff d1).mp g1
  have hlt : 0 < d1.begin_.lin := by
    by_cases c : d.begin_.op_eq d.true_begin_ = true
    · have := g5 c; omega
    · have : d.begin_.lin ≠ 0 := fun e => c (hc.mpr e)
      omega
  have hn := CommonIterator.norm_op_dec w5
  have hl := CommonIterator.lin_op_dec w5
  have hin : InAlloc d1.blocks_ d1.begin_.op_dec := (inAlloc_iff _ hn).mpr ⟨by omega, by omega⟩
  constructor
  · apply (wf_iff _).mpr
    refine ⟨?_, allFull_writeSlot w2 _ _, w3, ?_, hn, w6, ?_, ?_, ?_, ?_⟩
    · show 1 ≤ (writeSlot _ _ _).length
      rw [length_writeSlot]; exact w1
    · show d1.true_end_ = ⟨((writeSlot _ _ _).length : Int) - 1, 31⟩
      rw [length_writeSlot]; exact w4
    · show 0 ≤ d1.begin_.op_dec.lin
      omega
    · show d1.begin_.op_dec.lin ≤ d1.end_.lin
      omega
    · show d1.end_.lin ≤ 32 * ((writeSlot _ _ _).length : Int) - 1
      rw [length_writeSlot]; omega
    · show ((d1.size_ + 1 : Nat) : Int) = d1.end_.lin - d1.begin_.op_dec.lin
      push_cast; omega
  · intro xs hx
    obtain ⟨x1, x2⟩ := (holds_iff d xs).mp hx
    apply (holds_iff _ _).mpr
    refine ⟨?_, ?_⟩
    · show d1.size_ + 1 = (v :: xs).length
      rw [List.length_cons, g2, x1]
    · intro i hi
      show rd (writeSlot d1.blocks_ d1.begin_.op_dec (some v)) (d1.begin_.op_dec.lin + (i : Int)) = _
      have hi' : i < d1.size_ + 1 := hi
      rw [rd_writeSlot w2 hin]
      cases i with
      | zero => rw [if_pos (by omega)]; simp
      | succ j =>
        rw [if_neg (by omega), List.getElem?_cons_succ, ← x2 j (by omega), ← g8]
        congr 1; push_cast; omega

theorem pop_back_spec {d : Deque T} (h : d.WF) (hne : d.size_ ≠ 0) :
    d.pop_back.WF ∧ ∀ xs, d.Holds xs → d.pop_back.Holds xs.dropLast := by
  obtain ⟨w1, w2, w3, w4, w5, w6, w7, w8, w9, w10⟩ := (wf_iff d).mp h
  have hin : InAlloc d.blocks_ d.end_ := (inAlloc_iff _ w6).mpr ⟨by omega, by omega⟩
  have hn := CommonIterator.norm_op_dec w6
  have hl := CommonIterator.lin_op_dec w6
  have hs : decSizeT d.size_ = d.size_ - 1 := by unfold decSizeT; rw [if_neg hne]
  constructor
  · apply (wf_iff _).mpr
    refine ⟨?_, allFull_writeSlot w2 _ _, w3, ?_, w5, hn, w7, ?_, ?_, ?_⟩
    · show 1 ≤ (writeSlot _ _ _).length
      rw [length_writeSlot]; exact w1
    · show d.true_end_ = ⟨((writeSlot _ _ _).length : Int) - 1, 31⟩
      rw [length_writeSlot]; exact w4
    · show d.begin_.lin ≤ d.end_.op_dec.lin
      omega
    · show d.end_.op_dec.lin ≤ 32 * ((writeSlot _ _ _).length : Int) - 1
      rw [length_writeSlot]; omega
    · show ((decSizeT d.size_ : Nat) : Int) = d.end_.op_dec.lin - d.begin_.lin
      rw [hs]; omega
  · intro xs hx
    obtain ⟨x1, x2⟩ := (holds_iff d xs).mp hx
    apply (holds_iff _ _).mpr
    refine ⟨?_, ?_⟩
    · show decSizeT d.size_ = xs.dropLast.length
      rw [List.length_dropLast, hs, x1]
    · intro i hi
      have hi' : i < decSizeT d.size_ := hi
      rw [hs] at hi'
      show rd (writeSlot d.blocks_ d.end_ none) (d.begin_.lin + (i : Int)) = _
      rw [rd_writeSlot w2 hin, if_neg (by omega), x2 i (by omega), List.dropLast_eq_take,
        List.getElem?_take_of_lt (by omega)]

theorem pop_front_spec {d : Deque T} (h : d.WF) (hne : d.size_ ≠ 0) :
    d.pop_front.WF ∧ ∀ xs, d.Holds xs → d.pop_front.Holds xs.tail := by
  obtain ⟨w1, w2, w3, w4, w5, w6, w7, w8, w9, w10⟩ := (wf_iff d).mp h
  have hin : InAlloc d.blocks_ d.begin_ := (inAlloc_iff _ w5).mpr ⟨by omega, by omega⟩
  have hn := CommonIterator.norm_op_inc w5
  have hl := CommonIterator.lin_op_inc w5
  have hs : decSizeT d.size_ = d.size_ - 1 := by unfold decSizeT; rw [if_neg hne]
  constructor
  · apply (wf_iff _).mpr
    refine ⟨?_, allFull_writeSlot w2 _ _, w3, ?_, hn, w6, ?_, ?_, ?_, ?_⟩
    · show 1 ≤ (writeSlot _ _ _).length
      rw [length_writeSlot]; exact w1
    · show d.true_end_ = ⟨((writeSlot _ _ _).length : Int) - 1, 31⟩
      rw [length_writeSlot]; exact w4
    · show 0 ≤ d.begin_.op_inc.lin
      omega
    · show d.begin_.op_inc.lin ≤ d.end_.lin
      omega
    · show d.end_.lin ≤ 32 * ((writeSlot _ _ _).length : Int) - 1
      rw [length_writeSlot]; omega
    · show ((decSizeT d.size_ : Nat) : Int) = d.end_.lin - d.begin_.op_inc.lin
      rw [hs]; omega
  · intro xs hx
    obtain ⟨x1, x2⟩ := (holds_iff d xs).mp hx
    apply (holds_iff _ _).mpr
    refine ⟨?_, ?_⟩
    · show decSizeT d.size_ = xs.tail.length
      rw [List.length_tail, hs, x1]
    · intro i hi
      have hi' : i < decSizeT d.size_ := hi
      rw [hs] at hi'
      show rd (writeSlot d.blocks_ d.begin_ none) (d.begin_.op_inc.lin + (i : Int)) = _
      rw [rd_writeSlot w2 hin, if_neg (by omega), List.getElem?_tail, ← x2 (i + 1) (by omega), hl]
      congr 1; push_cast; omega

end Deque

/-! ## Refinement of the reference double-ended list (claim C1) -/

namespace Deque
variable {T : Type}

theorem wf_ctor : (ctor : Deque T).WF := by
  apply (wf_iff _).mpr
  have hl : (ctor : Deque T).blocks_.length = 3 := rfl
  have hn : (CommonIterator.mk 1 0).Norm := by decide
  refine ⟨by rw [hl]; decide, ?_, rfl, rfl, hn, hn, ?_, ?_, ?_, ?_⟩
  rotate_left
  · show (0 : Int) ≤ (CommonIterator.mk 1 0).lin
    decide
  · exact le_refl _
  · rw [hl]
    show (CommonIterator.mk 1 0).lin ≤ 32 * ((3 : Nat) : Int) - 1
    decide
  · show ((0 : Nat) : Int) = (CommonIterator.mk 1 0).lin - (CommonIterator.mk 1 0).lin
    decide
  intro b hb
  have : b ∈ [newBlock T, newBlock T, newBlock T] := hb
  simp only [List.mem_cons, List.mem_singleton, List.not_mem_nil, or_false] at this
  rcases this with e | e | e <;> rw [e] <;> rfl

theorem holds_ctor : (ctor : Deque T).Holds [] := rfl

theorem run_spec (ops : List (Op T)) :
    ∀ (d : Deque T) (xs : List T), d.WF → d.Holds xs → NoEmptyPop xs ops →
      (d.run ops).WF ∧ (d.run ops).Holds (refRun xs ops) := by
  induction ops with
  | nil => intro d xs hw hh _; exact ⟨hw, hh⟩
  | cons op ops ih =>
    intro d xs hw hh hn
    have hs : d.size_ = xs.length := ((holds_iff d xs).mp hh).1
    cases op with
    | push_back v =>
      exact ih (d.push_back v) (xs ++ [v]) (push_back_spec hw v).1
        ((push_back_spec hw v).2 xs hh) hn
    | push_front v =>
      exact ih (d.push_front v) (v :: xs) (push_front_spec hw v).1
        ((push_front_spec hw v).2 xs hh) hn
    | pop_back =>
      have hne : d.size_ ≠ 0 := by
        rw [hs]; intro e; exact hn.1 (List.length_eq_zero.mp e)
      exact ih d.pop_back xs.dropLast (pop_back_spec hw hne).1
        ((pop_back_spec hw hne).2 xs hh) hn.2
    | pop_front =>
      have hne : d.size_ ≠ 0 := by
        rw [hs]; intro e; exact hn.1 (List.length_eq_zero.mp e)
      exact ih d.pop_front xs.tail (pop_front_spec hw hne).1
        ((pop_front_spec hw hne).2 xs hh) hn.2

theorem holds_pointwise {d : Deque T} {xs : List T} (h : d.Holds xs) :
    d.size = xs.length ∧
      ∀ (i : Nat) (hi : i < xs.length), d.deref (d.op_index i) = some xs[i] := by
  obtain ⟨h1, h2⟩ := (holds_iff d xs).mp h
  refine ⟨h1, fun i hi => ?_⟩
  show readSlot d.blocks_ (d.begin_.op_plus i) = _
  rw [readSlot_eq_rd _ (CommonIterator.norm_op_plus _ _), CommonIterator.lin_op_plus,
    h2 i (by omega), List.getElem?_eq_getElem hi]

end Deque

/-- C1: starting from the default-constructed deque, after any sequence of
`push_back`, `push_front`, `pop_back`, `pop_front` calls that never pops an
empty deque, `size()` is the length of the reference list and `operator[](i)`
addresses a constructed slot holding the `i`-th element of the reference list,
for every `i < size()`; the deque is still well-formed. -/
theorem C1_end_operations_refine_reference {T : Type} (ops : List (Op T))
    (h : NoEmptyPop ([] : List T) ops) :
    ((Deque.ctor : Deque T).run ops).size = (refRun [] ops).length ∧
      (∀ (i : Nat) (hi : i < (refRun [] ops).length),
        ((Deque.ctor : Deque T).run ops).deref (((Deque.ctor : Deque T).run ops).op_index i) =
          some (refRun [] ops)[i]) ∧
      ((Deque.ctor : Deque T).run ops).WF := by
  obtain ⟨hw, hh⟩ := Deque.run_spec ops Deque.ctor [] Deque.wf_ctor Deque.holds_ctor h
  exact ⟨(Deque.holds_pointwise hh).1, (Deque.holds_pointwise hh).2, hw⟩

/-- C1 on the calls `push_back(1)`, `push_back(2)`, `push_front(0)`, `pop_back()`,
`pop_front()`, `push_front(7)`. -/
theorem C1_end_operations_refine_reference_witness :
    NoEmptyPop ([] : List Nat)
        [.push_back 1, .push_back 2, .push_front 0, .pop_back, .pop_front, .push_front 7] ∧
      ((Deque.ctor : Deque Nat).run
        [.push_back 1, .push_back 2, .push_front 0, .pop_back, .pop_front, .push_front 7]).size = 2 ∧
      ((Deque.ctor : Deque Nat).run
        [.push_back 1, .push_back 2, .push_front 0, .pop_back, .pop_front, .push_front 7]).toList
          = [some 7, some 1] :=
  have hn : NoEmptyPop ([] : List Nat)
      [.push_back 1, .push_back 2, .push_front 0, .pop_back, .pop_front, .push_front 7] :=
    ⟨by decide, by decide, trivial⟩
  ⟨hn, (C1_end_operations_refine_reference _ hn).1, by decide⟩

/-! ## Shift loops of insert and erase -/

namespace Deque
variable {T : Type}

theorem op_gt_lin {a b : CommonIterator} (ha : a.Norm) (hb : b.Norm) :
    a.op_gt b = true ↔ b.lin < a.lin := CommonIterator.op_lt_lin hb ha

theorem insert_loop_spec (begin_ : CommonIterator) (size_ : Nat) (it : CommonIterator)
    (hit : it.Norm) (h0 : 0 ≤ it.lin) (fuel : Nat) :
    ∀ (blocks : List (Block T)) (cur : CommonIterator), AllFull blocks → cur.Norm →
      cur.lin < 32 * (blocks.length : Int) → cur.lin - it.lin ≤ fuel →
      (insert_loop fuel blocks begin_ size_ it cur).length = blocks.length ∧
        AllFull (insert_loop fuel blocks begin_ size_ it cur) ∧
        ∀ m, rd (insert_loop fuel blocks begin_ size_ it cur) m =
          if it.lin < m ∧ m ≤ cur.lin then rd blocks (m - 1) else rd blocks m := by
  induction fuel with
  | zero =>
    intro blocks cur hf _ _ hd
    refine ⟨rfl, hf, fun m => ?_⟩
    rw [if_neg (by omega)]; rfl
  | succ n ih =>
    intro blocks cur hf hc hb hd
    unfold insert_loop
    by_cases g : cur.op_gt it = true
    · rw [if_pos g]
      have hlt : it.lin < cur.lin := (op_gt_lin hc hit).mp g
      have hin : InAlloc blocks cur := (inAlloc_iff _ hc).mpr ⟨by omega, hb⟩
      -- state after the optional destructor call
      obtain ⟨b1, hb1, l1, f1, r1⟩ : ∃ b1 : List (Block T),
          b1 = (if toSizeT (cur.op_diff begin_) < size_ then writeSlot blocks cur none else blocks) ∧
          b1.length = blocks.length ∧ AllFull b1 ∧
          ∀ m, m ≠ cur.lin → rd b1 m = rd blocks m := by
        refine ⟨_, rfl, ?_, ?_, ?_⟩
        · split
          · exact length_writeSlot _ _ _
          · rfl
        · split
          · exact allFull_writeSlot hf _ _
          · exact hf
        · intro m hm
          split
          · rw [rd_writeSlot hf hin, if_neg hm]
          · rfl
      have hin1 : InAlloc b1 cur := (inAlloc_iff _ hc).mpr ⟨by omega, by rw [l1]; exact hb⟩
      have hnd := CommonIterator.norm_op_dec hc
      have hld := CommonIterator.lin_op_dec hc
      simp only [← hb1]
      obtain ⟨i1, i2, i3⟩ := ih (writeSlot b1 cur (readSlot b1 (cur.op_minus 1))) cur.op_dec
        (allFull_writeSlot f1 _ _) hnd (by rw [length_writeSlot, l1]; omega) (by omega)
      refine ⟨by rw [i1, length_writeSlot, l1], i2, fun m => ?_⟩
      rw [i3, hld]
      have hrd : readSlot b1 (cur.op_minus 1) = rd blocks (cur.lin - 1) := by
        rw [readSlot_eq_rd _ (CommonIterator.norm_op_minus _ _), CommonIterator.lin_op_minus,
          r1 _ (by omega)]
      by_cases c1 : it.lin < m ∧ m ≤ cur.lin - 1
      · rw [if_pos c1, if_pos (by omega), rd_writeSlot f1 hin1, if_neg (by omega), r1 _ (by omega)]
      · rw [if_neg c1, rd_writeSlot f1 hin1]
        by_cases c2 : m = cur.lin
        · rw [if_pos c2, if_pos (by omega), hrd, c2]
        · rw [if_neg c2, if_neg (by omega), r1 _ c2]
    · rw [if_neg g]
      have hlt : ¬ it.lin < cur.lin := fun c => g ((op_gt_lin hc hit).mpr c)
      refine ⟨rfl, hf, fun m => ?_⟩
      rw [if_neg (by omega)]

theorem erase_loop_spec (end_ : CommonIterator) (he : end_.Norm) (fuel : Nat) :
    ∀ (blocks : List (Block T)) (cur : CommonIterator), AllFull blocks → cur.Norm →
      0 ≤ cur.lin → end_.lin ≤ 32 * (blocks.length : Int) → end_.lin - cur.lin ≤ fuel →
      (erase_loop fuel blocks end_ cur).length = blocks.length ∧
        AllFull (erase_loop fuel blocks end_ cur) ∧
        ∀ m, rd (erase_loop fuel blocks end_ cur) m =
          if cur.lin ≤ m ∧ m < end_.lin then rd blocks (m + 1) else rd blocks m := by
  induction fuel with
  | zero =>
    intro blocks cur hf _ _ _ hd
    refine ⟨rfl, hf, fun m => ?_⟩
    rw [if_neg (by omega)]; rfl
  | succ n ih =>
    intro blocks cur hf hc h0 hb hd
    unfold erase_loop
    by_cases g : cur.op_lt end_ = true
    · rw [if_pos g]
      have hlt : cur.lin < end_.lin := (CommonIterator.op_lt_lin hc he).mp g
      have hin : InAlloc blocks cur := (inAlloc_iff _ hc).mpr ⟨by omega, by omega⟩
      have hni := CommonIterator.norm_op_inc hc
      have hli := CommonIterator.lin_op_inc hc
      obtain ⟨i1, i2, i3⟩ := ih (writeSlot blocks cur (readSlot blocks (cur.op_plus 1))) cur.op_inc
        (allFull_writeSlot hf _ _) hni (by omega) (by rw [length_writeSlot]; omega) (by omega)
      refine ⟨by rw [i1, length_writeSlot], i2, fun m => ?_⟩
      rw [i3, hli]
      have hrd : readSlot blocks (cur.op_plus 1) = rd blocks (cur.lin + 1) := by
        rw [readSlot_eq_rd _ (CommonIterator.norm_op_plus _ _), CommonIterator.lin_op_plus]
      by_cases c1 : cur.lin + 1 ≤ m ∧ m < end_.lin
      · rw [if_pos c1, if_pos (by omega), rd_writeSlot hf hin, if_neg (by omega)]
      · rw [if_neg c1, rd_writeSlot hf hin]
        by_cases c2 : m = cur.lin
        · rw [if_pos c2, if_pos (by omega), hrd, c2]
        · rw [if_neg c2, if_neg (by omega)]
    · rw [if_neg g]
      have hlt : ¬ cur.lin < end_.lin := fun c => g ((CommonIterator.op_lt_lin hc he).mpr c)
      refine ⟨rfl, hf, fun m => ?_⟩
      rw [if_neg (by omega)]

end Deque

/-! ## Positional insert and erase -/

theorem getElem?_insert_at {T : Type} (xs : List T) (p : Nat) (hp : p ≤ xs.length) (v : T)
    (i : Nat) :
    (xs.take p ++ [v] ++ xs.drop p)[i]? =
      if i < p then xs[i]? else if i = p then some v else xs[i - 1]? := by
  have hl : (xs.take p).length = p := by rw [List.length_take]; omega
  by_cases c1 : i < p
  · rw [if_pos c1, List.append_assoc, List.getElem?_append_left (by omega),
      List.getElem?_take_of_lt c1]
  · rw [if_neg c1, List.append_assoc, List.getElem?_append_right (by omega), hl]
    by_cases c2 : i = p
    · rw [if_pos c2, c2]; simp
    · rw [if_neg c2]
      have : i - p = (i - p - 1) + 1 := by omega
      rw [this, List.singleton_append, List.getElem?_cons_succ, List.getElem?_drop]
      congr 1; omega

theorem getElem?_erase_at {T : Type} (xs : List T) (p : Nat) (hp : p ≤ xs.length) (i : Nat) :
    (xs.take p ++ xs.drop (p + 1))[i]? = if i < p then xs[i]? else xs[i + 1]? := by
  have hl : (xs.take p).length = p := by rw [List.length_take]; omega
  by_cases c1 : i < p
  · rw [if_pos c1, List.getElem?_append_left (by omega), List.getElem?_take_of_lt c1]
  · rw [if_neg c1, List.getElem?_append_right (by omega), hl, List.getElem?_drop]
    congr 1; omega

namespace Deque
variable {T : Type}

/-- The optional growth step with its shift spelled out: `32 n` slots when the
array of `n` blocks is rebuilt, none otherwise. -/
theorem grow_spec_exact {d : Deque T} (h : d.WF) (c : Bool) :
    (if c then d.reallocate else d).WF ∧ (if c then d.reallocate else d).size_ = d.size_ ∧
      32 * (d.blocks_.length : Int) + (if c then 32 * (d.blocks_.length : Int) else 0) ≤
        32 * ((if c then d.reallocate else d).blocks_.length : Int) -
          (if c then 32 * (d.blocks_.length : Int) else 0) ∧
      (if c then d.reallocate else d).begin_.lin =
        d.begin_.lin + (if c then 32 * (d.blocks_.length : Int) else 0) ∧
      (if c then d.reallocate else d).end_.lin =
        d.end_.lin + (if c then 32 * (d.blocks_.length : Int) else 0) ∧
      ∀ m, rd (if c then d.reallocate else d).blocks_
        (m + (if c then 32 * (d.blocks_.length : Int) else 0)) = rd d.blocks_ m := by
  obtain ⟨r1, r2, r3, r4, r5, r6⟩ := reallocate_spec h
  cases c
  · refine ⟨h, rfl, ?_, ?_, ?_, ?_⟩
    · show 32 * (d.blocks_.length : Int) + 0 ≤ 32 * (d.blocks_.length : Int) - 0
      omega
    · show d.begin_.lin = d.begin_.lin + 0
      omega
    · show d.end_.lin = d.end_.lin + 0
      omega
    · intro m
      show rd d.blocks_ (m + 0) = rd d.blocks_ m
      rw [Int.add_zero]
  · refine ⟨r1, r2, ?_, r4, r5, r6⟩
    show 32 * (d.blocks_.length : Int) + 32 * (d.blocks_.length : Int) ≤
      32 * (d.reallocate.blocks_.length : Int) - 32 * (d.blocks_.length : Int)
    rw [r3]; push_cast; omega

theorem length_toList (d : Deque T) : d.toList.length = d.size_ := by
  rw [toList_eq_rd, List.length_map, List.length_range]

theorem getElem?_toList (d : Deque T) (i : Nat) :
    d.toList[i]? = if i < d.size_ then some (rd d.blocks_ (d.begin_.lin + (i : Int))) else none := by
  rw [toList_eq_rd, List.getElem?_map]
  by_cases c : i < d.size_
  · rw [List.getElem?_range c, if_pos c]; rfl
  · rw [List.getElem?_eq_none (by simpa using c), if_neg c]; rfl

theorem insert_eq_core (d : Deque T) (it : CommonIterator) (r : ValueRef T) :
    d.insert it r =
      (if d.end_.op_eq d.true_end_ then d.reallocate else d).insert_core (it.op_diff d.begin_)
        (if d.end_.op_eq d.true_end_ then r.after_growth d.blocks_.length else r) :=
  rfl

theorem insert_core_spec {d : Deque T} (h : d.WF)
    (hroom : d.end_.lin < 32 * (d.blocks_.length : Int) - 1) (s : Int) (hs0 : 0 ≤ s)
    (hs1 : s ≤ d.size_) (r : ValueRef T) :
    ∃ w : Option T,
      (d.insert_core s r).WF ∧ (d.insert_core s r).size_ = d.size_ + 1 ∧
      (d.insert_core s r).begin_ = d.begin_ ∧
      (d.insert_core s r).blocks_.length = d.blocks_.length ∧
      (∀ m, rd (d.insert_core s r).blocks_ m =
        if m = d.begin_.lin + s then w
        else if d.begin_.lin + s < m ∧ m ≤ d.end_.lin then rd d.blocks_ (m - 1)
        else rd d.blocks_ m) ∧
      (∀ v, r = ValueRef.outside v → w = some v) ∧
      (∀ pos : CommonIterator, r = ValueRef.slot pos → pos.Norm →
        w = if pos.lin = d.begin_.lin + s then (if s < d.size_ then none else rd d.blocks_ pos.lin)
          else if d.begin_.lin + s < pos.lin ∧ pos.lin ≤ d.end_.lin then rd d.blocks_ (pos.lin - 1)
          else rd d.blocks_ pos.lin) := by
  obtain ⟨w1, w2, w3, w4, w5, w6, w7, w8, w9, w10⟩ := (wf_iff d).mp h
  have hn : (d.begin_.op_plus s).Norm := CommonIterator.norm_op_plus _ _
  have hl : (d.begin_.op_plus s).lin = d.begin_.lin + s := CommonIterator.lin_op_plus _ _
  obtain ⟨l1, l2, l3⟩ := insert_loop_spec d.begin_ d.size_ (d.begin_.op_plus s) hn (by omega)
    (d.end_.op_diff (d.begin_.op_plus s)).toNat d.blocks_ d.end_ w2 w6 (by omega)
    (by rw [CommonIterator.op_diff_lin]; omega)
  generalize hL : insert_loop (d.end_.op_diff (d.begin_.op_plus s)).toNat d.blocks_ d.begin_ d.size_
    (d.begin_.op_plus s) d.end_ = L at l1 l2 l3
  have hin : InAlloc L (d.begin_.op_plus s) := (inAlloc_iff _ hn).mpr ⟨by omega, by omega⟩
  have hts : toSizeT ((d.begin_.op_plus s).op_diff d.begin_) < d.size_ ↔ s < d.size_ := by
    rw [CommonIterator.op_diff_lin, hl]
    unfold toSizeT
    rw [if_neg (by omega)]
    omega
  obtain ⟨b1, hb1, k1, f1, r1, r2⟩ : ∃ b1 : List (Block T),
      b1 = (if toSizeT ((d.begin_.op_plus s).op_diff d.begin_) < d.size_
        then writeSlot L (d.begin_.op_plus s) none else L) ∧
      b1.length = L.length ∧ AllFull b1 ∧
      (∀ m, m ≠ (d.begin_.op_plus s).lin → rd b1 m = rd L m) ∧
      rd b1 (d.begin_.op_plus s).lin =
        (if s < d.size_ then none else rd L (d.begin_.op_plus s).lin) := by
    refine ⟨_, rfl, ?_, ?_, ?_, ?_⟩
    · split
      · exact length_writeSlot _ _ _
      · rfl
    · split
      · exact allFull_writeSlot l2 _ _
      · exact l2
    · intro m hm
      split
      · rw [rd_writeSlot l2 hin, if_neg hm]
      · rfl
    · by_cases c : s < d.size_
      · rw [if_pos (hts.mpr c), if_pos c, rd_writeSlot l2 hin, if_pos rfl]
      · rw [if_neg (fun x => c (hts.mp x)), if_neg c]
  have hin1 : InAlloc b1 (d.begin_.op_plus s) :=
    (inAlloc_iff _ hn).mpr ⟨by omega, by omega⟩
  have hcore : d.insert_core s r =
      { d with
        blocks_ := writeSlot b1 (d.begin_.op_plus s) (r.read b1)
        end_ := d.end_.op_inc
        size_ := d.size_ + 1 } := by
    rw [hb1, ← hL]; rfl
  rw [hcore]
  have hli := CommonIterator.lin_op_inc w6
  refine ⟨r.read b1, (wf_iff _).mpr ⟨?_, allFull_writeSlot f1 _ _, w3, ?_, w5,
    CommonIterator.norm_op_inc w6, w7, ?_, ?_, ?_⟩, rfl, rfl, ?_, ?_, ?_, ?_⟩
  · show 1 ≤ (writeSlot _ _ _).length
    rw [length_writeSlot]; omega
  · show d.true_end_ = ⟨((writeSlot _ _ _).length : Int) - 1, 31⟩
    rw [length_writeSlot, k1, l1]; exact w4
  · show d.begin_.lin ≤ d.end_.op_inc.lin
    omega
  · show d.end_.op_inc.lin ≤ 32 * ((writeSlot _ _ _).length : Int) - 1
    rw [length_writeSlot, k1, l1]; omega
  · show ((d.size_ + 1 : Nat) : Int) = d.end_.op_inc.lin - d.begin_.lin
    push_cast; omega
  · show (writeSlot _ _ _).length = _
    rw [length_writeSlot, k1, l1]
  · intro m
    show rd (writeSlot b1 (d.begin_.op_plus s) (r.read b1)) m = _
    rw [rd_writeSlot f1 hin1, hl]
    by_cases c : m = d.begin_.lin + s
    · rw [if_pos c, if_pos c]
    · rw [if_neg c, if_neg c, r1 _ (by omega), l3, hl]
  · intro v hv
    rw [hv]; rfl
  · intro pos hp hpn
    rw [hp]
    show readSlot b1 pos = _
    rw [readSlot_eq_rd _ hpn]
    by_cases c : pos.lin = d.begin_.lin + s
    · have e : pos.lin = (d.begin_.op_plus s).lin := by rw [hl]; exact c
      rw [if_pos c, e, r2]
      by_cases c2 : s < d.size_
      · rw [if_pos c2, if_pos c2]
      · rw [if_neg c2, if_neg c2, l3, if_neg (by omega)]
    · rw [if_neg c, r1 _ (by omega), l3, hl]

end Deque


namespace Deque
variable {T : Type}

theorem after_growth_cases (c : Bool) (n : Nat) (r : ValueRef T) :
    (∀ v, r = ValueRef.outside v →
        (if c then r.after_growth n else r) = ValueRef.outside v) ∧
      (∀ pos : CommonIterator, r = ValueRef.slot pos →
        ∃ pos' : CommonIterator, (if c then r.after_growth n else r) = ValueRef.slot pos' ∧
          pos'.lin = pos.lin + (if c then 32 * (n : Int) else 0) ∧ (pos.Norm → pos'.Norm)) := by
  constructor
  · intro v hv
    rw [hv]
    cases c <;> rfl
  · intro pos hp
    rw [hp]
    cases c
    · exact ⟨pos, rfl, by show pos.lin = pos.lin + 0; omega, fun x => x⟩
    · refine ⟨{ block := pos.block + n, index := pos.index }, rfl, ?_, fun x => x⟩
      show 32 * (pos.block + (n : Int)) + pos.index = 32 * pos.block + pos.index + 32 * (n : Int)
      omega

theorem insert_spec {d : Deque T} (h : d.WF) (it : CommonIterator)
    (h1 : 0 ≤ it.op_diff d.begin_) (h2 : it.op_diff d.begin_ ≤ d.size_) (r : ValueRef T) :
    ∃ w : Option T,
      (d.insert it r).WF ∧ (d.insert it r).size_ = d.size_ + 1 ∧
      (d.insert it r).toList =
        d.toList.take (it.op_diff d.begin_).toNat ++ [w] ++
          d.toList.drop (it.op_diff d.begin_).toNat ∧
      (∀ v, r = ValueRef.outside v → w = some v) ∧
      (∀ pos : CommonIterator, r = ValueRef.slot pos → pos.Norm →
        w = if pos.lin = d.begin_.lin + it.op_diff d.begin_ then
            (if it.op_diff d.begin_ < d.size_ then none else rd d.blocks_ pos.lin)
          else if d.begin_.lin + it.op_diff d.begin_ < pos.lin ∧ pos.lin ≤ d.end_.lin then
            rd d.blocks_ (pos.lin - 1)
          else rd d.blocks_ pos.lin) := by
  obtain ⟨g1, g2, g3, g6, g7, g8⟩ := grow_spec_exact h (d.end_.op_eq d.true_end_)
  obtain ⟨a1, a2⟩ := after_growth_cases (d.end_.op_eq d.true_end_) d.blocks_.length r
  have hc := op_eq_true_end h
  obtain ⟨w1, w2, w3, w4, w5, w6, w7, w8, w9, w10⟩ := (wf_iff d).mp h
  have hk : d.end_.op_eq d.true_end_ = true ∨
      d.end_.lin < 32 * (d.blocks_.length : Int) - 1 := by
    by_cases c : d.end_.op_eq d.true_end_ = true
    · exact Or.inl c
    · right
      have : d.end_.lin ≠ 32 * (d.blocks_.length : Int) - 1 := fun e => c (hc.mpr e)
      omega
  have hk0 : 0 ≤ (if d.end_.op_eq d.true_end_ = true then 32 * (d.blocks_.length : Int) else 0) := by
    split <;> omega
  have hk1 : d.end_.op_eq d.true_end_ = true →
      0 < (if d.end_.op_eq d.true_end_ = true then 32 * (d.blocks_.length : Int) else 0) := by
    intro c; rw [if_pos c]; omega
  rw [insert_eq_core]
  generalize (if d.end_.op_eq d.true_end_ = true then 32 * (d.blocks_.length : Int) else 0) = k
    at *
  generalize (if d.end_.op_eq d.true_end_ = true then r.after_growth d.blocks_.length else r) = r'
    at *
  generalize (if d.end_.op_eq d.true_end_ = true then d.reallocate else d) = d1 at *
  generalize it.op_diff d.begin_ = s at *
  obtain ⟨v1, v2, v3, v4, v5, v6, v7, v8, v9, v10⟩ := (wf_iff d1).mp g1
  have hroom : d1.end_.lin < 32 * (d1.blocks_.length : Int) - 1 := by
    rcases hk with c | c
    · have := hk1 c; omega
    · omega
  obtain ⟨w, c1, c2, c3, c4, c5, c6, c7⟩ := insert_core_spec g1 hroom s h1 (by rw [g2]; exact h2) r'
  refine ⟨w, c1, by rw [c2, g2], ?_, ?_, ?_⟩
  · apply List.ext_getElem?
    intro i
    rw [getElem?_toList, c2, c3, c5,
      getElem?_insert_at d.toList s.toNat (by rw [length_toList]; omega) w i,
      getElem?_toList, getElem?_toList, g2]
    by_cases b0 : i < d.size_ + 1
    · by_cases b1 : i < s.toNat
      · have e1 : ¬ (d1.begin_.lin + (i : Int) = d1.begin_.lin + s) := by omega
        have e2 : ¬ (d1.begin_.lin + s < d1.begin_.lin + (i : Int) ∧
            d1.begin_.lin + (i : Int) ≤ d1.end_.lin) := by omega
        have e3 : i < d.size_ := by omega
        rw [if_pos b0, if_neg e1, if_neg e2, if_pos b1, if_pos e3, ← g8]
        congr 2; omega
      · by_cases b2 : i = s.toNat
        · have e1 : d1.begin_.lin + (i : Int) = d1.begin_.lin + s := by omega
          rw [if_pos b0, if_pos e1, if_neg b1, if_pos b2]
        · have e1 : ¬ (d1.begin_.lin + (i : Int) = d1.begin_.lin + s) := by omega
          have e2 : d1.begin_.lin + s < d1.begin_.lin + (i : Int) ∧
              d1.begin_.lin + (i : Int) ≤ d1.end_.lin := by omega
          have e3 : i - 1 < d.size_ := by omega
          rw [if_pos b0, if_neg e1, if_pos e2, if_neg b1, if_neg b2, if_pos e3, ← g8]
          congr 2; omega
    · have e1 : ¬ i < s.toNat := by omega
      have e2 : ¬ i = s.toNat := by omega
      have e3 : ¬ i - 1 < d.size_ := by omega
      rw [if_neg b0, if_neg e1, if_neg e2, if_neg e3]
  · intro v hv
    exact c6 v (a1 v hv)
  · intro pos hp hpn
    obtain ⟨pos', e1, e2, e3⟩ := a2 pos hp
    rw [c7 pos' e1 (e3 hpn), e2, g6, g7, g2]
    have t1 : rd d1.blocks_ (pos.lin + k) = rd d.blocks_ pos.lin := g8 _
    have t2 : rd d1.blocks_ (pos.lin + k - 1) = rd d.blocks_ (pos.lin - 1) := by
      rw [← g8]; congr 1; omega
    rw [t1, t2]
    by_cases b1 : pos.lin = d.begin_.lin + s
    · rw [if_pos (by omega), if_pos b1]
    · rw [if_neg (by omega), if_neg b1]
      by_cases b2 : d.begin_.lin + s < pos.lin ∧ pos.lin ≤ d.end_.lin
      · rw [if_pos (by omega), if_pos b2]
      · rw [if_neg (by omega), if_neg b2]

theorem erase_spec {d : Deque T} (h : d.WF) (it : CommonIterator) (hit : it.Norm)
    (h1 : d.begin_.lin ≤ it.lin) (h2 : it.lin < d.end_.lin) :
    (d.erase it).WF ∧ (d.erase it).size_ = d.size_ - 1 ∧
      ∀ xs, d.Holds xs →
        (d.erase it).Holds
          (xs.take (it.lin - d.begin_.lin).toNat ++ xs.drop ((it.lin - d.begin_.lin).toNat + 1)) := by
  obtain ⟨w1, w2, w3, w4, w5, w6, w7, w8, w9, w10⟩ := (wf_iff d).mp h
  have hin : InAlloc d.blocks_ it := (inAlloc_iff _ hit).mpr ⟨by omega, by omega⟩
  obtain ⟨l1, l2, l3⟩ := erase_loop_spec d.end_ w6 (d.end_.op_diff it).toNat
    (writeSlot d.blocks_ it none) it (allFull_writeSlot w2 _ _) hit (by omega)
    (by rw [length_writeSlot]; omega) (by rw [CommonIterator.op_diff_lin]; omega)
  have hs : decSizeT d.size_ = d.size_ - 1 := by
    unfold decSizeT; rw [if_neg (by omega)]
  have hn := CommonIterator.norm_op_dec w6
  have hl := CommonIterator.lin_op_dec w6
  have he : d.erase it =
      { d with
        blocks_ := erase_loop (d.end_.op_diff it).toNat (writeSlot d.blocks_ it none) d.end_ it
        end_ := d.end_.op_dec
        size_ := decSizeT d.size_ } := rfl
  rw [he]
  generalize erase_loop (d.end_.op_diff it).toNat (writeSlot d.blocks_ it none) d.end_ it = L
    at l1 l2 l3
  rw [length_writeSlot] at l1
  refine ⟨(wf_iff _).mpr ⟨?_, l2, w3, ?_, w5, hn, w7, ?_, ?_, ?_⟩, hs, fun xs hx => ?_⟩
  · show 1 ≤ L.length
    omega
  · show d.true_end_ = ⟨(L.length : Int) - 1, 31⟩
    rw [l1]; exact w4
  · show d.begin_.lin ≤ d.end_.op_dec.lin
    omega
  · show d.end_.op_dec.lin ≤ 32 * (L.length : Int) - 1
    omega
  · show ((decSizeT d.size_ : Nat) : Int) = d.end_.op_dec.lin - d.begin_.lin
    rw [hs]; omega
  · obtain ⟨x1, x2⟩ := (holds_iff d xs).mp hx
    have hp : (it.lin - d.begin_.lin).toNat ≤ xs.length := by omega
    apply (holds_iff _ _).mpr
    refine ⟨?_, fun i hi => ?_⟩
    · show decSizeT d.size_ = _
      rw [hs, x1]
      simp only [List.length_append, List.length_take, List.length_drop]
      omega
    · have hi' : i < decSizeT d.size_ := hi
      rw [hs] at hi'
      show rd L (d.begin_.lin + (i : Int)) = _
      rw [l3, getElem?_erase_at xs _ hp]
      by_cases a1 : i < (it.lin - d.begin_.lin).toNat
      · rw [if_neg (by omega), if_pos a1, rd_writeSlot w2 hin, if_neg (by omega), x2 i (by omega)]
      · rw [if_pos (by omega), if_neg a1, rd_writeSlot w2 hin, if_neg (by omega),
          ← x2 (i + 1) (by omega)]
        congr 1; push_cast; omega

/-- Logical sequence after `erase`, slot by slot. -/
theorem erase_toList {d : Deque T} (h : d.WF) (it : CommonIterator) (hit : it.Norm)
    (h1 : d.begin_.lin ≤ it.lin) (h2 : it.lin < d.end_.lin) :
    (d.erase it).WF ∧ (d.erase it).size_ = d.size_ - 1 ∧
      (d.erase it).toList =
        d.toList.take (it.lin - d.begin_.lin).toNat ++
          d.toList.drop ((it.lin - d.begin_.lin).toNat + 1) := by
  obtain ⟨w1, w2, w3, w4, w5, w6, w7, w8, w9, w10⟩ := (wf_iff d).mp h
  have hin : InAlloc d.blocks_ it := (inAlloc_iff _ hit).mpr ⟨by omega, by omega⟩
  obtain ⟨l1, l2, l3⟩ := erase_loop_spec d.end_ w6 (d.end_.op_diff it).toNat
    (writeSlot d.blocks_ it none) it (allFull_writeSlot w2 _ _) hit (by omega)
    (by rw [length_writeSlot]; omega) (by rw [CommonIterator.op_diff_lin]; omega)
  have hs : decSizeT d.size_ = d.size_ - 1 := by
    unfold decSizeT; rw [if_neg (by omega)]
  have hn := CommonIterator.norm_op_dec w6
  have hl := CommonIterator.lin_op_dec w6
  have he : d.erase it =
      { d with
        blocks_ := erase_loop (d.end_.op_diff it).toNat (writeSlot d.blocks_ it none) d.end_ it
        end_ := d.end_.op_dec
        size_ := decSizeT d.size_ } := rfl
  rw [he]
  generalize erase_loop (d.end_.op_diff it).toNat (writeSlot d.blocks_ it none) d.end_ it = L
    at l1 l2 l3
  rw [length_writeSlot] at l1
  refine ⟨(wf_iff _).mpr ⟨?_, l2, w3, ?_, w5, hn, w7, ?_, ?_, ?_⟩, hs, ?_⟩
  · show 1 ≤ L.length
    omega
  · show d.true_end_ = ⟨(L.length : Int) - 1, 31⟩
    rw [l1]; exact w4
  · show d.begin_.lin ≤ d.end_.op_dec.lin
    omega
  · show d.end_.op_dec.lin ≤ 32 * (L.length : Int) - 1
    omega
  · show ((decSizeT d.size_ : Nat) : Int) = d.end_.op_dec.lin - d.begin_.lin
    rw [hs]; omega
  · apply List.ext_getElem?
    intro i
    rw [getElem?_toList,
      getElem?_erase_at d.toList _ (by rw [length_toList]; omega) i,
      getElem?_toList, getElem?_toList]
    show (if i < decSizeT d.size_ then some (rd L (d.begin_.lin + (i : Int))) else none) = _
    rw [hs]
    by_cases b0 : i < d.size_ - 1
    · by_cases b1 : i < (it.lin - d.begin_.lin).toNat
      · have e1 : ¬ (it.lin ≤ d.begin_.lin + (i : Int) ∧ d.begin_.lin + (i : Int) < d.end_.lin) := by
          omega
        have e2 : i < d.size_ := by omega
        have e3 : ¬ (d.begin_.lin + (i : Int) = it.lin) := by omega
        rw [if_pos b0, l3, if_neg e1, rd_writeSlot w2 hin, if_neg e3, if_pos b1, if_pos e2]
      · have e1 : it.lin ≤ d.begin_.lin + (i : Int) ∧ d.begin_.lin + (i : Int) < d.end_.lin := by
          omega
        have e2 : i + 1 < d.size_ := by omega
        have e3 : ¬ (d.begin_.lin + (i : Int) + 1 = it.lin) := by omega
        rw [if_pos b0, l3, if_pos e1, rd_writeSlot w2 hin, if_neg e3, if_neg b1, if_pos e2]
        congr 2; push_cast; omega
    · by_cases b1 : i < (it.lin - d.begin_.lin).toNat
      · omega
      · have e2 : ¬ i + 1 < d.size_ := by omega
        rw [if_neg b0, if_neg b1, if_neg e2]

end Deque

/-! ## Invariant, insert and erase contracts (claims C3, C5, C6, C7) -/

namespace Deque
variable {T : Type}

theorem op_le_lin {a b : CommonIterator} (ha : a.Norm) (hb : b.Norm) :
    a.op_le b = true ↔ a.lin ≤ b.lin := by
  have h := CommonIterator.op_lt_lin hb ha
  simp only [CommonIterator.op_le, Bool.not_eq_true', ← Bool.not_eq_true, h]
  omega

theorem take_insert_drop {T : Type} (xs : List T) (p : Nat) (hp : p ≤ xs.length) (v : T) :
    (xs.take p ++ [v] ++ xs.drop p).take p ++ (xs.take p ++ [v] ++ xs.drop p).drop (p + 1) = xs := by
  have hl : (xs.take p).length = p := by rw [List.length_take]; omega
  apply List.ext_getElem?
  intro i
  rw [getElem?_erase_at _ _ (by simp; omega), getElem?_insert_at xs p hp,
    getElem?_insert_at xs p hp]
  by_cases c : i < p
  · rw [if_pos c, if_pos c]
  · rw [if_neg c, if_neg (by omega), if_neg (by omega)]
    rfl

end Deque

/-- C3: on a well-formed deque, `push_back`, `push_front`, `insert` at a
position of `[begin, end]` (whatever its argument is bound to: an outside
object or a slot of the deque itself) and, when the deque is not empty,
`pop_back`, `pop_front` and `erase` at a position of `[begin, end)` return a
well-formed deque: `true_begin <= begin <= end <= true_end` under the iterator
ordering and `size() == end - begin`, with or without growth. -/
theorem C3_mutators_preserve_wellformedness {T : Type} (d : Deque T) (h : d.WF) (v : T)
    (r : ValueRef T) (it : CommonIterator) (hit : it.Norm) (hb : d.begin_.op_le it = true) :
    (d.push_back v).WF ∧ (d.push_front v).WF ∧
      (it.op_le d.end_ = true → (d.insert it r).WF) ∧
      (d.size ≠ 0 → d.pop_back.WF ∧ d.pop_front.WF) ∧
      (d.size ≠ 0 → it.op_lt d.end_ = true → (d.erase it).WF) := by
  obtain ⟨w1, w2, w3, w4, w5, w6, w7, w8, w9, w10⟩ := (Deque.wf_iff d).mp h
  have hb' := (Deque.op_le_lin w5 hit).mp hb
  refine ⟨(Deque.push_back_spec h v).1, (Deque.push_front_spec h v).1, ?_, ?_, ?_⟩
  · intro he
    have he' := (Deque.op_le_lin hit w6).mp he
    obtain ⟨_, i1, _⟩ := Deque.insert_spec h it (by rw [CommonIterator.op_diff_lin]; omega)
      (by rw [CommonIterator.op_diff_lin]; omega) r
    exact i1
  · intro hne
    exact ⟨(Deque.pop_back_spec h hne).1, (Deque.pop_front_spec h hne).1⟩
  · intro _ he
    exact (Deque.erase_spec h it hit hb' ((CommonIterator.op_lt_lin hit w6).mp he)).1

/-- C3 on the deque `[1, 2, 3]` with the position `begin + 1`; the argument of
`insert` is the deque's own element 2. -/
theorem C3_mutators_preserve_wellformedness_witness :
    sample123.WF ∧ (sample123.push_back 9).WF ∧ (sample123.push_front 9).WF ∧
      (sample123.insert (sample123.begin.op_plus 1) (ValueRef.slot (sample123.op_index 2))).WF ∧
      sample123.pop_back.WF ∧ sample123.pop_front.WF ∧
      (sample123.erase (sample123.begin.op_plus 1)).WF :=
  have h := C3_mutators_preserve_wellformedness sample123 (by decide) 9
    (ValueRef.slot (sample123.op_index 2)) (sample123.begin.op_plus 1) (by decide) (by decide)
  ⟨by decide, h.1, h.2.1, h.2.2.1 (by decide), (h.2.2.2.1 (by decide)).1,
    (h.2.2.2.1 (by decide)).2, h.2.2.2.2 (by decide) (by decide)⟩

/-- C6: on a well-formed deque holding `xs`, `erase(begin() + p)` with
`p < |xs|` yields a deque holding `xs[0..p) ++ xs[p+1..]` of size `|xs| - 1`. -/
theorem C6_erase_removes_element {T : Type} (d : Deque T) (h : d.WF) (xs : List T)
    (hx : d.Holds xs) (p : Nat) (hp : p < xs.length) :
    (d.erase (d.begin.op_plus p)).Holds (xs.take p ++ xs.drop (p + 1)) ∧
      (d.erase (d.begin.op_plus p)).size = xs.length - 1 := by
  have hs := ((Deque.holds_iff d xs).mp hx).1
  obtain ⟨w1, w2, w3, w4, w5, w6, w7, w8, w9, w10⟩ := (Deque.wf_iff d).mp h
  have hl : (d.begin.op_plus p).lin = d.begin_.lin + p := CommonIterator.lin_op_plus _ _
  obtain ⟨_, i2, i3⟩ := Deque.erase_spec h (d.begin.op_plus p) (CommonIterator.norm_op_plus _ _)
    (by rw [hl]; omega) (by rw [hl]; omega)
  have hd : ((d.begin.op_plus p).lin - d.begin_.lin).toNat = p := by rw [hl]; omega
  rw [hd] at i3
  exact ⟨i3 xs hx, by rw [← hs]; exact i2⟩

/-- C6 on the deque `[1, 2, 3]`: `erase(begin() + 0)` gives `[2, 3]`. -/
theorem C6_erase_removes_element_witness :
    sample123.WF ∧ sample123.Holds [1, 2, 3] ∧
      (sample123.erase (sample123.begin.op_plus 0)).Holds [2, 3] ∧
      (sample123.erase (sample123.begin.op_plus 0)).size = 2 :=
  have h := C6_erase_removes_element sample123 (by decide) [1, 2, 3] (by decide) 0 (by decide)
  ⟨by decide, by decide, h.1, h.2⟩

/-- C7: on a well-formed deque holding `xs`, `insert(begin() + p, v)` followed
by `erase(begin() + p)` on the result gives a deque that again holds `xs`, of
size `|xs|`, for every `p <= |xs|` and whatever the argument of `insert` is
bound to (an outside object or a slot of the deque itself). -/
theorem C7_insert_then_erase_roundtrip {T : Type} (d : Deque T) (h : d.WF) (xs : List T)
    (hx : d.Holds xs) (p : Nat) (hp : p ≤ xs.length) (r : ValueRef T) :
    ((d.insert (d.begin.op_plus p) r).erase
        ((d.insert (d.begin.op_plus p) r).begin.op_plus p)).Holds xs ∧
      ((d.insert (d.begin.op_plus p) r).erase
        ((d.insert (d.begin.op_plus p) r).begin.op_plus p)).size = xs.length := by
  have hs := ((Deque.holds_iff d xs).mp hx).1
  have hd : (d.begin.op_plus p).op_diff d.begin_ = p := by
    rw [CommonIterator.op_diff_lin, CommonIterator.lin_op_plus]
    show d.begin_.lin + (p : Int) - d.begin_.lin = p
    omega
  obtain ⟨w, i1, i2, i3, _, _⟩ := Deque.insert_spec h (d.begin.op_plus p) (by rw [hd]; omega)
    (by rw [hd, hs]; exact_mod_cast hp) r
  have e : ((p : Int)).toNat = p := by omega
  rw [hd, e] at i3
  generalize d.insert (d.begin.op_plus p) r = d' at *
  obtain ⟨w1, w2, w3, w4, w5, w6, w7, w8, w9, w10⟩ := (Deque.wf_iff d').mp i1
  have hl : (d'.begin.op_plus p).lin = d'.begin_.lin + p := CommonIterator.lin_op_plus _ _
  obtain ⟨_, e2, e3⟩ := Deque.erase_toList i1 (d'.begin.op_plus p)
    (CommonIterator.norm_op_plus _ _) (by rw [hl]; omega) (by rw [hl]; omega)
  have hd' : ((d'.begin.op_plus p).lin - d'.begin_.lin).toNat = p := by rw [hl]; omega
  rw [hd', i3, Deque.take_insert_drop d.toList p (by rw [Deque.length_toList]; omega) w] at e3
  refine ⟨?_, by show (d'.erase _).size_ = _; rw [e2, i2, hs]; rfl⟩
  show (d'.erase (d'.begin.op_plus p)).toList = xs.map some
  rw [e3]
  exact hx

/-- C7 on the deque `[1, 2, 3]` at the interior position 1, with the deque's
own element 2 as the argument of `insert`. -/
theorem C7_insert_then_erase_roundtrip_witness :
    sample123.WF ∧ sample123.Holds [1, 2, 3] ∧
      ((sample123.insert (sample123.begin.op_plus 1) (ValueRef.slot (sample123.op_index 2))).erase
        ((sample123.insert (sample123.begin.op_plus 1)
          (ValueRef.slot (sample123.op_index 2))).begin.op_plus 1)).Holds [1, 2, 3] :=
  ⟨by decide, by decide,
    (C7_insert_then_erase_roundtrip sample123 (by decide) [1, 2, 3] (by decide) 1 (by decide)
      (ValueRef.slot (sample123.op_index 2))).1⟩

/-! ## Checked access and sized construction (claims C4, C2) -/

/-- Growth inside `insert`: `Deque(31, 7)` has `end == true_end`, the call
rebuilds the block array (1 block becomes 3) and places the value at the
position recomputed against the new array; an argument bound to the deque's
own element 2 is read from the block it was in, now entry 1 of the array. -/
theorem insert_with_growth_example :
    sampleFull.WF ∧ sampleFull.blocks_.length = 1 ∧
      sampleFull.end_.op_eq sampleFull.true_end_ = true ∧
      (sampleFull.insert (sampleFull.begin.op_plus 5) (ValueRef.outside 99)).blocks_.length = 3 ∧
      (sampleFull.insert (sampleFull.begin.op_plus 5) (ValueRef.outside 99)).Holds
        (List.replicate 5 7 ++ [99] ++ List.replicate 26 7) ∧
      (sampleFull.insert (sampleFull.begin.op_plus 5) (ValueRef.slot (sampleFull.op_index 2))).Holds
        (List.replicate 32 7) := by
  set_option maxRecDepth 20000 in decide

/-- C4: when `size == end - begin`, `at(i)` signals out-of-range exactly when
`i >= size()`, returns the slot of `operator[](i)` when `i < size()`, and leaves
the deque unchanged in both outcomes; `at(0)` on an empty deque signals
out-of-range. -/
theorem C4_at_is_bounds_checked {T : Type} (d : Deque T)
    (h : (d.size_ : Int) = d.end_.op_diff d.begin_) (i : Nat) :
    ((∃ e, (d.at i).1 = Except.error e) ↔ d.size ≤ i) ∧
      (i < d.size → (d.at i).1 = Except.ok (d.op_index i)) ∧
      (d.at i).2 = d ∧
      (d.size = 0 → ∃ e, (d.at 0).1 = Except.error e) := by
  have hc : toSizeT (d.end.op_diff d.begin) = d.size_ := by
    show toSizeT (d.end_.op_diff d.begin_) = d.size_
    rw [← h]; unfold toSizeT; rw [if_neg (by omega)]; omega
  have hat : ∀ j : Nat, d.at j = if d.size_ ≤ j then (Except.error "\"-_-\"", d)
      else (Except.ok (d.begin.op_plus j), d) := by
    intro j; unfold Deque.at; rw [hc]
  refine ⟨?_, ?_, ?_, ?_⟩
  · rw [hat]
    constructor
    · rintro ⟨e, he⟩
      by_cases c : d.size_ ≤ i
      · exact c
      · rw [if_neg c] at he; cases he
    · intro c
      have c' : d.size_ ≤ i := c
      rw [if_pos c']
      exact ⟨_, rfl⟩
  · intro c
    rw [hat, if_neg (by show ¬ d.size_ ≤ i; exact Nat.not_le.mpr c)]
    rfl
  · rw [hat]; split <;> rfl
  · intro c
    rw [hat, if_pos (by show d.size_ ≤ 0; exact Nat.le_of_eq c)]
    exact ⟨_, rfl⟩

/-- C4 on the empty deque and on `[1, 2, 3]`. -/
theorem C4_at_is_bounds_checked_witness :
    ((Deque.ctor : Deque Nat).at 0).1 = Except.error "\"-_-\"" ∧
      ((sample123.at 2).1 = Except.ok (sample123.op_index 2)) ∧
      (sample123.at 3).2 = sample123 ∧
      ((∃ e, (sample123.at 3).1 = Except.error e) ↔ sample123.size ≤ 3) :=
  have h := C4_at_is_bounds_checked sample123 (by decide) 3
  ⟨rfl, (C4_at_is_bounds_checked sample123 (by decide) 2).2.1 (by decide), h.2.2.1, h.1⟩

/-- C2 at `sz = 32`: both sized constructors set `size()` to 32 but place `end`
at offset `32 % 32 = 0` of block `need_blocks(32) - 1 = 0`, which is `begin`:
`end - begin` is 0, the construction loop does not run, and slot `begin + 0`
holds no element.  At `sz = 33` the same code gives `end - begin = 33`. -/
theorem C2_sized_ctor_at_multiple_of_block_size :
    (Deque.ctor_sz_value 32 7 : Deque Nat).size = 32 ∧
      (Deque.ctor_sz_value 32 7 : Deque Nat).end.op_diff
        (Deque.ctor_sz_value 32 7 : Deque Nat).begin = 0 ∧
      (Deque.ctor_sz_value 32 7 : Deque Nat).deref
        ((Deque.ctor_sz_value 32 7 : Deque Nat).op_index 0) = none ∧
      (Deque.ctor_sz 32 : Deque Nat).size = 32 ∧
      (Deque.ctor_sz 32 : Deque Nat).end.op_diff (Deque.ctor_sz 32 : Deque Nat).begin = 0 ∧
      (Deque.ctor_sz_value 33 7 : Deque Nat).end.op_diff
        (Deque.ctor_sz_value 33 7 : Deque Nat).begin = 33 := by
  decide

/-! ## Loop fuel and the sized constructor away from multiples of 32 -/

namespace Deque
variable {T : Type}

/-- The fuel `insert` passes to its shift loop is enough: the loop stops at its
guard, one more unit of fuel does not change the result. -/
theorem insert_loop_fuel (begin_ : CommonIterator) (size_ : Nat) (it : CommonIterator)
    (hit : it.Norm) (n : Nat) :
    ∀ (blocks : List (Block T)) (cur : CommonIterator), cur.Norm → cur.lin - it.lin ≤ n →
      insert_loop (n + 1) blocks begin_ size_ it cur = insert_loop n blocks begin_ size_ it cur := by
  induction n with
  | zero =>
    intro blocks cur hc hd
    have g : ¬ cur.op_gt it = true := fun c => by
      have := (op_gt_lin hc hit).mp c; omega
    unfold insert_loop
    rw [if_neg g]
  | succ n ih =>
    intro blocks cur hc hd
    rw [insert_loop.eq_def (n + 1 + 1), insert_loop.eq_def (n + 1)]
    simp only []
    by_cases g : cur.op_gt it = true
    · rw [if_pos g, if_pos g]
      exact ih _ _ (CommonIterator.norm_op_dec hc)
        (by rw [CommonIterator.lin_op_dec hc]; omega)
    · rw [if_neg g, if_neg g]

/-- The fuel `erase` passes to its shift loop is enough. -/
theorem erase_loop_fuel (end_ : CommonIterator) (he : end_.Norm) (n : Nat) :
    ∀ (blocks : List (Block T)) (cur : CommonIterator), cur.Norm → end_.lin - cur.lin ≤ n →
      erase_loop (n + 1) blocks end_ cur = erase_loop n blocks end_ cur := by
  induction n with
  | zero =>
    intro blocks cur hc hd
    have g : ¬ cur.op_lt end_ = true := fun c => by
      have := (CommonIterator.op_lt_lin hc he).mp c; omega
    unfold erase_loop
    rw [if_neg g]
  | succ n ih =>
    intro blocks cur hc hd
    rw [erase_loop.eq_def (n + 1 + 1), erase_loop.eq_def (n + 1)]
    simp only []
    by_cases g : cur.op_lt end_ = true
    · rw [if_pos g, if_pos g]
      exact ih _ _ (CommonIterator.norm_op_inc hc)
        (by rw [CommonIterator.lin_op_inc hc]; omega)
    · rw [if_neg g, if_neg g]

/-- The fuel the sized constructors pass to the construction loop is enough. -/
theorem construct_loop_fuel (end_ : CommonIterator) (he : end_.Norm) (value : T) (n : Nat) :
    ∀ (blocks : List (Block T)) (cur : CommonIterator), cur.Norm → end_.lin - cur.lin ≤ n →
      construct_loop (n + 1) blocks cur end_ value = construct_loop n blocks cur end_ value := by
  induction n with
  | zero =>
    intro blocks cur hc hd
    have g : ¬ cur.op_lt end_ = true := fun c => by
      have := (CommonIterator.op_lt_lin hc he).mp c; omega
    unfold construct_loop
    rw [if_neg g]
  | succ n ih =>
    intro blocks cur hc hd
    rw [construct_loop.eq_def (n + 1 + 1), construct_loop.eq_def (n + 1)]
    simp only []
    by_cases g : cur.op_lt end_ = true
    · rw [if_pos g, if_pos g]
      exact ih _ _ (CommonIterator.norm_op_inc hc)
        (by rw [CommonIterator.lin_op_inc hc]; omega)
    · rw [if_neg g, if_neg g]

theorem construct_loop_spec (end_ : CommonIterator) (he : end_.Norm) (value : T) (fuel : Nat) :
    ∀ (blocks : List (Block T)) (cur : CommonIterator), AllFull blocks → cur.Norm →
      0 ≤ cur.lin → end_.lin ≤ 32 * (blocks.length : Int) → end_.lin - cur.lin ≤ fuel →
      (construct_loop fuel blocks cur end_ value).length = blocks.length ∧
        AllFull (construct_loop fuel blocks cur end_ value) ∧
        ∀ m, rd (construct_loop fuel blocks cur end_ value) m =
          if cur.lin ≤ m ∧ m < end_.lin then some value else rd blocks m := by
  induction fuel with
  | zero =>
    intro blocks cur hf _ _ _ hd
    refine ⟨rfl, hf, fun m => ?_⟩
    rw [if_neg (by omega)]; rfl
  | succ n ih =>
    intro blocks cur hf hc h0 hb hd
    unfold construct_loop
    by_cases g : cur.op_lt end_ = true
    · rw [if_pos g]
      have hlt : cur.lin < end_.lin := (CommonIterator.op_lt_lin hc he).mp g
      have hin : InAlloc blocks cur := (inAlloc_iff _ hc).mpr ⟨by omega, by omega⟩
      have hli := CommonIterator.lin_op_inc hc
      obtain ⟨i1, i2, i3⟩ := ih (writeSlot blocks cur (some value)) cur.op_inc
        (allFull_writeSlot hf _ _) (CommonIterator.norm_op_inc hc) (by omega)
        (by rw [length_writeSlot]; omega) (by omega)
      refine ⟨by rw [i1, length_writeSlot], i2, fun m => ?_⟩
      rw [i3, hli, rd_writeSlot hf hin]
      by_cases c1 : cur.lin + 1 ≤ m ∧ m < end_.lin
      · rw [if_pos c1, if_pos (by omega)]
      · rw [if_neg c1]
        by_cases c2 : m = cur.lin
        · rw [if_pos c2, if_pos (by omega)]
        · rw [if_neg c2, if_neg (by omega)]
    · rw [if_neg g]
      have hlt : ¬ cur.lin < end_.lin := fun c => g ((CommonIterator.op_lt_lin hc he).mpr c)
      refine ⟨rfl, hf, fun m => ?_⟩
      rw [if_neg (by omega)]

theorem allocate_replicate (n : Nat) :
    allocate (List.replicate n ([] : Block T)) = List.replicate n (newBlock T) := by
  apply List.ext_getElem?
  intro j
  unfold allocate
  rw [getElem?_allocate_from_to, List.length_replicate, List.getElem?_replicate,
    List.getElem?_replicate]
  by_cases c : j < n
  · rw [if_pos ⟨Nat.zero_le _, c, c⟩, if_pos c]
  · rw [if_neg (by omega), if_neg c, if_neg c]

/-- The sized constructor is correct when `sz` is not a multiple of 32: the
result is well-formed and holds `sz` copies of `value`. -/
theorem ctor_sz_value_spec (sz : Int) (h1 : 1 ≤ sz) (h2 : sz < 2 ^ 31) (h3 : sz % 32 ≠ 0)
    (value : T) :
    (ctor_sz_value sz value).WF ∧ (ctor_sz_value sz value).size = sz.toNat ∧
      (ctor_sz_value sz value).end.op_diff (ctor_sz_value sz value).begin = sz ∧
      (ctor_sz_value sz value).Holds (List.replicate sz.toNat value) := by
  have hts : toSizeT sz = sz.toNat := by unfold toSizeT; rw [if_neg (by omega)]
  have hnb : need_blocks sz = sz.toNat / 32 + 1 := by
    unfold need_blocks kBlockSize; rw [hts]; omega
  have hdec : decSizeT (need_blocks sz) = sz.toNat / 32 := by
    unfold decSizeT; rw [hnb, if_neg (by omega)]; omega
  have hend : (CommonIterator.mk ((decSizeT (need_blocks sz) : Nat) : Int)
      (((toSizeT sz % kBlockSize : Nat)) : Int)).lin = sz := by
    rw [hdec, hts]; simp only [CommonIterator.lin, kBlockSize]; omega
  have hne : (CommonIterator.mk ((decSizeT (need_blocks sz) : Nat) : Int)
      (((toSizeT sz % kBlockSize : Nat)) : Int)).Norm := by
    rw [hts]; simp only [CommonIterator.Norm, kBlockSize]; omega
  have hfull : AllFull (allocate (List.replicate (need_blocks sz) ([] : Block T))) := by
    rw [allocate_replicate]
    intro b hb
    rw [List.eq_of_mem_replicate hb]
    exact List.length_replicate _ _
  have hlen : (allocate (List.replicate (need_blocks sz) ([] : Block T))).length =
      sz.toNat / 32 + 1 := by
    rw [allocate_replicate, List.length_replicate, hnb]
  have hn0 : (CommonIterator.mk 0 0).Norm := by decide
  obtain ⟨l1, l2, l3⟩ := construct_loop_spec _ hne value
    ((CommonIterator.mk ((decSizeT (need_blocks sz) : Nat) : Int)
      (((toSizeT sz % kBlockSize : Nat)) : Int)).op_diff (CommonIterator.mk 0 0)).toNat
    (allocate (List.replicate (need_blocks sz) ([] : Block T))) (CommonIterator.mk 0 0)
    hfull hn0 (by decide) (by rw [hend, hlen]; push_cast; omega)
    (by rw [CommonIterator.op_diff_lin]; omega)
  have hsz : (ctor_sz_value sz value).size_ = sz.toNat := hts
  have hb : (ctor_sz_value sz value).begin_ = CommonIterator.mk 0 0 := rfl
  have he : (ctor_sz_value sz value).end_ = CommonIterator.mk ((decSizeT (need_blocks sz) : Nat) : Int)
      (((toSizeT sz % kBlockSize : Nat)) : Int) := rfl
  have hbl : (ctor_sz_value sz value).blocks_ = construct_loop
      ((CommonIterator.mk ((decSizeT (need_blocks sz) : Nat) : Int)
        (((toSizeT sz % kBlockSize : Nat)) : Int)).op_diff (CommonIterator.mk 0 0)).toNat
      (allocate (List.replicate (need_blocks sz) ([] : Block T))) (CommonIterator.mk 0 0)
      (CommonIterator.mk ((decSizeT (need_blocks sz) : Nat) : Int)
        (((toSizeT sz % kBlockSize : Nat)) : Int)) value := rfl
  have hte : (ctor_sz_value sz value).true_end_ =
      CommonIterator.mk ((decSizeT (need_blocks sz) : Nat) : Int) ((kBlockSize : Nat) - 1 : Int) := rfl
  have hl0 : (CommonIterator.mk 0 0).lin = 0 := rfl
  refine ⟨(wf_iff _).mpr ⟨?_, ?_, rfl, ?_, ?_, ?_, ?_, ?_, ?_, ?_⟩, hsz, ?_, ?_⟩
  · rw [hbl, l1, hlen]; omega
  · rw [hbl]; exact l2
  · rw [hte, hbl, l1, hlen, hdec]
    simp only [kBlockSize]
    congr 1
    push_cast; omega
  · rw [hb]; exact hn0
  · rw [he]; exact hne
  · rw [hb, hl0]
  · rw [hb, he, hend, hl0]; omega
  · rw [he, hend, hbl, l1, hlen]; push_cast; omega
  · rw [hb, he, hend, hl0, hsz]; omega
  · show (ctor_sz_value sz value).end_.op_diff (ctor_sz_value sz value).begin_ = sz
    rw [CommonIterator.op_diff_lin, hb, he, hend, hl0]; omega
  · apply (holds_iff _ _).mpr
    refine ⟨by rw [hsz, List.length_replicate], fun i hi => ?_⟩
    rw [hsz] at hi
    rw [hbl, l3, hb, hl0, hend, if_pos (by omega), List.getElem?_replicate, if_pos hi]

end Deque

/-! ## Increment and decrement (claim C11) -/

/-- C11: for an iterator with offset in `[0, 32)`, pre-increment is `+= 1` and
pre-decrement is `+= -1`; the offset is stepped and wraps to `0` / `31` with
the block position moving by `+1` / `-1` when it reaches `32` / `-1`;
decrement undoes increment and increment undoes decrement; post-increment and
post-decrement return the original iterator and advance the receiver like
the pre-forms. -/
theorem C11_increment_decrement (it : CommonIterator) (h : it.Norm) :
    it.op_inc = it.op_plus_eq 1 ∧ it.op_dec = it.op_plus_eq (-1) ∧
      it.op_inc = (if it.index + 1 = 32 then { block := it.block + 1, index := 0 }
        else { block := it.block, index := it.index + 1 }) ∧
      it.op_dec = (if it.index - 1 = -1 then { block := it.block - 1, index := 31 }
        else { block := it.block, index := it.index - 1 }) ∧
      it.op_inc.op_dec = it ∧ it.op_dec.op_inc = it ∧
      it.op_post_inc = (it, it.op_inc) ∧ it.op_post_dec = (it, it.op_dec) := by
  have hi := CommonIterator.norm_op_inc h
  have hd := CommonIterator.norm_op_dec h
  refine ⟨CommonIterator.op_inc_eq h, CommonIterator.op_dec_eq h, rfl, rfl, ?_, ?_, rfl, rfl⟩
  · apply CommonIterator.eq_of_lin (CommonIterator.norm_op_dec hi) h
    rw [CommonIterator.lin_op_dec hi, CommonIterator.lin_op_inc h]; omega
  · apply CommonIterator.eq_of_lin (CommonIterator.norm_op_inc hd) h
    rw [CommonIterator.lin_op_inc hd, CommonIterator.lin_op_dec h]; omega

/-- C11 at the block boundaries: `(3, 31)` steps forward to `(4, 0)` and
`(3, 0)` steps back to `(2, 31)`. -/
theorem C11_increment_decrement_witness :
    (CommonIterator.mk 3 31).op_inc = CommonIterator.mk 4 0 ∧
      (CommonIterator.mk 3 0).op_dec = CommonIterator.mk 2 31 ∧
      (CommonIterator.mk 3 31).op_inc = (CommonIterator.mk 3 31).op_plus_eq 1 ∧
      (CommonIterator.mk 3 31).op_inc.op_dec = CommonIterator.mk 3 31 :=
  have h := C11_increment_decrement (CommonIterator.mk 3 31) (by decide)
  ⟨by decide, by decide, h.1, h.2.2.2.2.1⟩

/-! ## Growth layout and preservation (claims C17, C14) -/

namespace Deque
variable {T : Type}

theorem reallocate_fields (d : Deque T) :
    d.reallocate.blocks_ = (d.reallocate_to_increase d.blocks_.length).blocks_ ∧
      d.reallocate.size_ = d.size_ ∧
      d.reallocate.true_begin_ = CommonIterator.mk 0 0 ∧
      d.reallocate.true_end_ = CommonIterator.mk
        ((decSizeT (d.reallocate_to_increase d.blocks_.length).blocks_.length : Nat) : Int) 31 ∧
      d.reallocate.begin_ = (CommonIterator.mk 0 0).op_plus
        (d.begin_diff + ((d.blocks_.length * 32 : Nat) : Int)) ∧
      d.reallocate.end_ = (CommonIterator.mk
        ((decSizeT (d.reallocate_to_increase d.blocks_.length).blocks_.length : Nat) : Int) 31).op_minus
        (d.end_diff + ((d.blocks_.length * 32 : Nat) : Int)) :=
  ⟨rfl, rfl, rfl, rfl, rfl, rfl⟩

theorem refRun_push_back (ys : List T) :
    ∀ xs : List T, refRun xs (ys.map Op.push_back) = xs ++ ys ∧
      NoEmptyPop xs (ys.map Op.push_back) := by
  induction ys with
  | nil => intro xs; exact ⟨by simp [refRun], trivial⟩
  | cons y ys ih =>
    intro xs
    obtain ⟨i1, i2⟩ := ih (xs ++ [y])
    refine ⟨?_, i2⟩
    show refRun (xs ++ [y]) (ys.map Op.push_back) = _
    rw [i1, List.append_assoc]; rfl

theorem push_back_range (n : Nat) :
    ((ctor : Deque Nat).run ((List.range n).map Op.push_back)).WF ∧
      ((ctor : Deque Nat).run ((List.range n).map Op.push_back)).size = n ∧
      ∀ i : Nat, i < n →
        ((ctor : Deque Nat).run ((List.range n).map Op.push_back)).deref
          (((ctor : Deque Nat).run ((List.range n).map Op.push_back)).op_index i) = some i := by
  generalize hys : List.range n = ys
  have hpush := refRun_push_back ys ([] : List Nat)
  obtain ⟨p1, p2⟩ := run_spec (ys.map Op.push_back) ctor [] wf_ctor holds_ctor hpush.2
  rw [hpush.1, List.nil_append] at p2
  obtain ⟨q1, q2⟩ := holds_pointwise p2
  have hl : ys.length = n := by rw [← hys, List.length_range]
  refine ⟨p1, by rw [q1, hl], fun i hi => ?_⟩
  rw [q2 i (by omega)]
  subst hys
  rw [List.getElem_range]

end Deque

/-- C17: growth of a deque with `n >= 1` blocks builds a block array of `3n`
entries whose entries `[n, 2n)` are the previous blocks in order and whose
entries `[0, n)` and `[2n, 3n)` are fresh blocks; `true_begin` is slot 0 of
entry 0, `true_end` slot 31 of entry `3n - 1`, `end - begin` is unchanged, and
head room and tail room each grow by exactly `32n`. -/
theorem C17_growth_layout {T : Type} (d : Deque T) (h1 : 1 ≤ d.blocks_.length)
    (h2 : d.true_begin_ = CommonIterator.mk 0 0)
    (h3 : d.true_end_ = CommonIterator.mk ((d.blocks_.length : Int) - 1) 31) :
    d.reallocate.blocks_.length = 3 * d.blocks_.length ∧
      (∀ j, j < d.blocks_.length →
        d.reallocate.blocks_[j]? = some (newBlock T) ∧
        d.reallocate.blocks_[d.blocks_.length + j]? = d.blocks_[j]? ∧
        d.reallocate.blocks_[2 * d.blocks_.length + j]? = some (newBlock T)) ∧
      d.reallocate.true_begin_ = CommonIterator.mk 0 0 ∧
      d.reallocate.true_end_ = CommonIterator.mk (3 * (d.blocks_.length : Int) - 1) 31 ∧
      d.reallocate.end_.op_diff d.reallocate.begin_ = d.end_.op_diff d.begin_ ∧
      d.reallocate.begin_diff = d.begin_diff + 32 * d.blocks_.length ∧
      d.reallocate.end_diff = d.end_diff + 32 * d.blocks_.length := by
  obtain ⟨f1, f2, f3, f4, f5, f6⟩ := Deque.reallocate_fields d
  have hlen : d.reallocate.blocks_.length = 3 * d.blocks_.length := by
    rw [f1]; exact Deque.length_reallocate_to_increase d _
  have hdec : ((decSizeT (d.reallocate_to_increase d.blocks_.length).blocks_.length : Nat) : Int)
      = 3 * (d.blocks_.length : Int) - 1 := by
    rw [Deque.length_reallocate_to_increase]
    unfold decSizeT
    rw [if_neg (by omega)]
    omega
  rw [hdec] at f4 f6
  have hbd : d.reallocate.begin_diff = d.begin_diff + 32 * d.blocks_.length := by
    show d.reallocate.begin_.op_diff d.reallocate.true_begin_ = _
    rw [f5, f3, CommonIterator.op_diff_lin, CommonIterator.lin_op_plus]
    push_cast; omega
  have hed : d.reallocate.end_diff = d.end_diff + 32 * d.blocks_.length := by
    show d.reallocate.true_end_.op_diff d.reallocate.end_ = _
    rw [f6, f4, CommonIterator.op_diff_lin, CommonIterator.lin_op_minus]
    push_cast; omega
  refine ⟨hlen, ?_, f3, f4, ?_, hbd, hed⟩
  · intro j hj
    rw [f1]
    refine ⟨?_, ?_, ?_⟩
    · rw [Deque.getElem?_reallocate_to_increase, if_pos hj]
    · rw [Deque.getElem?_reallocate_to_increase, if_neg (by omega), if_pos (by omega)]
      congr 1; omega
    · rw [Deque.getElem?_reallocate_to_increase, if_neg (by omega), if_neg (by omega),
        if_pos (by omega)]
  · have e1 : d.begin_diff = d.begin_.lin := by
      show d.begin_.op_diff d.true_begin_ = _
      rw [CommonIterator.op_diff_lin, h2]
      show d.begin_.lin - (32 * 0 + 0) = _
      omega
    have e2 : d.end_diff = 32 * (d.blocks_.length : Int) - 1 - d.end_.lin := by
      show d.true_end_.op_diff d.end_ = _
      rw [CommonIterator.op_diff_lin, h3]
      simp only [CommonIterator.lin]
      omega
    rw [f5, f6, CommonIterator.op_diff_lin, CommonIterator.lin_op_minus,
      CommonIterator.lin_op_plus, CommonIterator.op_diff_lin, e1, e2]
    simp only [CommonIterator.lin]
    push_cast; omega

/-- C17 on the deque `[1, 2, 3]` (3 blocks, grown to 9). -/
theorem C17_growth_layout_witness :
    sample123.reallocate.blocks_.length = 3 * 3 ∧
      sample123.reallocate.blocks_[3 + 1]? = sample123.blocks_[1]? ∧
      sample123.reallocate.begin_diff = sample123.begin_diff + 32 * (3 : Nat) :=
  have h := C17_growth_layout sample123 (by decide) (by decide) (by decide)
  ⟨h.1, (h.2.1 1 (by decide)).2.1, h.2.2.2.2.2.1⟩

namespace Deque
variable {T : Type}

theorem size_lt_capacity {d : Deque T} (h : d.WF) : d.size < 32 * d.blocks_.length := by
  obtain ⟨v1, v2, v3, v4, v5, v6, v7, v8, v9, v10⟩ := (wf_iff _).mp h
  show d.size_ < _
  omega

theorem push_back_thousand_grows :
    9 < ((ctor : Deque Nat).run ((List.range 1000).map Op.push_back)).blocks_.length := by
  have h := size_lt_capacity (push_back_range 1000).1
  rw [(push_back_range 1000).2.1] at h
  exact Nat.lt_of_mul_lt_mul_left (lt_of_le_of_lt (by decide : 32 * 9 ≤ 1000) h)

theorem reallocate_preserves {d : Deque T} (h : d.WF) (i : Nat) (hi : i < d.size) :
    d.reallocate.deref (d.reallocate.op_index i) = d.deref (d.op_index i) ∧
      (d.reallocate.op_index i).block = (d.op_index i).block + d.blocks_.length ∧
      (d.reallocate.op_index i).index = (d.op_index i).index ∧
      d.reallocate.blocks_[((d.op_index i).block + d.blocks_.length).toNat]? =
        d.blocks_[(d.op_index i).block.toNat]? := by
  obtain ⟨r1, r2, r3, r4, r5, r6⟩ := reallocate_spec h
  obtain ⟨w1, w2, w3, w4, w5, w6, w7, w8, w9, w10⟩ := (wf_iff d).mp h
  have hi' : i < d.size_ := hi
  have n1 : (d.op_index i).Norm := CommonIterator.norm_op_plus _ _
  have n2 : (d.reallocate.op_index i).Norm := CommonIterator.norm_op_plus _ _
  have l1 : (d.op_index i).lin = d.begin_.lin + i := CommonIterator.lin_op_plus _ _
  have l2 : (d.reallocate.op_index i).lin = d.begin_.lin + 32 * d.blocks_.length + i := by
    rw [← r4]; exact CommonIterator.lin_op_plus _ _
  have hb : (d.reallocate.op_index i).block = (d.op_index i).block + d.blocks_.length := by
    simp only [CommonIterator.lin, CommonIterator.Norm] at n1 n2 l1 l2; omega
  have hx : (d.reallocate.op_index i).index = (d.op_index i).index := by
    simp only [CommonIterator.lin, CommonIterator.Norm] at n1 n2 l1 l2; omega
  refine ⟨?_, hb, hx, ?_⟩
  · show readSlot d.reallocate.blocks_ _ = readSlot d.blocks_ _
    rw [readSlot_eq_rd _ n1, readSlot_eq_rd _ n2, l1, l2, ← r6]
    congr 1; omega
  · have hb0 : 0 ≤ (d.op_index i).block := by
      simp only [CommonIterator.lin, CommonIterator.Norm] at n1 l1 w7; omega
    have hb1 : (d.op_index i).block < d.blocks_.length := by
      simp only [CommonIterator.lin, CommonIterator.Norm] at n1 l1 w9 w10; omega
    have e : ((d.op_index i).block + d.blocks_.length).toNat =
        d.blocks_.length + (d.op_index i).block.toNat := by omega
    rw [e, (reallocate_fields d).1, getElem?_reallocate_to_increase,
      if_neg (by omega), if_pos (by omega)]
    congr 1; omega

end Deque

/-- C14: growth of a well-formed deque keeps `size()` and, for every
`i < size()`, the slot `begin + i` holds the same element as before and is the
same slot of the same block (the block moved from entry `b` to entry `b + n`
of the array, the offset is unchanged).  Pushing `0..999` at the back of an
empty deque, which grows the array beyond 9 blocks, leaves element `i` equal
to `i`. -/
theorem C14_growth_preserves_elements {T : Type} (d : Deque T) (h : d.WF) :
    d.reallocate.size = d.size ∧
      (∀ i : Nat, i < d.size →
        d.reallocate.deref (d.reallocate.op_index i) = d.deref (d.op_index i) ∧
        (d.reallocate.op_index i).block = (d.op_index i).block + d.blocks_.length ∧
        (d.reallocate.op_index i).index = (d.op_index i).index ∧
        d.reallocate.blocks_[((d.op_index i).block + d.blocks_.length).toNat]? =
          d.blocks_[(d.op_index i).block.toNat]?) ∧
      ((Deque.ctor : Deque Nat).run ((List.range 1000).map Op.push_back)).size = 1000 ∧
      9 < ((Deque.ctor : Deque Nat).run ((List.range 1000).map Op.push_back)).blocks_.length ∧
      (∀ i : Nat, i < 1000 →
        ((Deque.ctor : Deque Nat).run ((List.range 1000).map Op.push_back)).deref
          (((Deque.ctor : Deque Nat).run ((List.range 1000).map Op.push_back)).op_index i)
          = some i) :=
  ⟨(Deque.reallocate_spec h).2.1, fun i hi => Deque.reallocate_preserves h i hi,
    (Deque.push_back_range 1000).2.1, Deque.push_back_thousand_grows,
    (Deque.push_back_range 1000).2.2⟩

/-- C14 on `Deque(31, 7)`: element 5 is the same before and after growth. -/
theorem C14_growth_preserves_elements_witness :
    sampleFull.WF ∧ sampleFull.reallocate.size = 31 ∧
      sampleFull.reallocate.deref (sampleFull.reallocate.op_index 5) =
        sampleFull.deref (sampleFull.op_index 5) :=
  have hw : sampleFull.WF := by set_option maxRecDepth 20000 in decide
  have h := C14_growth_preserves_elements sampleFull hw
  ⟨hw, h.1, ((h.2.1 5 (by decide)).1)⟩

/-! ## Default construction and free room (claim C19) -/

namespace Deque
variable {T : Type}

theorem push_back_no_growth {d : Deque T} (h : d.WF)
    (hr : d.end_.lin < 32 * (d.blocks_.length : Int) - 1) (v : T) :
    (d.push_back v).blocks_.length = d.blocks_.length ∧
      (d.push_back v).end_.lin = d.end_.lin + 1 := by
  have hc : d.end_.op_eq d.true_end_ = false := by
    cases c : d.end_.op_eq d.true_end_
    · rfl
    · have := (op_eq_true_end h).mp c; omega
  have e : d.push_back v = { d with
      blocks_ := writeSlot d.blocks_ d.end_ (some v)
      end_ := d.end_.op_inc
      size_ := d.size_ + 1 } := by
    simp only [push_back, hc, Bool.false_eq_true, if_false]
  rw [e]
  exact ⟨length_writeSlot _ _ _, CommonIterator.lin_op_inc ((wf_iff d).mp h).2.2.2.2.2.1⟩

theorem push_back_growth {d : Deque T} (h : d.WF)
    (hr : d.end_.lin = 32 * (d.blocks_.length : Int) - 1) (v : T) :
    (d.push_back v).blocks_.length = 3 * d.blocks_.length := by
  have hc : d.end_.op_eq d.true_end_ = true := (op_eq_true_end h).mpr hr
  have e : d.push_back v = { d.reallocate with
      blocks_ := writeSlot d.reallocate.blocks_ d.reallocate.end_ (some v)
      end_ := d.reallocate.end_.op_inc
      size_ := d.reallocate.size_ + 1 } := by
    simp only [push_back, hc, if_true]
  rw [e]
  show (writeSlot _ _ _).length = _
  rw [length_writeSlot]
  exact (reallocate_spec h).2.2.1

theorem push_front_no_growth {d : Deque T} (h : d.WF) (hr : 0 < d.begin_.lin) (v : T) :
    (d.push_front v).blocks_.length = d.blocks_.length ∧
      (d.push_front v).begin_.lin = d.begin_.lin - 1 := by
  have hc : d.begin_.op_eq d.true_begin_ = false := by
    cases c : d.begin_.op_eq d.true_begin_
    · rfl
    · have := (op_eq_true_begin h).mp c; omega
  have e : d.push_front v = { d with
      begin_ := d.begin_.op_dec
      size_ := d.size_ + 1
      blocks_ := writeSlot d.blocks_ d.begin_.op_dec (some v) } := by
    simp only [push_front, hc, Bool.false_eq_true, if_false]
  rw [e]
  exact ⟨length_writeSlot _ _ _, CommonIterator.lin_op_dec ((wf_iff d).mp h).2.2.2.2.1⟩

theorem push_front_growth {d : Deque T} (h : d.WF) (hr : d.begin_.lin = 0) (v : T) :
    (d.push_front v).blocks_.length = 3 * d.blocks_.length := by
  have hc : d.begin_.op_eq d.true_begin_ = true := (op_eq_true_begin h).mpr hr
  have e : d.push_front v = { d.reallocate with
      begin_ := d.reallocate.begin_.op_dec
      size_ := d.reallocate.size_ + 1
      blocks_ := writeSlot d.reallocate.blocks_ d.reallocate.begin_.op_dec (some v) } := by
    simp only [push_front, hc, if_true]
  rw [e]
  show (writeSlot _ _ _).length = _
  rw [length_writeSlot]
  exact (reallocate_spec h).2.2.1

theorem run_replicate_succ (d : Deque T) (op : Op T) (k : Nat) :
    d.run (List.replicate (k + 1) op) = (d.run (List.replicate k op)).apply op := by
  unfold run
  rw [List.replicate_succ', List.foldl_append]
  rfl

/-- While tail room lasts, `push_back` calls keep the block array. -/
theorem push_back_absorbed (v : T) (k : Nat) :
    ∀ d : Deque T, d.WF → d.end_.lin + k ≤ 32 * (d.blocks_.length : Int) - 1 →
      (d.run (List.replicate k (Op.push_back v))).WF ∧
        (d.run (List.replicate k (Op.push_back v))).blocks_.length = d.blocks_.length ∧
        (d.run (List.replicate k (Op.push_back v))).end_.lin = d.end_.lin + k := by
  induction k with
  | zero => intro d h _; exact ⟨h, rfl, by simp [run]⟩
  | succ k ih =>
    intro d h hr
    obtain ⟨i1, i2, i3⟩ := ih d h (by omega)
    rw [run_replicate_succ]
    obtain ⟨e1, e2⟩ := push_back_no_growth i1 (by rw [i2, i3]; omega) v
    refine ⟨(push_back_spec i1 v).1, by rw [← i2]; exact e1, ?_⟩
    show (Deque.push_back _ v).end_.lin = _
    rw [e2, i3]; push_cast; omega

/-- While head room lasts, `push_front` calls keep the block array. -/
theorem push_front_absorbed (v : T) (k : Nat) :
    ∀ d : Deque T, d.WF → (k : Int) ≤ d.begin_.lin →
      (d.run (List.replicate k (Op.push_front v))).WF ∧
        (d.run (List.replicate k (Op.push_front v))).blocks_.length = d.blocks_.length ∧
        (d.run (List.replicate k (Op.push_front v))).begin_.lin = d.begin_.lin - k := by
  induction k with
  | zero => intro d h _; exact ⟨h, rfl, by simp [run]⟩
  | succ k ih =>
    intro d h hr
    obtain ⟨i1, i2, i3⟩ := ih d h (by omega)
    rw [run_replicate_succ]
    obtain ⟨e1, e2⟩ := push_front_no_growth i1 (by rw [i3]; omega) v
    refine ⟨(push_front_spec i1 v).1, by rw [← i2]; exact e1, ?_⟩
    show (Deque.push_front _ v).begin_.lin = _
    rw [e2, i3]; push_cast; omega

theorem ctor_lin : (ctor : Deque T).begin_.lin = 32 ∧ (ctor : Deque T).end_.lin = 32 ∧
    (ctor : Deque T).blocks_.length = 3 := ⟨rfl, rfl, rfl⟩

end Deque

/-- C19 fails: the default-constructed deque has head room 32 and tail room
63, and 33 calls of `push_back` are absorbed without growth (3 blocks) while
the 33rd `push_front` grows the array (9 blocks). -/
theorem C19_room_is_not_symmetric :
    ¬ ((Deque.ctor : Deque Nat).begin_diff = (Deque.ctor : Deque Nat).end_diff) ∧
      (Deque.ctor : Deque Nat).begin_diff = 32 ∧ (Deque.ctor : Deque Nat).end_diff = 63 ∧
      ((Deque.ctor : Deque Nat).run (List.replicate 33 (Op.push_back 0))).blocks_.length = 3 ∧
      ((Deque.ctor : Deque Nat).run (List.replicate 33 (Op.push_front 0))).blocks_.length = 9 := by
  refine ⟨by decide, by decide, by decide, ?_, ?_⟩
  · have h := Deque.push_back_absorbed (0 : Nat) 33 Deque.ctor Deque.wf_ctor (by decide)
    exact h.2.1
  · obtain ⟨h1, h2, h3⟩ :=
      Deque.push_front_absorbed (0 : Nat) 32 Deque.ctor Deque.wf_ctor (by decide)
    rw [Deque.run_replicate_succ]
    have := Deque.push_front_growth h1 (by rw [h3]; decide) (0 : Nat)
    rw [h2] at this
    exact this

/-- C19 as amended: the default-constructed deque is empty (`size() == 0`,
`begin == end`), has exactly 3 blocks, and its live range sits at offset 0 of
the middle block; the head room is 32 slots and the tail room 63 slots, so up
to 32 `push_front` calls and up to 63 `push_back` calls keep the 3 blocks, and
the 33rd `push_front` and the 64th `push_back` grow the array to 9 blocks. -/
theorem C19_default_construction {T : Type} (v : T) (k : Nat) :
    (Deque.ctor : Deque T).size = 0 ∧
      (Deque.ctor : Deque T).begin = (Deque.ctor : Deque T).end ∧
      (Deque.ctor : Deque T).blocks_.length = 3 ∧
      (Deque.ctor : Deque T).begin = CommonIterator.mk 1 0 ∧
      (Deque.ctor : Deque T).begin_diff = 32 ∧ (Deque.ctor : Deque T).end_diff = 63 ∧
      (k ≤ 32 → ((Deque.ctor : Deque T).run (List.replicate k (Op.push_front v))).blocks_.length = 3) ∧
      ((Deque.ctor : Deque T).run (List.replicate 33 (Op.push_front v))).blocks_.length = 9 ∧
      (k ≤ 63 → ((Deque.ctor : Deque T).run (List.replicate k (Op.push_back v))).blocks_.length = 3) ∧
      ((Deque.ctor : Deque T).run (List.replicate 64 (Op.push_back v))).blocks_.length = 9 := by
  obtain ⟨c1, c2, c3⟩ := Deque.ctor_lin (T := T)
  refine ⟨rfl, rfl, rfl, rfl, rfl, rfl, ?_, ?_, ?_, ?_⟩
  · intro hk
    exact (Deque.push_front_absorbed v k Deque.ctor Deque.wf_ctor (by rw [c1]; omega)).2.1
  · obtain ⟨h1, h2, h3⟩ :=
      Deque.push_front_absorbed v 32 Deque.ctor Deque.wf_ctor (by rw [c1]; decide)
    rw [Deque.run_replicate_succ]
    have := Deque.push_front_growth h1 (by rw [h3, c1]; decide) v
    rw [h2] at this
    exact this
  · intro hk
    exact (Deque.push_back_absorbed v k Deque.ctor Deque.wf_ctor (by rw [c2, c3]; omega)).2.1
  · obtain ⟨h1, h2, h3⟩ :=
      Deque.push_back_absorbed v 63 Deque.ctor Deque.wf_ctor (by rw [c2, c3]; decide)
    rw [Deque.run_replicate_succ]
    have := Deque.push_back_growth h1 (by rw [h3, h2, c2, c3]; decide) v
    rw [h2] at this
    exact this

/-- C19 as amended, at `k = 32` with the value 5. -/
theorem C19_default_construction_witness :
    ((Deque.ctor : Deque Nat).run (List.replicate 32 (Op.push_front 5))).blocks_.length = 3 ∧
      ((Deque.ctor : Deque Nat).run (List.replicate 32 (Op.push_back 5))).blocks_.length = 3 ∧
      ((Deque.ctor : Deque Nat).run (List.replicate 33 (Op.push_front 5))).blocks_.length = 9 :=
  have h := C19_default_construction (5 : Nat) 32
  ⟨h.2.2.2.2.2.2.1 (by decide), h.2.2.2.2.2.2.2.2.1 (by decide), h.2.2.2.2.2.2.2.1⟩

/-! ## Constructed slots under pop and erase (claims C18, C20) -/

theorem rd_out_of_newBlocks {T : Type} (n : Nat) (m : Int) :
    rd (List.replicate n (newBlock T)) m = none := by
  unfold rd readSlot
  split
  · rfl
  · simp only [List.getD_eq_getElem?_getD, List.getElem?_replicate]
    split
    · exact getD_newBlock T _
    · rfl

namespace Deque
variable {T : Type}

theorem exactlyLive_ctor : (ctor : Deque T).ExactlyLive := by
  intro m
  have hb : (ctor : Deque T).blocks_ = List.replicate 3 (newBlock T) := allocate_replicate 3
  have h1 : (ctor : Deque T).begin_.lin = 32 := rfl
  have h2 : (ctor : Deque T).end_.lin = 32 := rfl
  rw [hb, rd_out_of_newBlocks, h1, h2]
  constructor
  · intro h; cases h
  · intro h; omega

theorem exactlyLive_grow {d : Deque T} (h : d.WF) (hl : d.ExactlyLive) (c : Bool) :
    (if c then d.reallocate else d).ExactlyLive := by
  obtain ⟨g1, g2, k, g3, g4, g5, g6, g7, g8⟩ := grow_spec h c
  intro m
  have := g8 (m - k)
  rw [show m - k + k = m by omega] at this
  rw [this, hl (m - k), g6, g7]
  constructor <;> intro h' <;> omega

/-- `push_back` keeps the live range equal to the set of constructed slots. -/
theorem exactlyLive_push_back {d : Deque T} (h : d.WF) (hl : d.ExactlyLive) (v : T) :
    (d.push_back v).ExactlyLive := by
  obtain ⟨g1, g2, k, g3, g4, g5, g6, g7, g8⟩ := grow_spec h (d.end_.op_eq d.true_end_)
  have hg := exactlyLive_grow h hl (d.end_.op_eq d.true_end_)
  have hc := op_eq_true_end h
  have h9 := ((wf_iff d).mp h).2.2.2.2.2.2.2.2.1
  have hpb : d.push_back v =
      { (if d.end_.op_eq d.true_end_ then d.reallocate else d) with
        blocks_ := writeSlot (if d.end_.op_eq d.true_end_ then d.reallocate else d).blocks_
          (if d.end_.op_eq d.true_end_ then d.reallocate else d).end_ (some v)
        end_ := (if d.end_.op_eq d.true_end_ then d.reallocate else d).end_.op_inc
        size_ := (if d.end_.op_eq d.true_end_ then d.reallocate else d).size_ + 1 } := rfl
  rw [hpb]
  generalize (if d.end_.op_eq d.true_end_ then d.reallocate else d) = d1 at *
  obtain ⟨w1, w2, w3, w4, w5, w6, w7, w8, w9, w10⟩ := (wf_iff d1).mp g1
  have hlt : d1.end_.lin < 32 * (d1.blocks_.length : Int) - 1 := by
    by_cases c : d.end_.op_eq d.true_end_ = true
    · have := g5 c; omega
    · have : d.end_.lin ≠ 32 * (d.blocks_.length : Int) - 1 := fun e => c (hc.mpr e)
      omega
  have hin : InAlloc d1.blocks_ d1.end_ := (inAlloc_iff _ w6).mpr ⟨by omega, by omega⟩
  intro m
  show (rd (writeSlot d1.blocks_ d1.end_ (some v)) m).isSome = true ↔
    d1.begin_.lin ≤ m ∧ m < d1.end_.op_inc.lin
  rw [rd_writeSlot w2 hin, CommonIterator.lin_op_inc w6]
  by_cases c : m = d1.end_.lin
  · rw [if_pos c]
    constructor
    · intro _; omega
    · intro _; rfl
  · rw [if_neg c, hg m]
    constructor <;> intro h' <;> omega

/-- `pop_front` keeps the live range equal to the set of constructed slots. -/
theorem exactlyLive_pop_front {d : Deque T} (h : d.WF) (_hne : d.size_ ≠ 0)
    (hl : d.ExactlyLive) : d.pop_front.ExactlyLive := by
  obtain ⟨w1, w2, w3, w4, w5, w6, w7, w8, w9, w10⟩ := (wf_iff d).mp h
  have hin : InAlloc d.blocks_ d.begin_ := (inAlloc_iff _ w5).mpr ⟨by omega, by omega⟩
  intro m
  show (rd (writeSlot d.blocks_ d.begin_ none) m).isSome = true ↔
    d.begin_.op_inc.lin ≤ m ∧ m < d.end_.lin
  rw [rd_writeSlot w2 hin, CommonIterator.lin_op_inc w5]
  by_cases c : m = d.begin_.lin
  · rw [if_pos c]
    constructor
    · intro h'; cases h'
    · intro h'; omega
  · rw [if_neg c, hl m]
    constructor <;> intro h' <;> omega

/-- `pop_back` destroys the slot at `end_` and leaves the last element
constructed: after the call the slot just outside the live range still holds
it. -/
theorem pop_back_leaves_last_element {d : Deque T} (h : d.WF) (hne : d.size_ ≠ 0)
    (hl : d.ExactlyLive) :
    d.pop_back.deref d.pop_back.end_ = d.deref (d.end_.op_minus 1) ∧
      (d.pop_back.deref d.pop_back.end_).isSome = true ∧
      ¬ d.pop_back.ExactlyLive := by
  obtain ⟨w1, w2, w3, w4, w5, w6, w7, w8, w9, w10⟩ := (wf_iff d).mp h
  have hin : InAlloc d.blocks_ d.end_ := (inAlloc_iff _ w6).mpr ⟨by omega, by omega⟩
  have hn := CommonIterator.norm_op_dec w6
  have hld := CommonIterator.lin_op_dec w6
  have e1 : d.pop_back.deref d.pop_back.end_ = rd d.blocks_ (d.end_.lin - 1) := by
    show readSlot (writeSlot d.blocks_ d.end_ none) d.end_.op_dec = _
    rw [readSlot_eq_rd _ hn, rd_writeSlot w2 hin, hld, if_neg (by omega)]
  have e2 : d.deref (d.end_.op_minus 1) = rd d.blocks_ (d.end_.lin - 1) := by
    show readSlot d.blocks_ (d.end_.op_minus 1) = _
    rw [readSlot_eq_rd _ (CommonIterator.norm_op_minus _ _), CommonIterator.lin_op_minus]
  have e3 : (rd d.blocks_ (d.end_.lin - 1)).isSome = true := (hl _).mpr ⟨by omega, by omega⟩
  refine ⟨by rw [e1, e2], by rw [e1]; exact e3, fun hc => ?_⟩
  have := (hc (d.end_.lin - 1)).mp (by
    show (rd (writeSlot d.blocks_ d.end_ none) (d.end_.lin - 1)).isSome = true
    rw [rd_writeSlot w2 hin, if_neg (by omega)]; exact e3)
  have hx : d.pop_back.end_.lin = d.end_.lin - 1 := hld
  omega

theorem erase_loop_sources_end (end_ : CommonIterator) (he : end_.Norm) (fuel : Nat) :
    ∀ cur : CommonIterator, cur.Norm → cur.lin < end_.lin → end_.lin - cur.lin ≤ fuel →
      end_ ∈ erase_loop_sources fuel end_ cur := by
  induction fuel with
  | zero => intro cur _ h1 h2; omega
  | succ n ih =>
    intro cur hc h1 h2
    unfold erase_loop_sources
    rw [if_pos ((CommonIterator.op_lt_lin hc he).mpr h1)]
    by_cases c : cur.lin + 1 = end_.lin
    · have : cur.op_plus 1 = end_ :=
        CommonIterator.eq_of_lin (CommonIterator.norm_op_plus _ _) he
          (by rw [CommonIterator.lin_op_plus]; exact c)
      rw [this]
      exact List.mem_cons_self _ _
    · exact List.mem_cons_of_mem _ (ih cur.op_inc (CommonIterator.norm_op_inc hc)
        (by rw [CommonIterator.lin_op_inc hc]; omega)
        (by rw [CommonIterator.lin_op_inc hc]; omega))

/-- For every position of the live range, `erase` reads the slot at `end_`
as the source of its last copy-assignment. -/
theorem erase_reads_end {d : Deque T} (h : d.WF) (it : CommonIterator) (hit : it.Norm)
    (_h1 : d.begin_.lin ≤ it.lin) (h2 : it.lin < d.end_.lin) :
    d.end_ ∈ d.erase_sources it := by
  obtain ⟨w1, w2, w3, w4, w5, w6, w7, w8, w9, w10⟩ := (wf_iff d).mp h
  exact erase_loop_sources_end d.end_ w6 _ it hit h2 (by rw [CommonIterator.op_diff_lin]; omega)

end Deque

/-- C18 on the deque `[1, 2, 3]`: `pop_back` leaves the last element `3`
constructed in the slot `end - 1`, which after the call is the slot `end`,
outside the live range; `pop_front` on the same deque destroys the slot
`begin`. -/
theorem C18_pop_back_destroys_wrong_slot :
    sample123.deref (sample123.end_.op_minus 1) = some 3 ∧
      sample123.pop_back.deref (sample123.end_.op_minus 1) = some 3 ∧
      sample123.pop_back.end_ = sample123.end_.op_minus 1 ∧
      sample123.pop_back.size = 2 ∧
      sample123.pop_front.deref sample123.begin_ = none ∧
      sample123.pop_front.begin_ = sample123.begin_.op_plus 1 := by
  decide

/-- C20 on the deque `[1, 2, 3]`: `erase(begin())` dereferences `begin + 1`,
`begin + 2` and `begin + 3` as sources, and `begin + 3` is `end`, a slot that
holds no constructed element. -/
theorem C20_erase_reads_slot_at_end :
    sample123.erase_sources (sample123.begin.op_plus 0) =
        [sample123.begin.op_plus 1, sample123.begin.op_plus 2, sample123.begin.op_plus 3] ∧
      sample123.begin.op_plus 3 = sample123.end ∧
      sample123.end ∈ sample123.erase_sources (sample123.begin.op_plus 0) ∧
      sample123.deref sample123.end = none ∧
      sample123.size = 3 := by
  decide

/-! ## Failure inside push_front (claim C15) -/

namespace Deque
variable {T : Type}

theorem toList_grow {d : Deque T} (h : d.WF) (c : Bool) :
    (if c then d.reallocate else d).toList = d.toList := by
  obtain ⟨g1, g2, k, g3, g4, g5, g6, g7, g8⟩ := grow_spec h c
  rw [toList_eq_rd, toList_eq_rd, g2]
  apply List.map_congr_left
  intro i _
  rw [g6, ← g8]
  congr 1; omega

/-- When the copy constructor returns, `push_front_ex` is `push_front`. -/
theorem push_front_ex_returns (copy : T → Option T) (d : Deque T) (value v : T)
    (hc : copy value = some v) :
    d.push_front_ex copy value = Outcome.returned (d.push_front v) := by
  unfold push_front_ex
  simp only [hc]
  rfl

theorem push_front_ex_throws (copy : T → Option T) (d : Deque T) (value : T)
    (hc : copy value = none) :
    d.push_front_ex copy value = Outcome.thrown
      { (if d.begin_.op_eq d.true_begin_ then d.reallocate else d) with
        begin_ := (if d.begin_.op_eq d.true_begin_ then d.reallocate else d).begin_.op_dec.op_inc
        size_ := decSizeT ((if d.begin_.op_eq d.true_begin_ then d.reallocate else d).size_ + 1) } := by
  unfold push_front_ex
  simp only [hc]

end Deque

/-- C15: when the construction of the element fails inside `push_front`, the
exception leaves the call and the deque has its previous `size()`, its
previous logical sequence and its previous `end - begin`, with or without a
growth step before the failure; without growth the whole state is the
previous one. -/
theorem C15_push_front_failure_restores {T : Type} (copy : T → Option T) (d : Deque T)
    (h : d.WF) (value : T) (hf : copy value = none) :
    ∃ d' : Deque T, d.push_front_ex copy value = Outcome.thrown d' ∧
      d'.size = d.size ∧ d'.toList = d.toList ∧
      d'.end.op_diff d'.begin = d.end.op_diff d.begin ∧ d'.WF ∧
      (d.begin_.op_eq d.true_begin_ = true → d'.blocks_.length = 3 * d.blocks_.length) ∧
      (d.begin_.op_eq d.true_begin_ = false → d' = d) := by
  obtain ⟨g1, g2, k, g3, g4, g5, g6, g7, g8⟩ := Deque.grow_spec h (d.begin_.op_eq d.true_begin_)
  have ht := Deque.toList_grow h (d.begin_.op_eq d.true_begin_)
  have hthrow := Deque.push_front_ex_throws copy d value hf
  have hlenT : d.begin_.op_eq d.true_begin_ = true →
      (if d.begin_.op_eq d.true_begin_ then d.reallocate else d).blocks_.length
        = 3 * d.blocks_.length := by
    intro c; rw [c]; exact (Deque.reallocate_spec h).2.2.1
  have hsame : d.begin_.op_eq d.true_begin_ = false →
      (if d.begin_.op_eq d.true_begin_ then d.reallocate else d) = d := by
    intro c; rw [c]; rfl
  generalize (if d.begin_.op_eq d.true_begin_ then d.reallocate else d) = d1 at *
  obtain ⟨w1, w2, w3, w4, w5, w6, w7, w8, w9, w10⟩ := (Deque.wf_iff d1).mp g1
  have hb : d1.begin_.op_dec.op_inc = d1.begin_ := by
    have hd := CommonIterator.norm_op_dec w5
    apply CommonIterator.eq_of_lin (CommonIterator.norm_op_inc hd) w5
    rw [CommonIterator.lin_op_inc hd, CommonIterator.lin_op_dec w5]; omega
  have hs : decSizeT (d1.size_ + 1) = d1.size_ := by
    unfold decSizeT; rw [if_neg (by omega)]; rfl
  rw [hb, hs] at hthrow
  have hd1 : ({ d1 with begin_ := d1.begin_, size_ := d1.size_ } : Deque T) = d1 := rfl
  rw [hd1] at hthrow
  refine ⟨d1, hthrow, g2, ht, ?_, g1, hlenT, hsame⟩
  show d1.end_.op_diff d1.begin_ = d.end_.op_diff d.begin_
  rw [CommonIterator.op_diff_lin, CommonIterator.op_diff_lin, g6, g7]; omega

/-- C15 on `Deque(31, 7)`, whose `begin == true_begin` makes `push_front` grow
the array before the construction fails. -/
theorem C15_push_front_failure_restores_witness :
    sampleFull.WF ∧ sampleFull.begin_.op_eq sampleFull.true_begin_ = true ∧
      ∃ d' : Deque Nat, sampleFull.push_front_ex (fun _ => none) 5 = Outcome.thrown d' ∧
        d'.size = sampleFull.size ∧ d'.toList = sampleFull.toList ∧
        d'.blocks_.length = 3 * sampleFull.blocks_.length :=
  have hw : sampleFull.WF := by set_option maxRecDepth 20000 in decide
  have hg : sampleFull.begin_.op_eq sampleFull.true_begin_ = true := by decide
  have h := C15_push_front_failure_restores (fun _ => none) sampleFull hw 5 rfl
  ⟨hw, hg, h.elim fun d' hd => ⟨d', hd.1, hd.2.1, hd.2.2.1, hd.2.2.2.2.2.1 hg⟩⟩

/-! ## Copy construction (claim C12) -/

theorem allFull_replicate_newBlock (T : Type) (n : Nat) :
    AllFull (List.replicate n (newBlock T)) := by
  intro b hb
  rw [List.eq_of_mem_replicate hb]
  exact List.length_replicate _ _

namespace Deque
variable {T : Type}

theorem op_ne_lin {a b : CommonIterator} (ha : a.Norm) (hb : b.Norm) :
    a.op_ne b = true ↔ a.lin ≠ b.lin := by
  unfold CommonIterator.op_ne
  rw [Bool.not_eq_true', ← Bool.not_eq_true, CommonIterator.op_eq_iff]
  constructor
  · intro h e; exact h (CommonIterator.eq_of_lin ha hb e)
  · intro h e; exact h (by rw [e])

theorem copy_loop_spec (src : List (Block T)) (end_ : CommonIterator) (he : end_.Norm)
    (fuel : Nat) :
    ∀ (blocks : List (Block T)) (that cur : CommonIterator), AllFull blocks → that.Norm →
      cur.Norm → that.lin ≤ end_.lin → 0 ≤ cur.lin →
      cur.lin + (end_.lin - that.lin) ≤ 32 * (blocks.length : Int) →
      end_.lin - that.lin ≤ fuel →
      (copy_loop fuel src blocks that end_ cur).length = blocks.length ∧
        AllFull (copy_loop fuel src blocks that end_ cur) ∧
        ∀ m, rd (copy_loop fuel src blocks that end_ cur) m =
          if cur.lin ≤ m ∧ m < cur.lin + (end_.lin - that.lin)
          then rd src (m - cur.lin + that.lin) else rd blocks m := by
  induction fuel with
  | zero =>
    intro blocks that cur hf _ _ _ _ _ hd
    refine ⟨rfl, hf, fun m => ?_⟩
    rw [if_neg (by omega)]; rfl
  | succ n ih =>
    intro blocks that cur hf ht hc hle h0 hb hd
    unfold copy_loop
    by_cases g : that.op_ne end_ = true
    · rw [if_pos g]
      have hlt : that.lin < end_.lin := by
        have := (op_ne_lin ht he).mp g; omega
      have hin : InAlloc blocks cur := (inAlloc_iff _ hc).mpr ⟨by omega, by omega⟩
      have hli := CommonIterator.lin_op_inc hc
      have hlt' := CommonIterator.lin_op_inc ht
      obtain ⟨i1, i2, i3⟩ := ih (writeSlot blocks cur (readSlot src that)) that.op_inc cur.op_inc
        (allFull_writeSlot hf _ _) (CommonIterator.norm_op_inc ht) (CommonIterator.norm_op_inc hc)
        (by omega) (by omega) (by rw [length_writeSlot]; omega) (by omega)
      refine ⟨by rw [i1, length_writeSlot], i2, fun m => ?_⟩
      rw [i3, hli, hlt', rd_writeSlot hf hin, readSlot_eq_rd _ ht]
      by_cases c1 : cur.lin + 1 ≤ m ∧ m < cur.lin + 1 + (end_.lin - (that.lin + 1))
      · rw [if_pos c1, if_pos (by omega)]
        congr 1; omega
      · rw [if_neg c1]
        by_cases c2 : m = cur.lin
        · rw [if_pos c2, if_pos (by omega)]
          congr 1; omega
        · rw [if_neg c2, if_neg (by omega)]
    · rw [if_neg g]
      have hlt : ¬ that.lin ≠ end_.lin := fun c => g ((op_ne_lin ht he).mpr c)
      refine ⟨rfl, hf, fun m => ?_⟩
      rw [if_neg (by omega)]

/-- The fuel the copy constructor passes to its loop is enough. -/
theorem copy_loop_fuel (src : List (Block T)) (end_ : CommonIterator) (he : end_.Norm)
    (n : Nat) :
    ∀ (blocks : List (Block T)) (that cur : CommonIterator), that.Norm →
      that.lin ≤ end_.lin → end_.lin - that.lin ≤ n →
      copy_loop (n + 1) src blocks that end_ cur = copy_loop n src blocks that end_ cur := by
  induction n with
  | zero =>
    intro blocks that cur ht hle hd
    have g : ¬ that.op_ne end_ = true := fun c => (op_ne_lin ht he).mp c (by omega)
    unfold copy_loop
    rw [if_neg g]
  | succ n ih =>
    intro blocks that cur ht hle hd
    rw [copy_loop.eq_def (n + 1 + 1), copy_loop.eq_def (n + 1)]
    simp only []
    by_cases g : that.op_ne end_ = true
    · rw [if_pos g, if_pos g]
      have hlt : that.lin < end_.lin := by
        have := (op_ne_lin ht he).mp g; omega
      exact ih _ _ _ (CommonIterator.norm_op_inc ht)
        (by rw [CommonIterator.lin_op_inc ht]; omega)
        (by rw [CommonIterator.lin_op_inc ht]; omega)
    · rw [if_neg g, if_neg g]

/-- Boundaries computed by `initiate_iterators` from the head and tail room of
a well-formed deque with the same number of blocks are that deque's
boundaries. -/
theorem initiate_iterators_of_wf {other : Deque T} (h : other.WF) (d : Deque T)
    (hl : d.blocks_.length = other.blocks_.length) :
    (d.initiate_iterators other.begin_diff other.end_diff).true_begin_ = other.true_begin_ ∧
      (d.initiate_iterators other.begin_diff other.end_diff).begin_ = other.begin_ ∧
      (d.initiate_iterators other.begin_diff other.end_diff).true_end_ = other.true_end_ ∧
      (d.initiate_iterators other.begin_diff other.end_diff).end_ = other.end_ ∧
      (d.initiate_iterators other.begin_diff other.end_diff).blocks_ = d.blocks_ ∧
      (d.initiate_iterators other.begin_diff other.end_diff).size_ = d.size_ := by
  obtain ⟨w1, w2, w3, w4, w5, w6, w7, w8, w9, w10⟩ := (wf_iff other).mp h
  have hte : (d.initiate_iterators other.begin_diff other.end_diff).true_end_ =
      other.true_end_ := by
    show CommonIterator.mk ((decSizeT d.blocks_.length : Nat) : Int) ((kBlockSize : Nat) - 1 : Int)
      = _
    rw [w4, hl]
    unfold decSizeT kBlockSize
    rw [if_neg (by omega)]
    congr 1
    omega
  refine ⟨w3.symm, ?_, hte, ?_, rfl, rfl⟩
  · show (CommonIterator.mk 0 0).op_plus (other.begin_.op_diff other.true_begin_) = _
    apply CommonIterator.eq_of_lin (CommonIterator.norm_op_plus _ _) w5
    rw [CommonIterator.lin_op_plus, CommonIterator.op_diff_lin, w3]
    simp only [CommonIterator.lin]; omega
  · show ((d.initiate_iterators other.begin_diff other.end_diff).true_end_).op_minus
      (other.true_end_.op_diff other.end_) = _
    rw [hte]
    apply CommonIterator.eq_of_lin (CommonIterator.norm_op_minus _ _) w6
    rw [CommonIterator.lin_op_minus, CommonIterator.op_diff_lin]
    omega

theorem ctor_copy_spec {other : Deque T} (h : other.WF) :
    (ctor_copy other).1.WF ∧ (ctor_copy other).1.size_ = other.size_ ∧
      (ctor_copy other).1.blocks_.length = other.blocks_.length ∧
      (ctor_copy other).1.true_begin_ = other.true_begin_ ∧
      (ctor_copy other).1.begin_ = other.begin_ ∧
      (ctor_copy other).1.true_end_ = other.true_end_ ∧
      (ctor_copy other).1.end_ = other.end_ ∧
      (∀ m, rd (ctor_copy other).1.blocks_ m =
        if other.begin_.lin ≤ m ∧ m < other.end_.lin then rd other.blocks_ m else none) ∧
      (ctor_copy other).2 = other := by
  obtain ⟨w1, w2, w3, w4, w5, w6, w7, w8, w9, w10⟩ := (wf_iff other).mp h
  have hal : allocate (List.replicate other.blocks_.length ([] : Block T)) =
      List.replicate other.blocks_.length (newBlock T) := allocate_replicate _
  obtain ⟨j1, j2, j3, j4, j5, j6⟩ := initiate_iterators_of_wf h
    ({ blocks_ := allocate (List.replicate other.blocks_.length [])
       size_ := other.size_
       true_begin_ := CommonIterator.mk 0 0, begin_ := CommonIterator.mk 0 0
       true_end_ := CommonIterator.mk 0 0, end_ := CommonIterator.mk 0 0 } : Deque T)
    (by show (allocate _).length = _; rw [hal, List.length_replicate])
  obtain ⟨l1, l2, l3⟩ := copy_loop_spec other.blocks_ other.end_ w6
    (other.end_.op_diff other.begin_).toNat (List.replicate other.blocks_.length (newBlock T))
    other.begin_ other.begin_ (allFull_replicate_newBlock T _) w5 w5 w8 w7
    (by rw [List.length_replicate]; omega) (by rw [CommonIterator.op_diff_lin]; omega)
  rw [List.length_replicate] at l1
  have hblocks : (ctor_copy other).1.blocks_ =
      copy_loop (other.end_.op_diff other.begin_).toNat other.blocks_
        (List.replicate other.blocks_.length (newBlock T)) other.begin_ other.end_
        other.begin_ := by
    show copy_loop _ _ (Deque.initiate_iterators _ _ _).blocks_ _ _
      (Deque.initiate_iterators _ _ _).begin_ = _
    rw [j5, j2]
    show copy_loop _ _ (allocate _) _ _ _ = _
    rw [hal]
    rfl
  have htb : (ctor_copy other).1.true_begin_ = other.true_begin_ := j1
  have hbg : (ctor_copy other).1.begin_ = other.begin_ := j2
  have hte : (ctor_copy other).1.true_end_ = other.true_end_ := j3
  have hen : (ctor_copy other).1.end_ = other.end_ := j4
  have hsz : (ctor_copy other).1.size_ = other.size_ := rfl
  refine ⟨(wf_iff _).mpr ⟨?_, ?_, ?_, ?_, ?_, ?_, ?_, ?_, ?_, ?_⟩, hsz, ?_, htb, hbg, hte, hen,
    ?_, rfl⟩
  · rw [hblocks, l1]; exact w1
  · rw [hblocks]; exact l2
  · rw [htb]; exact w3
  · rw [hte, hblocks, l1]; exact w4
  · rw [hbg]; exact w5
  · rw [hen]; exact w6
  · rw [hbg]; exact w7
  · rw [hbg, hen]; exact w8
  · rw [hen, hblocks, l1]; exact w9
  · rw [hbg, hen, hsz]; exact w10
  · rw [hblocks, l1]
  · intro m
    rw [hblocks, l3, rd_out_of_newBlocks]
    by_cases c : other.begin_.lin ≤ m ∧ m < other.end_.lin
    · rw [if_pos c, if_pos (by omega)]
      congr 1; omega
    · rw [if_neg c, if_neg (by omega)]

end Deque

/-- C12: copy construction from a well-formed deque gives a well-formed deque
with the same `size()`, the same logical sequence (slot `begin + i` of the
copy holds what slot `begin + i` of the source holds, for every `i < size()`),
the same number of blocks and the same head room and tail room; the source is
unchanged. -/
theorem C12_copy_construction {T : Type} (other : Deque T) (h : other.WF) :
    (Deque.ctor_copy other).1.size = other.size ∧
      (Deque.ctor_copy other).1.toList = other.toList ∧
      (∀ i : Nat, i < other.size →
        (Deque.ctor_copy other).1.deref ((Deque.ctor_copy other).1.op_index i) =
          other.deref (other.op_index i)) ∧
      (Deque.ctor_copy other).1.blocks_.length = other.blocks_.length ∧
      (Deque.ctor_copy other).1.begin_diff = other.begin_diff ∧
      (Deque.ctor_copy other).1.end_diff = other.end_diff ∧
      (Deque.ctor_copy other).2 = other ∧
      (Deque.ctor_copy other).1.WF := by
  obtain ⟨c1, c2, c3, c4, c5, c6, c7, c8, c9⟩ := Deque.ctor_copy_spec h
  obtain ⟨w1, w2, w3, w4, w5, w6, w7, w8, w9, w10⟩ := (Deque.wf_iff other).mp h
  have hpt : ∀ i : Nat, i < other.size_ →
      rd (Deque.ctor_copy other).1.blocks_ (other.begin_.lin + (i : Int)) =
        rd other.blocks_ (other.begin_.lin + (i : Int)) := by
    intro i hi
    rw [c8, if_pos (by omega)]
  refine ⟨c2, ?_, ?_, c3, ?_, ?_, c9, c1⟩
  · rw [Deque.toList_eq_rd, Deque.toList_eq_rd, c2, c5]
    apply List.map_congr_left
    intro i hi
    exact hpt i (List.mem_range.mp hi)
  · intro i hi
    show readSlot _ ((Deque.ctor_copy other).1.begin_.op_plus i) =
      readSlot _ (other.begin_.op_plus i)
    rw [c5, readSlot_eq_rd _ (CommonIterator.norm_op_plus _ _),
      readSlot_eq_rd _ (CommonIterator.norm_op_plus _ _), CommonIterator.lin_op_plus]
    exact hpt i hi
  · show (Deque.ctor_copy other).1.begin_.op_diff (Deque.ctor_copy other).1.true_begin_ =
      other.begin_.op_diff other.true_begin_
    rw [c4, c5]
  · show (Deque.ctor_copy other).1.true_end_.op_diff (Deque.ctor_copy other).1.end_ =
      other.true_end_.op_diff other.end_
    rw [c6, c7]

/-- C12 on the deque `[1, 2, 3]`. -/
theorem C12_copy_construction_witness :
    sample123.WF ∧ (Deque.ctor_copy sample123).1.size = 3 ∧
      (Deque.ctor_copy sample123).1.toList = [some 1, some 2, some 3] ∧
      (Deque.ctor_copy sample123).1.blocks_.length = 3 :=
  have h := C12_copy_construction sample123 (by decide)
  ⟨by decide, h.1, h.2.1, h.2.2.2.1⟩

/-! ## Loops of the copy assignment -/

theorem foldl_append_singleton {α β : Type} (f : α → β) (l : List α) :
    ∀ init : List β, l.foldl (fun acc i => acc ++ [f i]) init = init ++ l.map f := by
  induction l with
  | nil => intro init; simp
  | cons x xs ih =>
    intro init
    rw [List.foldl_cons, ih, List.map_cons, List.append_assoc]
    rfl

theorem clear_eq {T : Type} (blocks : List (Block T)) : clear blocks = blocks := by
  unfold clear forRange
  rw [foldl_append_singleton, List.nil_append]
  apply List.ext_getElem?
  intro j
  rw [List.getElem?_map, Nat.sub_zero]
  by_cases c : j < blocks.length
  · rw [List.getElem?_range' _ _ c, Option.map_some', List.getD_eq_getElem?_getD,
      List.getElem?_eq_getElem (by omega), List.getElem?_eq_getElem c]
    simp
  · rw [List.getElem?_eq_none (by simpa using c), List.getElem?_eq_none (by omega)]
    rfl

theorem copySlot_some {T : Type} (s : Option T) : copySlot some s = some s := by
  cases s <;> rfl

namespace Deque
variable {T : Type}

theorem delete_loop_spec (end_ : CommonIterator) (he : end_.Norm) (fuel : Nat) :
    ∀ (blocks : List (Block T)) (cur : CommonIterator), AllFull blocks → cur.Norm →
      0 ≤ cur.lin → end_.lin ≤ 32 * (blocks.length : Int) → end_.lin - cur.lin ≤ fuel →
      (delete_loop fuel blocks cur end_).length = blocks.length ∧
        AllFull (delete_loop fuel blocks cur end_) ∧
        ∀ m, rd (delete_loop fuel blocks cur end_) m =
          if cur.lin ≤ m ∧ m < end_.lin then none else rd blocks m := by
  induction fuel with
  | zero =>
    intro blocks cur hf _ _ _ hd
    refine ⟨rfl, hf, fun m => ?_⟩
    rw [if_neg (by omega)]; rfl
  | succ n ih =>
    intro blocks cur hf hc h0 hb hd
    unfold delete_loop
    by_cases g : cur.op_lt end_ = true
    · rw [if_pos g]
      have hlt : cur.lin < end_.lin := (CommonIterator.op_lt_lin hc he).mp g
      have hin : InAlloc blocks cur := (inAlloc_iff _ hc).mpr ⟨by omega, by omega⟩
      have hli := CommonIterator.lin_op_inc hc
      obtain ⟨i1, i2, i3⟩ := ih (writeSlot blocks cur none) cur.op_inc
        (allFull_writeSlot hf _ _) (CommonIterator.norm_op_inc hc) (by omega)
        (by rw [length_writeSlot]; omega) (by omega)
      refine ⟨by rw [i1, length_writeSlot], i2, fun m => ?_⟩
      rw [i3, hli, rd_writeSlot hf hin]
      by_cases c1 : cur.lin + 1 ≤ m ∧ m < end_.lin
      · rw [if_pos c1, if_pos (by omega)]
      · rw [if_neg c1]
        by_cases c2 : m = cur.lin
        · rw [if_pos c2, if_pos (by omega)]
        · rw [if_neg c2, if_neg (by omega)]
    · rw [if_neg g]
      have hlt : ¬ cur.lin < end_.lin := fun c => g ((CommonIterator.op_lt_lin hc he).mpr c)
      refine ⟨rfl, hf, fun m => ?_⟩
      rw [if_neg (by omega)]

theorem realloc_copy_loop_throw (copy : T → Option T) (n : Nat) (src blocks : List (Block T))
    (it end_ cur : CommonIterator) (g : it.op_lt end_ = true)
    (hcp : copySlot copy (readSlot src it) = none) :
    realloc_copy_loop copy (n + 1) src blocks it end_ cur = (false, blocks, cur) := by
  unfold realloc_copy_loop
  rw [if_pos g]
  simp only [hcp]

theorem realloc_copy_loop_step (copy : T → Option T) (n : Nat) (src blocks : List (Block T))
    (it end_ cur : CommonIterator) (g : it.op_lt end_ = true) (s : Option T)
    (hcp : copySlot copy (readSlot src it) = some s) :
    realloc_copy_loop copy (n + 1) src blocks it end_ cur =
      realloc_copy_loop copy n src (writeSlot blocks cur s) it.op_inc end_ cur.op_inc := by
  rw [realloc_copy_loop.eq_def copy (n + 1)]
  simp only []
  rw [if_pos g]
  simp only [hcp]

theorem realloc_copy_loop_stop (copy : T → Option T) (n : Nat) (src blocks : List (Block T))
    (it end_ cur : CommonIterator) (g : ¬ it.op_lt end_ = true) :
    realloc_copy_loop copy (n + 1) src blocks it end_ cur = (true, blocks, cur) := by
  unfold realloc_copy_loop
  rw [if_neg g]

theorem realloc_copy_loop_spec (copy : T → Option T) (src : List (Block T))
    (end_ : CommonIterator) (he : end_.Norm) (fuel : Nat) :
    ∀ (blocks : List (Block T)) (it cur : CommonIterator), AllFull blocks → it.Norm →
      cur.Norm → it.lin ≤ end_.lin → 0 ≤ cur.lin →
      cur.lin + (end_.lin - it.lin) ≤ 32 * (blocks.length : Int) →
      end_.lin - it.lin ≤ fuel →
      (realloc_copy_loop copy fuel src blocks it end_ cur).2.1.length = blocks.length ∧
        AllFull (realloc_copy_loop copy fuel src blocks it end_ cur).2.1 ∧
        (realloc_copy_loop copy fuel src blocks it end_ cur).2.2.Norm ∧
        cur.lin ≤ (realloc_copy_loop copy fuel src blocks it end_ cur).2.2.lin ∧
        (realloc_copy_loop copy fuel src blocks it end_ cur).2.2.lin ≤
          cur.lin + (end_.lin - it.lin) ∧
        (∀ m, m < cur.lin ∨ (realloc_copy_loop copy fuel src blocks it end_ cur).2.2.lin ≤ m →
          rd (realloc_copy_loop copy fuel src blocks it end_ cur).2.1 m = rd blocks m) ∧
        ((realloc_copy_loop copy fuel src blocks it end_ cur).1 = true →
          ∀ m, cur.lin ≤ m ∧ m < cur.lin + (end_.lin - it.lin) →
            copySlot copy (rd src (m - cur.lin + it.lin)) =
              some (rd (realloc_copy_loop copy fuel src blocks it end_ cur).2.1 m)) ∧
        ((∃ j, it.lin ≤ j ∧ j < end_.lin ∧ copySlot copy (rd src j) = none) →
          (realloc_copy_loop copy fuel src blocks it end_ cur).1 = false) := by
  induction fuel with
  | zero =>
    intro blocks it cur hf _ hc hle _ _ hd
    refine ⟨rfl, hf, hc, le_refl _, by show cur.lin ≤ _; omega, fun m _ => rfl, ?_, ?_⟩
    · intro _ m hm; omega
    · rintro ⟨j, j1, j2, _⟩; omega
  | succ n ih =>
    intro blocks it cur hf hi hc hle h0 hb hd
    by_cases g : it.op_lt end_ = true
    · have hlt : it.lin < end_.lin := (CommonIterator.op_lt_lin hi he).mp g
      have hin : InAlloc blocks cur := (inAlloc_iff _ hc).mpr ⟨by omega, by omega⟩
      have hlc := CommonIterator.lin_op_inc hc
      have hli := CommonIterator.lin_op_inc hi
      have hrs : readSlot src it = rd src it.lin := readSlot_eq_rd _ hi
      cases hcp : copySlot copy (readSlot src it) with
      | none =>
        rw [realloc_copy_loop_throw copy n src blocks it end_ cur g hcp]
        refine ⟨rfl, hf, hc, le_refl _, by show cur.lin ≤ _; omega, fun m _ => rfl, ?_, ?_⟩
        · intro h; cases h
        · intro _; rfl
      | some s =>
        rw [realloc_copy_loop_step copy n src blocks it end_ cur g s hcp]
        obtain ⟨i1, i2, i3, i4, i5, i6, i7, i8⟩ := ih (writeSlot blocks cur s) it.op_inc
          cur.op_inc (allFull_writeSlot hf _ _) (CommonIterator.norm_op_inc hi)
          (CommonIterator.norm_op_inc hc) (by omega) (by omega)
          (by rw [length_writeSlot]; omega) (by omega)
        refine ⟨by rw [i1, length_writeSlot], i2, i3, by omega, by omega, ?_, ?_, ?_⟩
        · intro m hm
          rw [i6 m (by omega), rd_writeSlot hf hin, if_neg (by omega)]
        · intro hok m hm
          by_cases c : m = cur.lin
          · rw [i6 m (by omega), rd_writeSlot hf hin, if_pos c, ← hcp, hrs]
            congr 2; omega
          · have := i7 hok m (by omega)
            rw [← this]
            congr 2; omega
        · rintro ⟨j, j1, j2, j3⟩
          by_cases c : j = it.lin
          · rw [hrs, ← c, j3] at hcp; cases hcp
          · exact i8 ⟨j, by omega, j2, j3⟩
    · rw [realloc_copy_loop_stop copy n src blocks it end_ cur g]
      have hlt : ¬ it.lin < end_.lin := fun c => g ((CommonIterator.op_lt_lin hi he).mpr c)
      refine ⟨rfl, hf, hc, le_refl _, by show cur.lin ≤ _; omega, fun m _ => rfl, ?_, ?_⟩
      · intro _ m hm; omega
      · rintro ⟨j, j1, j2, _⟩; omega

end Deque

/-! ## Copy assignment (claims C13, C16) -/

namespace Deque
variable {T : Type}

theorem reallocate_from_till_eq (copy : T → Option T) (d : Deque T) (sz : Nat)
    (src : List (Block T)) (b e : CommonIterator) (bd : Int) :
    d.reallocate_from_till copy sz src b e bd =
      if (realloc_copy_loop copy (e.op_diff b).toNat src (allocate (List.replicate sz [])) b e
          ((CommonIterator.mk 0 0).op_plus bd)).1 = false
      then Outcome.thrown (d, clear (delete_from_till
        (realloc_copy_loop copy (e.op_diff b).toNat src (allocate (List.replicate sz [])) b e
          ((CommonIterator.mk 0 0).op_plus bd)).2.1 ((CommonIterator.mk 0 0).op_plus bd)
        (realloc_copy_loop copy (e.op_diff b).toNat src (allocate (List.replicate sz [])) b e
          ((CommonIterator.mk 0 0).op_plus bd)).2.2))
      else Outcome.returned ({ d with blocks_ :=
        (realloc_copy_loop copy (e.op_diff b).toNat src (allocate (List.replicate sz [])) b e
          ((CommonIterator.mk 0 0).op_plus bd)).2.1 }, clear (d.delete_till d.end_)) := by
  unfold reallocate_from_till
  dsimp only
  generalize realloc_copy_loop copy (e.op_diff b).toNat src (allocate (List.replicate sz [])) b e
    ((CommonIterator.mk 0 0).op_plus bd) = r
  rcases r with ⟨ok, nb, c⟩
  cases ok
  · rfl
  · rfl

theorem begin_eq (d : Deque T) : d.begin = d.begin_ := rfl

theorem end_eq (d : Deque T) : d.end = d.end_ := rfl

/-- Facts about the copy loop of `a = b` for a well-formed source `b`. -/
theorem assign_loop_facts (copy : T → Option T) {b : Deque T} (h : b.WF) :
    (CommonIterator.mk 0 0).op_plus b.begin_diff = b.begin_ ∧
      (realloc_copy_loop copy (b.end_.op_diff b.begin_).toNat b.blocks_
        (allocate (List.replicate b.blocks_.length [])) b.begin_ b.end_ b.begin_).2.1.length
          = b.blocks_.length ∧
      AllFull (realloc_copy_loop copy (b.end_.op_diff b.begin_).toNat b.blocks_
        (allocate (List.replicate b.blocks_.length [])) b.begin_ b.end_ b.begin_).2.1 ∧
      (realloc_copy_loop copy (b.end_.op_diff b.begin_).toNat b.blocks_
        (allocate (List.replicate b.blocks_.length [])) b.begin_ b.end_ b.begin_).2.2.Norm ∧
      b.begin_.lin ≤ (realloc_copy_loop copy (b.end_.op_diff b.begin_).toNat b.blocks_
        (allocate (List.replicate b.blocks_.length [])) b.begin_ b.end_ b.begin_).2.2.lin ∧
      (realloc_copy_loop copy (b.end_.op_diff b.begin_).toNat b.blocks_
        (allocate (List.replicate b.blocks_.length [])) b.begin_ b.end_ b.begin_).2.2.lin
          ≤ b.end_.lin ∧
      (∀ m, m < b.begin_.lin ∨ (realloc_copy_loop copy (b.end_.op_diff b.begin_).toNat b.blocks_
          (allocate (List.replicate b.blocks_.length [])) b.begin_ b.end_ b.begin_).2.2.lin ≤ m →
        rd (realloc_copy_loop copy (b.end_.op_diff b.begin_).toNat b.blocks_
          (allocate (List.replicate b.blocks_.length [])) b.begin_ b.end_ b.begin_).2.1 m = none) ∧
      ((realloc_copy_loop copy (b.end_.op_diff b.begin_).toNat b.blocks_
          (allocate (List.replicate b.blocks_.length [])) b.begin_ b.end_ b.begin_).1 = true →
        ∀ m, b.begin_.lin ≤ m ∧ m < b.end_.lin →
          copySlot copy (rd b.blocks_ m) =
            some (rd (realloc_copy_loop copy (b.end_.op_diff b.begin_).toNat b.blocks_
              (allocate (List.replicate b.blocks_.length [])) b.begin_ b.end_ b.begin_).2.1 m)) ∧
      ((∃ j, b.begin_.lin ≤ j ∧ j < b.end_.lin ∧ copySlot copy (rd b.blocks_ j) = none) →
        (realloc_copy_loop copy (b.end_.op_diff b.begin_).toNat b.blocks_
          (allocate (List.replicate b.blocks_.length [])) b.begin_ b.end_ b.begin_).1 = false) := by
  obtain ⟨w1, w2, w3, w4, w5, w6, w7, w8, w9, w10⟩ := (wf_iff b).mp h
  have hal : allocate (List.replicate b.blocks_.length ([] : Block T)) =
      List.replicate b.blocks_.length (newBlock T) := allocate_replicate _
  have hnb : (CommonIterator.mk 0 0).op_plus b.begin_diff = b.begin_ := by
    show (CommonIterator.mk 0 0).op_plus (b.begin_.op_diff b.true_begin_) = _
    apply CommonIterator.eq_of_lin (CommonIterator.norm_op_plus _ _) w5
    rw [CommonIterator.lin_op_plus, CommonIterator.op_diff_lin, w3]
    simp only [CommonIterator.lin]; omega
  obtain ⟨s1, s2, s3, s4, s5, s6, s7, s8⟩ := realloc_copy_loop_spec copy b.blocks_ b.end_ w6
    (b.end_.op_diff b.begin_).toNat (List.replicate b.blocks_.length (newBlock T))
    b.begin_ b.begin_ (allFull_replicate_newBlock T _) w5 w5 w8 w7
    (by rw [List.length_replicate]; omega) (by rw [CommonIterator.op_diff_lin]; omega)
  rw [hal]
  rw [List.length_replicate] at s1
  refine ⟨hnb, s1, s2, s3, s4, by omega, ?_, ?_, s8⟩
  · intro m hm
    exact (s6 m hm).trans (rd_out_of_newBlocks _ _)
  · intro hok m hm
    have := s7 hok m (by omega)
    rw [← this]
    congr 2; omega

end Deque


namespace Deque
variable {T : Type}

theorem delete_from_till_spec {blocks : List (Block T)} (hf : AllFull blocks)
    {begin_ end_ : CommonIterator} (hb : begin_.Norm) (he : end_.Norm) (h0 : 0 ≤ begin_.lin)
    (h1 : end_.lin ≤ 32 * (blocks.length : Int)) :
    (delete_from_till blocks begin_ end_).length = blocks.length ∧
      AllFull (delete_from_till blocks begin_ end_) ∧
      ∀ m, rd (delete_from_till blocks begin_ end_) m =
        if begin_.lin ≤ m ∧ m < end_.lin then none else rd blocks m :=
  delete_loop_spec end_ he (end_.op_diff begin_).toNat blocks begin_ hf hb h0 h1
    (by rw [CommonIterator.op_diff_lin]; omega)

theorem realloc_copy_loop_ok_of_some (src : List (Block T)) (end_ : CommonIterator)
    (fuel : Nat) :
    ∀ (blocks : List (Block T)) (it cur : CommonIterator),
      (realloc_copy_loop some fuel src blocks it end_ cur).1 = true := by
  induction fuel with
  | zero => intro blocks it cur; rfl
  | succ n ih =>
    intro blocks it cur
    by_cases g : it.op_lt end_ = true
    · rw [realloc_copy_loop_step some n src blocks it end_ cur g _ (copySlot_some _)]
      exact ih _ _ _
    · rw [realloc_copy_loop_stop some n src blocks it end_ cur g]

theorem op_assign_throws (copy : T → Option T) (a : Deque T) {b : Deque T} (h : b.WF)
    (hf : (realloc_copy_loop copy (b.end_.op_diff b.begin_).toNat b.blocks_
      (allocate (List.replicate b.blocks_.length [])) b.begin_ b.end_ b.begin_).1 = false) :
    a.op_assign copy b = Outcome.thrown (a, b, delete_from_till
      (realloc_copy_loop copy (b.end_.op_diff b.begin_).toNat b.blocks_
        (allocate (List.replicate b.blocks_.length [])) b.begin_ b.end_ b.begin_).2.1 b.begin_
      (realloc_copy_loop copy (b.end_.op_diff b.begin_).toNat b.blocks_
        (allocate (List.replicate b.blocks_.length [])) b.begin_ b.end_ b.begin_).2.2) := by
  unfold op_assign
  rw [reallocate_from_till_eq]
  simp only [begin_eq, end_eq, (assign_loop_facts copy h).1]
  rw [if_pos hf, clear_eq]

theorem op_assign_returns (copy : T → Option T) (a : Deque T) {b : Deque T} (h : b.WF)
    (hf : (realloc_copy_loop copy (b.end_.op_diff b.begin_).toNat b.blocks_
      (allocate (List.replicate b.blocks_.length [])) b.begin_ b.end_ b.begin_).1 = true) :
    a.op_assign copy b = Outcome.returned
      ({ (({ a with blocks_ := (realloc_copy_loop copy (b.end_.op_diff b.begin_).toNat b.blocks_
            (allocate (List.replicate b.blocks_.length [])) b.begin_ b.end_ b.begin_).2.1 }
          : Deque T).initiate_iterators b.begin_diff b.end_diff) with size_ := b.size_ },
        b, a.delete_till a.end_) := by
  unfold op_assign
  rw [reallocate_from_till_eq]
  simp only [begin_eq, end_eq, (assign_loop_facts copy h).1]
  rw [if_neg (by rw [hf]; decide), clear_eq]

end Deque

/-- C16: when the copy of a source element fails during `a = b`, the exception
leaves the call with `a` in its previous state (same blocks, same boundary
iterators, same size, hence the same logical sequence) and `b` unchanged; the
replacement storage released by the call consists of all its blocks, and no
slot of it holds a constructed element any more. -/
theorem C16_assignment_failure_restores {T : Type} (copy : T → Option T) (a b : Deque T)
    (hb : b.WF) (i : Nat) (v : T) (hi : i < b.size)
    (hv : b.deref (b.op_index i) = some v) (hf : copy v = none) :
    ∃ released : List (Block T),
      a.op_assign copy b = Outcome.thrown (a, b, released) ∧
        released.length = b.blocks_.length ∧ ∀ m, rd released m = none := by
  obtain ⟨w1, w2, w3, w4, w5, w6, w7, w8, w9, w10⟩ := (Deque.wf_iff b).mp hb
  obtain ⟨f1, f2, f3, f4, f5, f6, f7, f8, f9⟩ := Deque.assign_loop_facts copy hb
  have hi' : i < b.size_ := hi
  have hrd : rd b.blocks_ (b.begin_.lin + i) = some v := by
    rw [← hv]
    show _ = readSlot b.blocks_ (b.begin_.op_plus i)
    rw [readSlot_eq_rd _ (CommonIterator.norm_op_plus _ _), CommonIterator.lin_op_plus]
  have hfail := f9 ⟨b.begin_.lin + i, by omega, by omega, by
    rw [hrd]; show (copy v).map some = none; rw [hf]; rfl⟩
  refine ⟨_, Deque.op_assign_throws copy a hb hfail, ?_, ?_⟩
  · exact (Deque.delete_from_till_spec f3 w5 f4 w7 (by rw [f2]; omega)).1.trans f2
  · intro m
    rw [(Deque.delete_from_till_spec f3 w5 f4 w7 (by rw [f2]; omega)).2.2 m]
    split
    · rfl
    · exact f7 m (by omega)

/-- C16 on `a = Deque(31, 7)`, `b = [1, 2, 3]`, with a copy constructor that
throws on the value 3. -/
theorem C16_assignment_failure_restores_witness :
    sample123.WF ∧ sample123.deref (sample123.op_index 2) = some 3 ∧
      ∃ released : List (Block Nat),
        sampleFull.op_assign (fun v => if v = 3 then none else some v) sample123 =
          Outcome.thrown (sampleFull, sample123, released) ∧
        released.length = sample123.blocks_.length ∧ ∀ m, rd released m = none :=
  ⟨by decide, by decide,
    C16_assignment_failure_restores (fun v => if v = 3 then none else some v) sampleFull
      sample123 (by decide) 2 3 (by decide) (by decide) (by decide)⟩

/-- C13: after `a = b` with a well-formed source `b` and any receiver `a`, the
receiver is well-formed and has `b`'s `size()`, `b`'s logical sequence, `b`'s
number of blocks and `b`'s head room and tail room; `b` is unchanged. -/
theorem C13_copy_assignment {T : Type} (a b : Deque T) (hb : b.WF) :
    ∃ (a' : Deque T) (released : List (Block T)),
      a.op_assign some b = Outcome.returned (a', b, released) ∧
        a'.size = b.size ∧ a'.toList = b.toList ∧
        a'.blocks_.length = b.blocks_.length ∧
        a'.begin_diff = b.begin_diff ∧ a'.end_diff = b.end_diff ∧ a'.WF := by
  obtain ⟨w1, w2, w3, w4, w5, w6, w7, w8, w9, w10⟩ := (Deque.wf_iff b).mp hb
  obtain ⟨f1, f2, f3, f4, f5, f6, f7, f8, f9⟩ := Deque.assign_loop_facts some hb
  have hok : (Deque.realloc_copy_loop some (b.end_.op_diff b.begin_).toNat b.blocks_
      (allocate (List.replicate b.blocks_.length [])) b.begin_ b.end_ b.begin_).1 = true := by
    exact Deque.realloc_copy_loop_ok_of_some b.blocks_ b.end_ _ _ _ _
  have hret := Deque.op_assign_returns some a hb hok
  have hcp := f8 hok
  generalize (Deque.realloc_copy_loop some (b.end_.op_diff b.begin_).toNat b.blocks_
      (allocate (List.replicate b.blocks_.length [])) b.begin_ b.end_ b.begin_) = r at *
  obtain ⟨j1, j2, j3, j4, j5, j6⟩ := Deque.initiate_iterators_of_wf hb
    ({ a with blocks_ := r.2.1 } : Deque T) f2
  generalize ({ a with blocks_ := r.2.1 } : Deque T).initiate_iterators b.begin_diff b.end_diff
    = a1 at *
  have hb5 : a1.blocks_ = r.2.1 := j5
  have hrd : ∀ m, b.begin_.lin ≤ m ∧ m < b.end_.lin → rd a1.blocks_ m = rd b.blocks_ m := by
    intro m hm
    have := hcp m hm
    rw [copySlot_some] at this
    rw [hb5]
    exact (Option.some.inj this).symm
  refine ⟨_, _, hret, rfl, ?_, ?_, ?_, ?_, ?_⟩
  · rw [Deque.toList_eq_rd, Deque.toList_eq_rd]
    show List.map (fun (i : Nat) => rd a1.blocks_ (a1.begin_.lin + (i : Int))) (List.range b.size_)
      = _
    rw [j2]
    apply List.map_congr_left
    intro i hi
    have := List.mem_range.mp hi
    exact hrd _ (by omega)
  · show a1.blocks_.length = _
    rw [hb5]; exact f2
  · show a1.begin_.op_diff a1.true_begin_ = b.begin_.op_diff b.true_begin_
    rw [j1, j2]
  · show a1.true_end_.op_diff a1.end_ = b.true_end_.op_diff b.end_
    rw [j3, j4]
  · apply (Deque.wf_iff _).mpr
    refine ⟨?_, ?_, ?_, ?_, ?_, ?_, ?_, ?_, ?_, ?_⟩
    · show 1 ≤ a1.blocks_.length
      rw [hb5, f2]; exact w1
    · show AllFull a1.blocks_
      rw [hb5]; exact f3
    · show a1.true_begin_ = _
      rw [j1]; exact w3
    · show a1.true_end_ = ⟨(a1.blocks_.length : Int) - 1, 31⟩
      rw [j3, hb5, f2]; exact w4
    · show a1.begin_.Norm
      rw [j2]; exact w5
    · show a1.end_.Norm
      rw [j4]; exact w6
    · show 0 ≤ a1.begin_.lin
      rw [j2]; exact w7
    · show a1.begin_.lin ≤ a1.end_.lin
      rw [j2, j4]; exact w8
    · show a1.end_.lin ≤ 32 * (a1.blocks_.length : Int) - 1
      rw [j4, hb5, f2]; exact w9
    · show (b.size_ : Int) = a1.end_.lin - a1.begin_.lin
      rw [j2, j4]; exact w10

/-- C13 on `a = Deque(31, 7)`, `b = [1, 2, 3]`. -/
theorem C13_copy_assignment_witness :
    sample123.WF ∧
      ∃ (a' : Deque Nat) (released : List (Block Nat)),
        sampleFull.op_assign some sample123 = Outcome.returned (a', sample123, released) ∧
          a'.size = 3 ∧ a'.toList = [some 1, some 2, some 3] ∧ a'.blocks_.length = 3 :=
  ⟨by decide,
    (C13_copy_assignment sampleFull sample123 (by decide)).elim fun a' h =>
      h.elim fun released h => ⟨a', released, h.1, h.2.1, h.2.2.1, h.2.2.2.1⟩⟩

/-! ## Sources read by erase and the fuel of the remaining loops -/

namespace Deque
variable {T : Type}

/-- The slots listed by `erase_loop_sources` are the ones the shift loop of
`erase` reads: the loop is the fold that, for each listed source `s`, assigns
the content of `s` to the slot `s - 1`. -/
theorem erase_loop_eq_foldl (end_ : CommonIterator) (fuel : Nat) :
    ∀ (blocks : List (Block T)) (cur : CommonIterator), cur.Norm →
      erase_loop fuel blocks end_ cur =
        (erase_loop_sources fuel end_ cur).foldl
          (fun b s => writeSlot b (s.op_minus 1) (readSlot b s)) blocks := by
  induction fuel with
  | zero => intro blocks cur _; rfl
  | succ n ih =>
    intro blocks cur hc
    unfold erase_loop erase_loop_sources
    by_cases g : cur.op_lt end_ = true
    · rw [if_pos g, if_pos g, List.foldl_cons]
      have e : (cur.op_plus 1).op_minus 1 = cur := by
        apply CommonIterator.eq_of_lin (CommonIterator.norm_op_minus _ _) hc
        rw [CommonIterator.lin_op_minus, CommonIterator.lin_op_plus]; omega
      rw [e]
      exact ih _ _ (CommonIterator.norm_op_inc hc)
    · rw [if_neg g, if_neg g]
      rfl

/-- The fuel `delete_from_till` passes to its loop is enough. -/
theorem delete_loop_fuel (end_ : CommonIterator) (he : end_.Norm) (n : Nat) :
    ∀ (blocks : List (Block T)) (cur : CommonIterator), cur.Norm → end_.lin - cur.lin ≤ n →
      delete_loop (n + 1) blocks cur end_ = delete_loop n blocks cur end_ := by
  induction n with
  | zero =>
    intro blocks cur hc hd
    have g : ¬ cur.op_lt end_ = true := fun c => by
      have := (CommonIterator.op_lt_lin hc he).mp c; omega
    unfold delete_loop
    rw [if_neg g]
  | succ n ih =>
    intro blocks cur hc hd
    rw [delete_loop.eq_def (n + 1 + 1), delete_loop.eq_def (n + 1)]
    simp only []
    by_cases g : cur.op_lt end_ = true
    · rw [if_pos g, if_pos g]
      exact ih _ _ (CommonIterator.norm_op_inc hc)
        (by rw [CommonIterator.lin_op_inc hc]; omega)
    · rw [if_neg g, if_neg g]

/-- The fuel `reallocate_from_till` passes to its copy loop is enough. -/
theorem realloc_copy_loop_fuel (copy : T → Option T) (src : List (Block T))
    (end_ : CommonIterator) (he : end_.Norm) (n : Nat) :
    ∀ (blocks : List (Block T)) (it cur : CommonIterator), it.Norm → end_.lin - it.lin ≤ n →
      realloc_copy_loop copy (n + 1) src blocks it end_ cur =
        realloc_copy_loop copy n src blocks it end_ cur := by
  induction n with
  | zero =>
    intro blocks it cur hi hd
    have g : ¬ it.op_lt end_ = true := fun c => by
      have := (CommonIterator.op_lt_lin hi he).mp c; omega
    rw [realloc_copy_loop_stop copy 0 src blocks it end_ cur g]
    rfl
  | succ n ih =>
    intro blocks it cur hi hd
    by_cases g : it.op_lt end_ = true
    · cases hcp : copySlot copy (readSlot src it) with
      | none =>
        rw [realloc_copy_loop_throw copy (n + 1) src blocks it end_ cur g hcp,
          realloc_copy_loop_throw copy n src blocks it end_ cur g hcp]
      | some s =>
        rw [realloc_copy_loop_step copy (n + 1) src blocks it end_ cur g s hcp,
          realloc_copy_loop_step copy n src blocks it end_ cur g s hcp]
        exact ih _ _ _ (CommonIterator.norm_op_inc hi)
          (by rw [CommonIterator.lin_op_inc hi]; omega)
    · rw [realloc_copy_loop_stop copy (n + 1) src blocks it end_ cur g,
        realloc_copy_loop_stop copy n src blocks it end_ cur g]

end Deque
